import Mathlib

/-!
# Readable PCI / USB names of node-feature-discovery

A shallow embedding of `source/pci/utils.go` and `source/usb/utils.go`.

A Go `string` is an arbitrary sequence of bytes, so it is modelled as a list of
bytes (`GoString`).  `len(s)` is `List.length`, `s[:n]` is `List.take n`.  The
functions of the Go standard library that the two files call (`strings.Fields`,
`strings.Trim`, `strings.Replace`, `strings.Index`, `strings.HasPrefix`,
`sort.Strings`, `sort.SearchStrings`) are modelled in the namespace `Go`,
following the library code: `Fields` and `Trim` decode UTF-8 the way
`utf8.DecodeRuneInString` does, an invalid byte being the rune `U+FFFD` of
width one.

A Go run-time panic (index or slice bounds out of range) is the result `none`.
The package variables `hiddenSuffixVendor` and `hiddenSuffixDevice` are sorted
in place by `inArray`; the functions that read them take the current value of
the variable and return its value after the call.
-/

namespace Go

/-- One byte of a Go string. -/
abbrev Byte := Fin 256

/-- A Go string: a sequence of bytes, not necessarily valid UTF-8. -/
abbrev GoString := List Byte

/-- The UTF-8 encoding of the code point `r` (used for string literals only). -/
def encodeRune (r : Nat) : GoString :=
  if r < 0x80 then [Fin.ofNat r]
  else if r < 0x800 then [Fin.ofNat (0xC0 + r / 64), Fin.ofNat (0x80 + r % 64)]
  else if r < 0x10000 then
    [Fin.ofNat (0xE0 + r / 4096), Fin.ofNat (0x80 + r / 64 % 64), Fin.ofNat (0x80 + r % 64)]
  else
    [Fin.ofNat (0xF0 + r / 262144), Fin.ofNat (0x80 + r / 4096 % 64),
     Fin.ofNat (0x80 + r / 64 % 64), Fin.ofNat (0x80 + r % 64)]

/-- The bytes of a string literal of the source. -/
def str (s : String) : GoString :=
  s.data.flatMap (fun c => encodeRune c.toNat)

/-- The byte of an ASCII character literal of the source. -/
def ch (c : Char) : Byte := Fin.ofNat c.toNat

/-- The rune `utf8.RuneError`. -/
def RuneError : Nat := 0xFFFD

/-- The table `first` of package `utf8`: information about the first byte of an
encoding.  `0xF0` is ASCII, `0xF1` is invalid, otherwise the low three bits are
the size and the high four bits index `acceptRanges`. -/
def first (b : Byte) : Nat :=
  if b.val < 0x80 then 0xF0
  else if b.val < 0xC2 then 0xF1
  else if b.val < 0xE0 then 0x02
  else if b.val = 0xE0 then 0x13
  else if b.val < 0xED then 0x03
  else if b.val = 0xED then 0x23
  else if b.val < 0xF0 then 0x03
  else if b.val = 0xF0 then 0x34
  else if b.val < 0xF4 then 0x04
  else if b.val = 0xF4 then 0x44
  else 0xF1

/-- The table `acceptRanges` of package `utf8`: the range of the second byte. -/
def acceptRanges (i : Nat) : Nat × Nat :=
  match i with
  | 0 => (0x80, 0xBF)
  | 1 => (0xA0, 0xBF)
  | 2 => (0x80, 0x9F)
  | 3 => (0x90, 0xBF)
  | 4 => (0x80, 0x8F)
  | _ => (0, 0)

/-- The byte at index `i`, as a number (0 past the end; callers check the length first). -/
def byteAt (s : GoString) (i : Nat) : Nat := (s.getD i 0).val

/-- Go `utf8.DecodeRuneInString`: the first rune of `s` and its width in bytes.
An invalid encoding gives `(RuneError, 1)`, the empty string `(RuneError, 0)`. -/
def decodeRune (s : GoString) : Nat × Nat :=
  match s with
  | [] => (RuneError, 0)
  | s0 :: _ =>
    let x := first s0
    if x ≥ 0xF0 then (if x = 0xF1 then RuneError else s0.val, 1)
    else
      let sz := x % 8
      let accept := acceptRanges (x / 16)
      if s.length < sz then (RuneError, 1)
      else
        let s1 := byteAt s 1
        if s1 < accept.1 ∨ accept.2 < s1 then (RuneError, 1)
        else if sz ≤ 2 then ((s0.val % 32) * 64 + s1 % 64, 2)
        else
          let s2 := byteAt s 2
          if s2 < 0x80 ∨ 0xBF < s2 then (RuneError, 1)
          else if sz ≤ 3 then ((s0.val % 16) * 4096 + (s1 % 64) * 64 + s2 % 64, 3)
          else
            let s3 := byteAt s 3
            if s3 < 0x80 ∨ 0xBF < s3 then (RuneError, 1)
            else ((s0.val % 8) * 262144 + (s1 % 64) * 4096 + (s2 % 64) * 64 + s3 % 64, 4)

/-- The loop `for i, r := range s`: the runes of `s` with the bytes each one
occupies.  The fuel is the number of bytes, and every step consumes at least one. -/
def runesAux : Nat → GoString → List (Nat × GoString)
  | 0, _ => []
  | _ + 1, [] => []
  | fuel + 1, b :: bs =>
    let d := decodeRune (b :: bs)
    (d.1, (b :: bs).take d.2) :: runesAux fuel ((b :: bs).drop d.2)

/-- The runes of `s`, in order, each with its bytes. -/
def runes (s : GoString) : List (Nat × GoString) := runesAux s.length s

/-- Go `unicode.IsSpace`. -/
def IsSpace (r : Nat) : Bool :=
  if r ≤ 0xFF then
    r = 0x09 ∨ r = 0x0A ∨ r = 0x0B ∨ r = 0x0C ∨ r = 0x0D ∨ r = 0x20 ∨ r = 0x85 ∨ r = 0xA0
  else
    r = 0x1680 ∨ (0x2000 ≤ r ∧ r ≤ 0x200A) ∨ r = 0x2028 ∨ r = 0x2029 ∨ r = 0x202F
      ∨ r = 0x205F ∨ r = 0x3000

/-- The loop of `strings.FieldsFunc(s, unicode.IsSpace)` over the runes of `s`.
`cur` holds the bytes of the field begun and not yet closed; it is empty
exactly when no field is open (`start < 0` in the library). -/
def fieldsLoop : List (Nat × GoString) → GoString → List GoString
  | [], cur => if cur = [] then [] else [cur]
  | (r, bs) :: rest, cur =>
    if IsSpace r then
      (if cur = [] then fieldsLoop rest [] else cur :: fieldsLoop rest [])
    else fieldsLoop rest (cur ++ bs)

/-- Go `strings.Fields`: the maximal runs of non-space runes of `s`. -/
def Fields (s : GoString) : List GoString := fieldsLoop (runes s) []

/-- Go `utf8.RuneStart`: `b` is not a continuation byte. -/
def RuneStart (b : Nat) : Bool := b / 64 ≠ 2

/-- The backward scan of `utf8.DecodeLastRuneInString`:
`for start--; start >= lim; start-- { if RuneStart(s[start]) { break } }`.
At most `utf8.UTFMax` positions are visited. -/
def lastRuneScan (s : GoString) (lim : Int) : Nat → Int → Int
  | 0, start => start
  | fuel + 1, start =>
    if start ≥ lim then
      (if RuneStart (byteAt s start.toNat) then start else lastRuneScan s lim fuel (start - 1))
    else start

/-- Go `utf8.DecodeLastRuneInString`: the last rune of `s` and its width. -/
def decodeLastRune (s : GoString) : Nat × Nat :=
  let end_ : Int := s.length
  if end_ = 0 then (RuneError, 0)
  else
    let r := byteAt s (s.length - 1)
    if r < 0x80 then (r, 1)
    else
      let lim : Int := if end_ - 4 < 0 then 0 else end_ - 4
      let start := lastRuneScan s lim 4 (end_ - 2)
      let start := if start < 0 then 0 else start
      let d := decodeRune (s.drop start.toNat)
      if start + (d.2 : Int) ≠ end_ then (RuneError, 1) else d

/-- Go `strings.ContainsRune(cutset, r)` for a rune `r` that a decoder returned:
`r` is one of the runes of `cutset`. -/
def ContainsRune (cutset : GoString) (r : Nat) : Bool :=
  (runes cutset).any (fun p => p.1 == r)

/-- Library `trimLeftASCII` (and `trimLeftByte`): drop leading bytes that are in the set. -/
def trimLeftASCII (s cutset : GoString) : GoString :=
  s.dropWhile (fun b => cutset.contains b)

/-- Library `trimRightASCII` (and `trimRightByte`): drop trailing bytes that are in the set. -/
def trimRightASCII (s cutset : GoString) : GoString :=
  (s.reverse.dropWhile (fun b => cutset.contains b)).reverse

/-- Library `trimLeftUnicode`; the fuel is the number of bytes. -/
def trimLeftUnicodeAux (cutset : GoString) : Nat → GoString → GoString
  | 0, s => s
  | _ + 1, [] => []
  | fuel + 1, b :: bs =>
    let d := if b.val ≥ 0x80 then decodeRune (b :: bs) else (b.val, 1)
    if !ContainsRune cutset d.1 then b :: bs
    else trimLeftUnicodeAux cutset fuel ((b :: bs).drop d.2)

/-- Library `trimLeftUnicode`. -/
def trimLeftUnicode (s cutset : GoString) : GoString :=
  trimLeftUnicodeAux cutset s.length s

/-- Library `trimRightUnicode`; the fuel is the number of bytes. -/
def trimRightUnicodeAux (cutset : GoString) : Nat → GoString → GoString
  | 0, s => s
  | fuel + 1, s =>
    if s.length = 0 then s
    else
      let last := byteAt s (s.length - 1)
      let d := if last ≥ 0x80 then decodeLastRune s else (last, 1)
      if !ContainsRune cutset d.1 then s
      else trimRightUnicodeAux cutset fuel (s.take (s.length - d.2))

/-- Library `trimRightUnicode`. -/
def trimRightUnicode (s cutset : GoString) : GoString :=
  trimRightUnicodeAux cutset s.length s

/-- Every byte of `s` is below `utf8.RuneSelf` (`makeASCIISet` succeeds). -/
def isASCII (s : GoString) : Bool := s.all (fun b => b.val < 0x80)

/-- Go `strings.Trim(s, cutset)`: remove the leading and trailing runes of `s`
that are in `cutset`.  The one-byte case of the library is the ASCII case with
a set of one element. -/
def Trim (s cutset : GoString) : GoString :=
  if s = [] ∨ cutset = [] then s
  else if isASCII cutset then trimLeftASCII (trimRightASCII s cutset) cutset
  else trimLeftUnicode (trimRightUnicode s cutset) cutset

/-- Go `strings.Replace(s, old, new, -1)` for a one-byte `old`, which is what
every call in the two files passes: each byte `old` becomes `new`. -/
def Replace (s : GoString) (old : Byte) (new : GoString) : GoString :=
  s.flatMap (fun b => if b = old then new else [b])

/-- Go `strings.Index(s, sep)` for a one-byte `sep`: the index of the first
byte `sep`, or `-1`. -/
def Index : GoString → Byte → Int
  | [], _ => -1
  | b :: bs, sep =>
    if b = sep then 0
    else (let i := Index bs sep; if i = -1 then -1 else i + 1)

/-- Go `strings.HasPrefix`. -/
def HasPrefix (s p : GoString) : Bool := p.isPrefixOf s

/-- The slice expression `s[lo:hi]` of a string; out of range bounds panic. -/
def sliceExpr (s : GoString) (lo hi : Int) : Option GoString :=
  if 0 ≤ lo ∧ lo ≤ hi ∧ hi ≤ (s.length : Int) then some ((s.take hi.toNat).drop lo.toNat)
  else none

/-- Go `a < b` on strings: the lexicographic order of the bytes. -/
def strLess : GoString → GoString → Bool
  | _, [] => false
  | [], _ :: _ => true
  | a :: as, b :: bs => if a < b then true else if b < a then false else strLess as bs

/-- Insert `x` in a sorted list, after the elements not above it. -/
def insertSorted (x : GoString) : List GoString → List GoString
  | [] => [x]
  | y :: ys => if strLess x y then x :: y :: ys else y :: insertSorted x ys

/-- Go `sort.Strings`: the slice in increasing order.  The order on strings is
total, so the sorted slice does not depend on the sorting algorithm; insertion
sort stands for the library's. -/
def sortStrings : List GoString → List GoString
  | [] => []
  | x :: xs => insertSorted x (sortStrings xs)

/-- The loop of Go `sort.Search`; `j - i` decreases in every round, so `n`
rounds are enough when it starts from `0, n`. -/
def searchLoop (f : Nat → Bool) : Nat → Nat → Nat → Nat
  | 0, i, _ => i
  | fuel + 1, i, j =>
    if i < j then
      let h := (i + j) / 2
      if !f h then searchLoop f fuel (h + 1) j else searchLoop f fuel i h
    else i

/-- Go `sort.Search`. -/
def Search (n : Nat) (f : Nat → Bool) : Nat := searchLoop f n 0 n

/-- Go `sort.SearchStrings(a, x)`: `Search(len(a), func(i) { return a[i] >= x })`. -/
def SearchStrings (a : List GoString) (x : GoString) : Nat :=
  Search a.length (fun i => !strLess (a.getD i []) x)

/-- The slice is in increasing order: no element is below an earlier one. -/
def SortedStrings (l : List GoString) : Prop :=
  l.Pairwise (fun a b => strLess b a = false)

/-- The string is empty or its last byte is `-`. -/
def EndsDash (r : GoString) : Prop := r = [] ∨ ∃ w, r = w ++ [ch '-']

end Go

open Go

/-- Function `inArray` of both packages: sort the slice in place, then binary
search.  The second component is the caller's slice after the call. -/
def inArray (target : GoString) (strArray : List GoString) : Bool × List GoString :=
  let strArray := sortStrings strArray
  let index := SearchStrings strArray target
  (if index < strArray.length ∧ strArray.getD index [] = target then true else false, strArray)

namespace pci

/-- Constant `classMaxLen`. -/
def classMaxLen : Nat := 4

/-- Constant `vendorMaxLen`. -/
def vendorMaxLen : Nat := 10

/-- Constant `deviceMaxLen`. -/
def deviceMaxLen : Nat := 35

/-- Initial value of the package variable `hiddenSuffixVendor`. -/
def hiddenSuffixVendor : List GoString :=
  [str "Corporation", str "Corp.", str "Corp.,", str "Corp", str "corp.", str "Co.", str "Co",
   str "co.", str "co.,", str "CO.,", str "Co.,", str "Co.,Ltd", str "Co.,LTD.", str "Co.,Ltd.",
   str "INC.", str "INC", str "Inc.", str "Inc", str "Inc,", str "inc.",
   str "Ltd.", str "Ltd", str "LTD.", str "ltd.",
   str "Technologies", str "Technologies,", str "Technology", str "Technology,",
   str "Information",
   str "Company",
   str "Group",
   str "LLC", str "LLC."]

/-- Initial value of the package variable `hiddenSuffixDevice`. -/
def hiddenSuffixDevice : List GoString :=
  [str "Processor", str "Controller", str "Adapter", str "Integrated", str "Technology",
   str "Graphics", str "Display", str "PCI", str "PCIe", str "PCI-e", str "PCI-to-PCI"]

/-- Function `getReadableClass`; `classSplitList[0]` panics when there is no field. -/
def getReadableClass (s : GoString) : Option GoString :=
  let classSplitList := Fields s
  match classSplitList.get? 0 with
  | none => none
  | some classResult =>
    some (if classResult.length > classMaxLen then classResult.take classMaxLen
          else classResult)

/-- Function `getReadableVendor`.  The argument `hiddenSuffixVendor` is the
value of the package variable at the call, the second component of the result
its value afterwards; the first component is `none` when
`vendorLastItem[1 : len(vendorLastItem)-1]` panics. -/
def getReadableVendor (hiddenSuffixVendor : List GoString) (s : GoString) :
    Option GoString × List GoString :=
  let vendorSplitList := Fields s
  if vendorSplitList.length = 0 then (some [], hiddenSuffixVendor)
  else
    let vendorLastItem := vendorSplitList.getD (vendorSplitList.length - 1) []
    let vendorSplitList := vendorSplitList.set 0 (Trim (vendorSplitList.getD 0 []) (str ".,?"))
    let vendorResult : Option GoString × List GoString :=
      if vendorLastItem = str "ID)" then (some (str "Wrong-ID"), hiddenSuffixVendor)
      else if HasPrefix vendorLastItem (str "[") then
        (sliceExpr vendorLastItem 1 ((vendorLastItem.length : Int) - 1), hiddenSuffixVendor)
      else if (vendorSplitList.getD 0 []).length > vendorMaxLen then
        (some ((vendorSplitList.getD 0 []).take vendorMaxLen), hiddenSuffixVendor)
      else if vendorSplitList.length = 1 then
        (some (vendorSplitList.getD 0 []), hiddenSuffixVendor)
      else
        let found := inArray (vendorSplitList.getD 1 []) hiddenSuffixVendor
        if found.1 then (some (vendorSplitList.getD 0 []), found.2)
        else
          let vendorSplitList :=
            vendorSplitList.set 1 (Trim (vendorSplitList.getD 1 []) (str ".,?"))
          let vendorPreResult :=
            vendorSplitList.getD 0 [] ++ str "-" ++ vendorSplitList.getD 1 []
          (some (if vendorPreResult.length > vendorMaxLen then vendorPreResult.take vendorMaxLen
                 else vendorPreResult), found.2)
    (vendorResult.1.map (fun r => Replace (Trim r (str "-/&")) (ch '/') (str "-")),
     vendorResult.2)

/-- The loop `for _, device := range deviceSplitList` of `getReadableDevice`:
`resultsDevice` is the string built so far, `hiddenSuffixDevice` the package
variable, which every round hands to `inArray`. -/
def deviceLoop : List GoString → GoString → List GoString → GoString × List GoString
  | [], resultsDevice, hiddenSuffixDevice => (resultsDevice, hiddenSuffixDevice)
  | device :: rest, resultsDevice, hiddenSuffixDevice =>
    let found := inArray device hiddenSuffixDevice
    if !found.1 then
      let device := Trim device (str "-/&()")
      if device.length ≠ 0 then deviceLoop rest (resultsDevice ++ (device ++ str "-")) found.2
      else deviceLoop rest resultsDevice found.2
    else deviceLoop rest resultsDevice found.2

/-- Function `getReadableDevice`.  The first component is `none` when the
slice `s[startIndex+1 : endIndex]` panics. -/
def getReadableDevice (hiddenSuffixDevice : List GoString) (s : GoString) :
    Option GoString × List GoString :=
  let startIndex := Index s (ch '[')
  let bracket : Option GoString :=
    if startIndex ≠ -1 then sliceExpr s (startIndex + 1) (Index s (ch ']')) else some s
  match bracket with
  | none => (none, hiddenSuffixDevice)
  | some resultsDevice =>
    let deviceSplitList := Fields resultsDevice
    if deviceSplitList.length = 0 then (some [], hiddenSuffixDevice)
    else
      let built := deviceLoop deviceSplitList [] hiddenSuffixDevice
      let resultsDevice := Replace built.1 (ch '(') []
      let resultsDevice := Replace resultsDevice (ch ')') []
      let resultsDevice :=
        if resultsDevice.length > deviceMaxLen then resultsDevice.take (deviceMaxLen - 1)
        else resultsDevice
      let resultsDevice := Replace resultsDevice (ch '/') (str "-")
      let resultsDevice := Replace resultsDevice (ch '&') (str "-")
      (some (Trim resultsDevice (str "-")), built.2)

end pci

namespace usb

/-- Constant `vendorMaxLen`. -/
def vendorMaxLen : Nat := 10

/-- Constant `deviceMaxLen`. -/
def deviceMaxLen : Nat := 33

/-- Initial value of the package variable `hiddenSuffixVendor`. -/
def hiddenSuffixVendor : List GoString :=
  [str "Corporation", str "Corp.", str "Corp.,", str "Corp", str "corp.", str "Co.", str "Co",
   str "co.", str "co.,", str "CO.,", str "Co.,", str "Co.,Ltd", str "Co.,LTD.", str "Co.,Ltd.",
   str "INC.", str "INC", str "Inc.", str "Inc", str "Inc,", str "inc.",
   str "Ltd.", str "Ltd", str "LTD.", str "ltd.",
   str "Technologies", str "Technologies,", str "Technology", str "Technology,",
   str "Information",
   str "Electronics", str "ELECTRONICS ", str "Electric", str "ELECTRIC",
   str "Company",
   str "Group",
   str "LLC", str "LLC."]

/-- The cutset of `getReadableDevice`, byte for byte as in the source file:
the ASCII characters, then the bytes `C3 82 C2 AE`, then the double quote. -/
def deviceCutset : GoString :=
  str "-/&*+[]()~.,#" ++ [0xC3, 0x82, 0xC2, 0xAE, 0x22]

/-- Function `getReadableVendor`.  Every index is guarded by a length test, so
it cannot panic.  The second component is the package variable
`hiddenSuffixVendor` after the call. -/
def getReadableVendor (hiddenSuffixVendor : List GoString) (s : GoString) :
    GoString × List GoString :=
  let vendorSplitList := Fields s
  if vendorSplitList.length = 0 then ([], hiddenSuffixVendor)
  else
    let vendorLastItem := vendorSplitList.getD (vendorSplitList.length - 1) []
    let vendorSplitList :=
      vendorSplitList.set 0 (Trim (vendorSplitList.getD 0 []) (str ".,?[]()"))
    let vendorResult : GoString × List GoString :=
      if vendorLastItem = str "ID)" then (str "Wrong-ID", hiddenSuffixVendor)
      else if (vendorSplitList.getD 0 []).length > vendorMaxLen then
        ((vendorSplitList.getD 0 []).take vendorMaxLen, hiddenSuffixVendor)
      else if vendorSplitList.length = 1 then
        (vendorSplitList.getD 0 [], hiddenSuffixVendor)
      else
        let found := inArray (vendorSplitList.getD 1 []) hiddenSuffixVendor
        if found.1 then (vendorSplitList.getD 0 [], found.2)
        else
          let vendorSplitList :=
            vendorSplitList.set 1 (Trim (vendorSplitList.getD 1 []) (str ".,?[]()"))
          let vendorPreResult :=
            vendorSplitList.getD 0 [] ++ str "-" ++ vendorSplitList.getD 1 []
          (if vendorPreResult.length > vendorMaxLen then vendorPreResult.take vendorMaxLen
           else vendorPreResult, found.2)
    (Replace (Replace (Trim vendorResult.1 (str "-/&+")) (ch '/') (str "-")) (ch '.') [],
     vendorResult.2)

/-- The loop `for _, device := range deviceSplitList` of `getReadableDevice`. -/
def deviceLoop : List GoString → GoString → GoString
  | [], resultsDevice => resultsDevice
  | device :: rest, resultsDevice =>
    let device := Trim device deviceCutset
    if device.length ≠ 0 then deviceLoop rest (resultsDevice ++ (device ++ str "-"))
    else deviceLoop rest resultsDevice

/-- Function `getReadableDevice`; it reads no package variable and cannot panic. -/
def getReadableDevice (s : GoString) : GoString :=
  let deviceSplitList := Fields s
  if deviceSplitList.length = 0 then []
  else
    let resultsDevice := deviceLoop deviceSplitList []
    let resultsDevice :=
      if resultsDevice.length > deviceMaxLen then resultsDevice.take (deviceMaxLen - 1)
      else resultsDevice
    let resultsDevice := Replace resultsDevice (ch '/') (str "-")
    let resultsDevice := Replace resultsDevice (ch '&') (str "-")
    let resultsDevice := Replace resultsDevice (ch '*') (str "-")
    let resultsDevice := Replace resultsDevice (ch '+') (str "-")
    let resultsDevice := Replace resultsDevice (ch '^') (str "-")
    let resultsDevice := Replace resultsDevice 0x5C (str "-")
    let resultsDevice := Replace resultsDevice (ch '(') (str "-")
    let resultsDevice := Replace resultsDevice (ch ')') (str "-")
    Trim resultsDevice (str "-")

end usb

namespace Go

/-- Go `strings.TrimPrefix`. -/
def TrimPrefix (s p : GoString) : GoString :=
  if HasPrefix s p then s.drop p.length else s

/-- Go `strings.TrimLeftFunc(s, f)`: `indexFunc` walks the runes of `s` to the
first one that `f` rejects and the string from there on is returned.  The
fuel is the number of bytes. -/
def trimLeftFuncAux (f : Nat → Bool) : Nat → GoString → GoString
  | 0, s => s
  | _ + 1, [] => []
  | fuel + 1, b :: bs =>
    let d := decodeRune (b :: bs)
    if !f d.1 then b :: bs else trimLeftFuncAux f fuel ((b :: bs).drop d.2)

/-- Go `strings.TrimLeftFunc`. -/
def TrimLeftFunc (s : GoString) (f : Nat → Bool) : GoString :=
  trimLeftFuncAux f s.length s

/-- Library `lastIndexFunc(s, f, false)`: the index of the last rune of `s`
that `f` rejects, or `-1`:
`for i := len(s); i > 0; { r, size := DecodeLastRuneInString(s[0:i]); i -= size; ... }`.
Every round lowers `i`, so `len(s)` rounds are enough. -/
def lastIndexFuncAux (f : Nat → Bool) (s : GoString) : Nat → Nat → Int
  | 0, _ => -1
  | fuel + 1, i =>
    if i > 0 then
      let d := decodeLastRune (s.take i)
      let i := i - d.2
      if f d.1 = false then (i : Int) else lastIndexFuncAux f s fuel i
    else -1

/-- Go `strings.TrimRightFunc`. -/
def TrimRightFunc (s : GoString) (f : Nat → Bool) : GoString :=
  let i := lastIndexFuncAux f s s.length s.length
  if i ≥ 0 ∧ byteAt s i.toNat ≥ 0x80 then
    s.take (i.toNat + (decodeRune (s.drop i.toNat)).2)
  else s.take (i + 1).toNat

/-- Go `strings.TrimSpace`: `TrimFunc(s, unicode.IsSpace)`; the ASCII fast
path of the library gives the same string. -/
def TrimSpace (s : GoString) : GoString :=
  TrimRightFunc (TrimLeftFunc s IsSpace) IsSpace

/-- Go `filepath.Join(a, b)` and `path.Join(a, b)` for a clean directory path
`a` and a plain name `b`, which is what the scanners pass. -/
def Join (a b : GoString) : GoString := a ++ str "/" ++ b

/-- A Go `map[string]string`, as the list of its entries with distinct keys. -/
abbrev GoMap := List (GoString × GoString)

/-- The map index expression `m[k]` with the comma-ok form: the value, if any. -/
def mapGet : GoMap → GoString → Option GoString
  | [], _ => none
  | (k1, v1) :: m, k => if k1 = k then some v1 else mapGet m k

/-- The map assignment `m[k] = v`. -/
def mapSet : GoMap → GoString → GoString → GoMap
  | [], k, v => [(k, v)]
  | (k1, v1) :: m, k, v => if k1 = k then (k, v) :: m else (k1, v1) :: mapSet m k v

/-- The part of the host that the scanners read.  `ReadFile` is
`ioutil.ReadFile` (the content, or `none` for an error), `ReadDir` is
`ioutil.ReadDir` (the names of the entries, in the order returned) and `Glob`
is `filepath.Glob` (the matching paths). -/
structure Sysfs where
  /-- The content of the file at a path, `none` when reading fails. -/
  ReadFile : GoString → Option GoString
  /-- The names of the entries of a directory, `none` when listing fails. -/
  ReadDir : GoString → Option (List GoString)
  /-- The paths that match a pattern, `none` for an error. -/
  Glob : GoString → Option (List GoString)

end Go

/-- Modelled from the spec: the Device Record, "an immutable mapping from
attribute name (string) to attribute value (string)".  The type
`feature.InstanceFeature` and its constructor `feature.NewInstanceFeature`
are declared in `pkg/api/feature`, which is not among the source files; the
constructor is the structure constructor. -/
structure InstanceFeature where
  /-- The attributes of the device. -/
  Attributes : GoMap
deriving DecidableEq

namespace pci

/-- Variable `mandatoryDevAttrs`. -/
def mandatoryDevAttrs : List GoString :=
  [str "class", str "vendor", str "device", str "subsystem_vendor", str "subsystem_device"]

/-- Variable `optionalDevAttrs`. -/
def optionalDevAttrs : List GoString := [str "sriov_totalvfs"]

/-- Function `readSinglePciAttribute`; `none` is the error result. -/
def readSinglePciAttribute (fs : Sysfs) (devPath attrName : GoString) : Option GoString :=
  match fs.ReadFile (Join devPath attrName) with
  | none => none
  | some data =>
    let attrVal := TrimSpace (TrimPrefix data (str "0x"))
    some (if attrName = str "class" ∧ attrVal.length > 4 then attrVal.take 4 else attrVal)

/-- The loop over `mandatoryDevAttrs` of `readPciDevInfo`: the first failing
read ends the function with an error. -/
def mandatoryLoop (fs : Sysfs) (devPath : GoString) : List GoString → GoMap → Option GoMap
  | [], attrs => some attrs
  | attr :: rest, attrs =>
    match readSinglePciAttribute fs devPath attr with
    | none => none
    | some attrVal => mandatoryLoop fs devPath rest (mapSet attrs attr attrVal)

/-- The loop over `optionalDevAttrs` of `readPciDevInfo`: a failing read is skipped. -/
def optionalLoop (fs : Sysfs) (devPath : GoString) : List GoString → GoMap → GoMap
  | [], attrs => attrs
  | attr :: rest, attrs =>
    match readSinglePciAttribute fs devPath attr with
    | none => optionalLoop fs devPath rest attrs
    | some attrVal => optionalLoop fs devPath rest (mapSet attrs attr attrVal)

/-- Function `readPciDevInfo`; `none` is the error result. -/
def readPciDevInfo (fs : Sysfs) (devPath : GoString) : Option InstanceFeature :=
  match mandatoryLoop fs devPath mandatoryDevAttrs [] with
  | none => none
  | some attrs => some ⟨optionalLoop fs devPath optionalDevAttrs attrs⟩

/-- The loop over the devices of `detectPci`: a device whose information
cannot be read is logged and skipped. -/
def detectLoop (fs : Sysfs) (sysfsBasePath : GoString) :
    List GoString → List InstanceFeature → List InstanceFeature
  | [], devInfo => devInfo
  | device :: rest, devInfo =>
    match readPciDevInfo fs (Join sysfsBasePath device) with
    | none => detectLoop fs sysfsBasePath rest devInfo
    | some info => detectLoop fs sysfsBasePath rest (devInfo ++ [info])

/-- Function `detectPci`; `none` is the error result.  The argument
`sysfsBasePath` is the value of `source.SysfsDir.Path("bus/pci/devices")`,
which is declared outside the source files. -/
def detectPci (fs : Sysfs) (sysfsBasePath : GoString) : Option (List InstanceFeature) :=
  match fs.ReadDir sysfsBasePath with
  | none => none
  | some devices => some (detectLoop fs sysfsBasePath devices [])

end pci

namespace usb

/-- Variable `devAttrs`. -/
def devAttrs : List GoString := [str "class", str "vendor", str "device", str "serial"]

/-- Variable `devAttrFileMap`. -/
def devAttrFileMap : GoMap :=
  [(str "class", str "bDeviceClass"), (str "device", str "idProduct"),
   (str "vendor", str "idVendor"), (str "serial", str "serial")]

/-- Function `readSingleUsbSysfsAttribute`; `none` is the error result. -/
def readSingleUsbSysfsAttribute (fs : Sysfs) (path : GoString) : Option GoString :=
  match fs.ReadFile path with
  | none => none
  | some data => some (TrimSpace data)

/-- Function `readSingleUsbAttribute`; a name that is not a key of
`devAttrFileMap` maps to the empty string. -/
def readSingleUsbAttribute (fs : Sysfs) (devPath attrName : GoString) : Option GoString :=
  readSingleUsbSysfsAttribute fs (Join devPath ((mapGet devAttrFileMap attrName).getD []))

/-- The loop over `devAttrs` of `readUsbDevInfo`: the error is dropped, and on
an error the value is the empty string. -/
def attrsLoop (fs : Sysfs) (devPath : GoString) : List GoString → GoMap → GoMap
  | [], attrs => attrs
  | attr :: rest, attrs =>
    let attrVal := (readSingleUsbAttribute fs devPath attr).getD []
    if attrVal.length > 0 then attrsLoop fs devPath rest (mapSet attrs attr attrVal)
    else attrsLoop fs devPath rest attrs

/-- The loop `for k, v := range attrs { subdevAttrs[k] = v }`. -/
def copyMap (attrs : GoMap) : GoMap :=
  attrs.foldl (fun subdevAttrs kv => mapSet subdevAttrs kv.1 kv.2) []

/-- The loop over the interfaces of `readUsbDevInfo`: one record is appended
for every interface, and a failing read ends the function with an error. -/
def interfaceLoop (fs : Sysfs) (attrs : GoMap) :
    List GoString → List InstanceFeature → Option (List InstanceFeature)
  | [], instances => some instances
  | intf :: rest, instances =>
    match readSingleUsbSysfsAttribute fs intf with
    | none => none
    | some attrVal =>
      let subdevAttrs := copyMap attrs
      let subdevAttrs := mapSet subdevAttrs (str "class") attrVal
      interfaceLoop fs attrs rest (instances ++ [⟨subdevAttrs⟩])

/-- Function `readUsbDevInfo`; `none` is the error result. -/
def readUsbDevInfo (fs : Sysfs) (devPath : GoString) : Option (List InstanceFeature) :=
  let attrs := attrsLoop fs devPath devAttrs []
  if (mapGet attrs (str "class")).getD [] ≠ str "00" then some [⟨attrs⟩]
  else
    match fs.Glob (devPath ++ str "/*/bInterfaceClass") with
    | none => none
    | some interfaces => interfaceLoop fs attrs interfaces []

end usb

/-! ## Definitions used to state the properties -/

/-- The final cleanup of a PCI vendor name in the words of the specification:
trim leading and trailing `-`, `/`, `&`, then replace every `/` by `-`. -/
def pciCleanup (v : GoString) : GoString :=
  Replace (Trim v (str "-/&")) (ch '/') (str "-")

/-- The final cleanup of a USB vendor name in the words of the specification:
trim leading and trailing `-`, `/`, `&`, `+`, replace every `/` by `-` and
delete every `.`. -/
def usbCleanup (v : GoString) : GoString :=
  Replace (Replace (Trim v (str "-/&+")) (ch '/') (str "-")) (ch '.') []

/-- The second-word rule in the words of the specification, for the words
`w0 :: ws` of the input: with one word only, or with a second word that is in
the suffix list, the punctuation-trimmed first word; otherwise the first 10
bytes of the trimmed first word, a hyphen and the trimmed second word (`take`
keeps a join of at most 10 bytes whole). -/
def secondWordRule (suffixes : List GoString) (punct w0 : GoString) (ws : List GoString) :
    GoString :=
  match ws with
  | [] => Trim w0 punct
  | w1 :: _ =>
    if w1 ∈ suffixes then Trim w0 punct
    else (Trim w0 punct ++ str "-" ++ Trim w1 punct).take 10

/-- The slice `hiddenSuffix` of `TestInArray` in package pci. -/
def testHiddenSuffix : List GoString :=
  [str "Corp.", str "Corp", str "Corporation", str "Co", str "Inc.", str "Inc", str "Co,.Ltd",
   str "Ltd.", str "Ltd", str "Technologies", str "Technology", str "Information",
   str "Company", str "Group", str "LLC"]

/-- The loop of PCI `getReadableDevice` read as a function of the words alone:
a word that is in `suffixes` is dropped, every other word is trimmed of the
characters `-`, `/`, `&`, `(`, `)` and, when something is left, appended with
a `-`. -/
def pciDeviceJoin (suffixes : List GoString) : List GoString → GoString → GoString
  | [], acc => acc
  | w :: ws, acc =>
    if w ∈ suffixes then pciDeviceJoin suffixes ws acc
    else if (Trim w (str "-/&()")).length ≠ 0 then
      pciDeviceJoin suffixes ws (acc ++ (Trim w (str "-/&()") ++ str "-"))
    else pciDeviceJoin suffixes ws acc

/-- The steps of PCI `getReadableDevice` after the loop, on the string built by it. -/
def pciDevicePost (b : GoString) : GoString :=
  Trim (Replace (Replace
    (if (Replace (Replace b (ch '(') []) (ch ')') []).length > pci.deviceMaxLen
     then (Replace (Replace b (ch '(') []) (ch ')') []).take (pci.deviceMaxLen - 1)
     else Replace (Replace b (ch '(') []) (ch ')') [])
    (ch '/') (str "-")) (ch '&') (str "-")) (str "-")

/-- The words of a USB device name in the words of the specification: every
field trimmed of the characters of the USB trim set, the empty results dropped. -/
def usbWords (s : GoString) : List GoString :=
  ((Fields s).map (fun w => Trim w usb.deviceCutset)).filter (fun w => w.length ≠ 0)

/-- The words joined by single `-`. -/
def joinDash : List GoString → GoString
  | [] => []
  | [w] => w
  | w :: v :: ws => w ++ str "-" ++ joinDash (v :: ws)

/-- The character substitutions of USB `getReadableDevice`: each of `/`, `&`,
`*`, `+`, `^`, backslash, `(`, `)` becomes `-`. -/
def usbSubst (x : GoString) : GoString :=
  Replace (Replace (Replace (Replace (Replace (Replace (Replace (Replace x
    (ch '/') (str "-")) (ch '&') (str "-")) (ch '*') (str "-")) (ch '+') (str "-"))
    (ch '^') (str "-")) 0x5C (str "-")) (ch '(') (str "-")) (ch ')') (str "-")

/-- A word of 33 bytes: 33 times the letter `a`. -/
def word33 : GoString := List.replicate 33 (ch 'a')

/-- All five mandatory attribute files of a PCI device directory are readable. -/
def mandatoryReadable (fs : Sysfs) (devPath : GoString) : Bool :=
  pci.mandatoryDevAttrs.all (fun attr => (fs.ReadFile (Join devPath attr)).isSome)

/-- The value of a USB attribute in the words of the specification: the
trimmed content of the attribute's file when the file is readable and the
trimmed content is not empty; no value otherwise. -/
def usbAttrValue (fs : Sysfs) (devPath attrName : GoString) : Option GoString :=
  match fs.ReadFile (Join devPath ((mapGet usb.devAttrFileMap attrName).getD [])) with
  | none => none
  | some c => if (TrimSpace c).length > 0 then some (TrimSpace c) else none

/-- The interface classes found below a USB device directory. -/
def usbInterfaceClasses (fs : Sysfs) (devPath : GoString) : List GoString :=
  ((fs.Glob (devPath ++ str "/*/bInterfaceClass")).getD []).filterMap
    (fun intf => usb.readSingleUsbSysfsAttribute fs intf)

/-- A line of a sysfs file: the text and a newline. -/
def line (s : String) : GoString := str s ++ [10]

/-- The files of an example host: three PCI devices, of which `0000:00:14.0`
lacks `subsystem_device`; a USB receiver `1-1` with device class `00` and
three interfaces of class `03`; a USB hub `1-2`; and a file whose content has
a blank before `0x`. -/
def exampleFiles : GoMap :=
  [(str "/sys/bus/pci/devices/0000:00:02.0/class", line "0x030000"),
   (str "/sys/bus/pci/devices/0000:00:02.0/vendor", line "0x8086"),
   (str "/sys/bus/pci/devices/0000:00:02.0/device", line "0x3e92"),
   (str "/sys/bus/pci/devices/0000:00:02.0/subsystem_vendor", line "0x1028"),
   (str "/sys/bus/pci/devices/0000:00:02.0/subsystem_device", line "0x0869"),
   (str "/sys/bus/pci/devices/0000:00:14.0/class", line "0x0c0330"),
   (str "/sys/bus/pci/devices/0000:00:14.0/vendor", line "0x8086"),
   (str "/sys/bus/pci/devices/0000:00:14.0/device", line "0xa36d"),
   (str "/sys/bus/pci/devices/0000:00:14.0/subsystem_vendor", line "0x1028"),
   (str "/sys/bus/pci/devices/0000:00:1f.3/class", line "0x040380"),
   (str "/sys/bus/pci/devices/0000:00:1f.3/vendor", line "0x8086"),
   (str "/sys/bus/pci/devices/0000:00:1f.3/device", line "0xa348"),
   (str "/sys/bus/pci/devices/0000:00:1f.3/subsystem_vendor", line "0x1028"),
   (str "/sys/bus/pci/devices/0000:00:1f.3/subsystem_device", line "0x0869"),
   (str "/sys/bus/usb/devices/1-1/bDeviceClass", line "00"),
   (str "/sys/bus/usb/devices/1-1/idVendor", line "046d"),
   (str "/sys/bus/usb/devices/1-1/idProduct", line "c52b"),
   (str "/sys/bus/usb/devices/1-1/1-1:1.0/bInterfaceClass", line "03"),
   (str "/sys/bus/usb/devices/1-1/1-1:1.1/bInterfaceClass", line "03"),
   (str "/sys/bus/usb/devices/1-1/1-1:1.2/bInterfaceClass", line "03"),
   (str "/sys/bus/usb/devices/1-2/bDeviceClass", line "09"),
   (str "/sys/bus/usb/devices/1-2/idVendor", line "1d6b"),
   (str "/sys/bus/usb/devices/1-2/idProduct", line "0002"),
   (str "/sys/bus/usb/devices/1-2/serial", line "0000:00:14.0"),
   (str "/padded/vendor", line " 0x8086")]

/-- The example host. -/
def exampleSysfs : Sysfs :=
  Sysfs.mk (mapGet exampleFiles)
    (fun p => if p = str "/sys/bus/pci/devices"
      then some [str "0000:00:02.0", str "0000:00:14.0", str "0000:00:1f.3"] else none)
    (fun p => if p = str "/sys/bus/usb/devices/1-1/*/bInterfaceClass"
      then some [str "/sys/bus/usb/devices/1-1/1-1:1.0/bInterfaceClass",
                 str "/sys/bus/usb/devices/1-1/1-1:1.1/bInterfaceClass",
                 str "/sys/bus/usb/devices/1-1/1-1:1.2/bInterfaceClass"]
      else some [])

/-- The body of `decodeRune` as a function of the first byte and of the three
bytes after it, a missing byte counting as 0 (which no range of a following
byte accepts, so that the length test of the decoder is implied). -/
def decodeCore (b0 : Byte) (b1 b2 b3 : Nat) : Nat × Nat :=
  let x := first b0
  if x ≥ 0xF0 then (if x = 0xF1 then RuneError else b0.val, 1)
  else
    let sz := x % 8
    let accept := acceptRanges (x / 16)
    if b1 < accept.1 ∨ accept.2 < b1 then (RuneError, 1)
    else if sz ≤ 2 then ((b0.val % 32) * 64 + b1 % 64, 2)
    else if b2 < 0x80 ∨ 0xBF < b2 then (RuneError, 1)
    else if sz ≤ 3 then ((b0.val % 16) * 4096 + (b1 % 64) * 64 + b2 % 64, 3)
    else if b3 < 0x80 ∨ 0xBF < b3 then (RuneError, 1)
    else ((b0.val % 8) * 262144 + (b1 % 64) * 4096 + (b2 % 64) * 64 + b3 % 64, 4)

/-- The byte value is not that of a continuation byte (`0x80` to `0xBF`). -/
def notCont (b : Nat) : Prop := b < 0x80 ∨ 0xBF < b

/-- The string contains no white space: none of its runes is white space for
`unicode.IsSpace`. -/
def NoSpace (r : GoString) : Prop := ∀ p ∈ runes r, IsSpace p.1 = false

/-- Go `utf8.ValidString`: the string is valid UTF-8, every rune of it decodes
without error. -/
def ValidString (s : GoString) : Prop := ∀ p ∈ runes s, p.1 = RuneError → p.2.length ≠ 1

/-- Decoding at any byte offset of the string never gives white space. -/
def SpaceFree (x : GoString) : Prop := ∀ t, t <:+ x → IsSpace (decodeRune t).1 = false

/-- Every byte from `0xC0` on in the string begins a well-formed sequence of
two or more bytes. -/
def LeadsValid (x : GoString) : Prop :=
  ∀ b0 rest, (b0 :: rest) <:+ x → 0xC0 ≤ b0.val → 2 ≤ (decodeRune (b0 :: rest)).2

/-- The string is empty or begins with a byte that is not a continuation byte. -/
def StartsRune (z : GoString) : Prop := notCont (byteAt z 0)

/-- The string is empty or ends with an ASCII byte. -/
def EndsASCII (x : GoString) : Prop := x = [] ∨ ∃ v c, x = v ++ [c] ∧ c.val < 0x80

/-- The string is the beginning of a space-free string in which every lead
byte begins a well-formed sequence. -/
def GoodPrefix (x : GoString) : Prop := ∃ y, SpaceFree (x ++ y) ∧ LeadsValid (x ++ y)

/-- The function a one-for-one `Replace` applies to every byte. -/
def replaceByte (old c : Byte) (b : Byte) : Byte := if b = old then c else b

/-- Both invariants together: no white space at any byte offset, and every
lead byte begins a well-formed sequence. -/
def Clean (x : GoString) : Prop := SpaceFree x ∧ LeadsValid x

/-- The USB vendor name before the final cleanup in the words of the
specification, for the words `ws` of the input: nothing for no word; the
sentinel "Wrong-ID" when the last word is "ID)"; the punctuation-trimmed first
word cut to 10 bytes when it is longer than that; the second-word rule
otherwise. -/
def usbVendorRule (suffixes : List GoString) (ws : List GoString) : GoString :=
  match ws with
  | [] => []
  | w0 :: rest =>
    if (w0 :: rest).getLast? = some (str "ID)") then str "Wrong-ID"
    else if (Trim w0 (str ".,?[]()")).length > 10 then (Trim w0 (str ".,?[]()")).take 10
    else secondWordRule suffixes (str ".,?[]()") w0 rest

/-- Every `/` replaced by `-`, in the words of the specification: the string
byte for byte, with `-` where it had `/`. -/
def slashToDash (x : GoString) : GoString :=
  x.map (fun b => if b = ch '/' then ch '-' else b)

/-- Every `.` stripped, in the words of the specification: the bytes of the
string other than `.`, in their order; nothing takes the place of a dot. -/
def stripDots (x : GoString) : GoString :=
  x.filter (fun b => b ≠ ch '.')

/-- An ASCII letter or digit. -/
def isAlnum (b : Byte) : Bool :=
  (0x30 ≤ b.val ∧ b.val ≤ 0x39) ∨ (0x41 ≤ b.val ∧ b.val ≤ 0x5A) ∨ (0x61 ≤ b.val ∧ b.val ≤ 0x7A)

/-! ## The library model: runes and fields -/

namespace Go

theorem decodeRune_size_pos (b : Byte) (bs : GoString) : 1 ≤ (decodeRune (b :: bs)).2 := by
  unfold decodeRune
  simp only
  split_ifs <;> simp

theorem runesAux_chunk_ne_nil (fuel : Nat) (s : GoString) :
    ∀ p ∈ runesAux fuel s, p.2 ≠ [] := by
  induction fuel generalizing s with
  | zero => intro p hp; simp [runesAux] at hp
  | succ n ih =>
    cases s with
    | nil => intro p hp; simp [runesAux] at hp
    | cons b bs =>
      intro p hp
      simp only [runesAux, List.mem_cons] at hp
      rcases hp with rfl | hp
      · have h := decodeRune_size_pos b bs
        obtain ⟨k, hk⟩ : ∃ k, (decodeRune (b :: bs)).2 = k + 1 := ⟨_, (Nat.sub_add_cancel h).symm⟩
        simp [hk]
      · exact ih _ p hp

theorem fieldsLoop_ne_nil_of_cur (rs : List (Nat × GoString)) (cur : GoString)
    (h : cur ≠ []) : fieldsLoop rs cur ≠ [] := by
  induction rs generalizing cur with
  | nil => simp [fieldsLoop, h]
  | cons p rest ih =>
    obtain ⟨r, bs⟩ := p
    simp only [fieldsLoop]
    split_ifs with h1
    · simp
    · exact ih _ (by simp [h])

theorem fieldsLoop_ne_nil (rs : List (Nat × GoString)) (cur : GoString)
    (hchunk : ∀ p ∈ rs, p.2 ≠ []) (h : ∃ p ∈ rs, IsSpace p.1 = false) :
    fieldsLoop rs cur ≠ [] := by
  induction rs generalizing cur with
  | nil => simp at h
  | cons p rest ih =>
    obtain ⟨r, bs⟩ := p
    have hrest : ∀ p ∈ rest, p.2 ≠ [] := fun p hp => hchunk p (List.mem_cons_of_mem _ hp)
    simp only [fieldsLoop]
    by_cases hsp : IsSpace r = true
    · have h2 : ∃ p ∈ rest, IsSpace p.1 = false := by
        obtain ⟨p, hp, hp2⟩ := h
        rcases List.mem_cons.1 hp with rfl | hp
        · simp [hsp] at hp2
        · exact ⟨p, hp, hp2⟩
      simp only [hsp, if_true]
      split_ifs
      · exact ih _ hrest h2
      · simp
    · simp only [hsp]
      have hbs : bs ≠ [] := hchunk (r, bs) (List.mem_cons_self _ _)
      exact fieldsLoop_ne_nil_of_cur _ _ (by simp [hbs])

/-- A string with a rune that is not white space has at least one field. -/
theorem Fields_ne_nil (s : GoString) (h : ∃ p ∈ runes s, IsSpace p.1 = false) :
    Fields s ≠ [] :=
  fieldsLoop_ne_nil _ _ (runesAux_chunk_ne_nil _ _) h

/-! ### Lengths after `Trim` and `Replace` -/

theorem trimLeftASCII_length_le (s cutset : GoString) :
    (trimLeftASCII s cutset).length ≤ s.length :=
  (List.dropWhile_sublist _).length_le

theorem trimRightASCII_length_le (s cutset : GoString) :
    (trimRightASCII s cutset).length ≤ s.length := by
  unfold trimRightASCII
  rw [List.length_reverse]
  exact le_trans (List.dropWhile_sublist _).length_le (by rw [List.length_reverse])

theorem trimLeftUnicodeAux_length_le (cutset : GoString) (fuel : Nat) (s : GoString) :
    (trimLeftUnicodeAux cutset fuel s).length ≤ s.length := by
  induction fuel generalizing s with
  | zero => simp [trimLeftUnicodeAux]
  | succ n ih =>
    cases s with
    | nil => simp [trimLeftUnicodeAux]
    | cons b bs =>
      simp only [trimLeftUnicodeAux]
      split_ifs
      · exact le_refl _
      · exact le_trans (ih _) (by rw [List.length_drop]; omega)
      · exact le_refl _
      · exact le_trans (ih _) (by rw [List.length_drop]; omega)

theorem trimRightUnicodeAux_length_le (cutset : GoString) (fuel : Nat) (s : GoString) :
    (trimRightUnicodeAux cutset fuel s).length ≤ s.length := by
  induction fuel generalizing s with
  | zero => simp [trimRightUnicodeAux]
  | succ n ih =>
    simp only [trimRightUnicodeAux]
    split_ifs
    any_goals exact le_refl _
    all_goals exact le_trans (ih _) (by rw [List.length_take]; omega)

/-- The result of `Trim` is never longer than its argument. -/
theorem Trim_length_le (s cutset : GoString) : (Trim s cutset).length ≤ s.length := by
  unfold Trim
  split_ifs
  · exact le_refl _
  · exact le_trans (trimLeftASCII_length_le _ _) (trimRightASCII_length_le _ _)
  · exact le_trans (trimLeftUnicodeAux_length_le _ _ _) (trimRightUnicodeAux_length_le _ _ _)

theorem Replace_append (s t : GoString) (old : Byte) (new : GoString) :
    Replace (s ++ t) old new = Replace s old new ++ Replace t old new := by
  simp [Replace]

/-- Replacing a byte by one byte keeps the length. -/
theorem Replace_length_one (s : GoString) (old c : Byte) :
    (Replace s old [c]).length = s.length := by
  induction s with
  | nil => rfl
  | cons b bs ih =>
    have : Replace (b :: bs) old [c] = (if b = old then [c] else [b]) ++ Replace bs old [c] := by
      simp [Replace]
    rw [this, List.length_append, ih]
    split_ifs <;> simp <;> omega

/-- Replacing a byte by nothing does not lengthen the string. -/
theorem Replace_length_nil (s : GoString) (old : Byte) :
    (Replace s old []).length ≤ s.length := by
  induction s with
  | nil => simp [Replace]
  | cons b bs ih =>
    have : Replace (b :: bs) old [] = (if b = old then [] else [b]) ++ Replace bs old [] := by
      simp [Replace]
    rw [this, List.length_append]
    split_ifs <;> simp <;> omega

theorem str_dash : str "-" = [ch '-'] := by decide

theorem EndsDash_Replace (r : GoString) (old : Byte) (new : GoString) (h : EndsDash r)
    (hold : old ≠ ch '-') : EndsDash (Replace r old new) := by
  rcases h with rfl | ⟨w, rfl⟩
  · left; rfl
  · right
    refine ⟨Replace w old new, ?_⟩
    rw [Replace_append]
    congr 1
    simp [Replace, Ne.symm hold]

/-- Trimming `-` from a string that ends in `-` removes at least that byte. -/
theorem Trim_dash_length (r : GoString) (h : EndsDash r) (n : Nat) (hn : r.length ≤ n + 1) :
    (Trim r (str "-")).length ≤ n := by
  rcases h with rfl | ⟨w, rfl⟩
  · simp [Trim]
  · have h1 : Trim (w ++ [ch '-']) (str "-")
        = trimLeftASCII (trimRightASCII (w ++ [ch '-']) (str "-")) (str "-") := by
      unfold Trim
      rw [if_neg (by simp [str_dash]), if_pos (by decide)]
    have h2 : trimRightASCII (w ++ [ch '-']) (str "-") = trimRightASCII w (str "-") := by
      unfold trimRightASCII
      rw [List.reverse_append, List.reverse_singleton, List.singleton_append,
        List.dropWhile_cons_of_pos (by simp [str_dash])]
    rw [h1, h2]
    have := trimLeftASCII_length_le (trimRightASCII w (str "-")) (str "-")
    have := trimRightASCII_length_le w (str "-")
    simp only [List.length_append, List.length_singleton] at hn
    omega

/-! ### The order on strings, `sort.Strings` and `sort.Search` -/

theorem strLess_irrefl (a : GoString) : strLess a a = false := by
  induction a with
  | nil => rfl
  | cons x xs ih => simp [strLess, ih]

theorem strLess_trans (a b c : GoString) (h1 : strLess a b = true) (h2 : strLess b c = true) :
    strLess a c = true := by
  induction a generalizing b c with
  | nil =>
    cases c with
    | nil => cases b <;> simp [strLess] at h2
    | cons z zs => rfl
  | cons x xs ih =>
    cases b with
    | nil => simp [strLess] at h1
    | cons y ys =>
      cases c with
      | nil => simp [strLess] at h2
      | cons z zs =>
        simp only [strLess] at h1 h2 ⊢
        by_cases hxy : x < y
        · by_cases hyz : y < z
          · simp [lt_trans hxy hyz]
          · by_cases hzy : z < y
            · simp [hyz, hzy] at h2
            · have : y = z := le_antisymm (not_lt.1 hzy) (not_lt.1 hyz)
              subst this
              simp [hxy]
        · by_cases hyx : y < x
          · simp [hxy, hyx] at h1
          · have : x = y := le_antisymm (not_lt.1 hyx) (not_lt.1 hxy)
            subst this
            simp only [hxy, if_false] at h1
            by_cases hxz : x < z
            · simp [hxz]
            · by_cases hzx : z < x
              · simp [hxz, hzx] at h2
              · simp only [hxz, hzx, if_false] at h2 ⊢
                exact ih _ _ h1 h2

theorem strLess_total (a b : GoString) (h1 : strLess a b = false) (h2 : strLess b a = false) :
    a = b := by
  induction a generalizing b with
  | nil =>
    cases b with
    | nil => rfl
    | cons y ys => simp [strLess] at h1
  | cons x xs ih =>
    cases b with
    | nil => simp [strLess] at h2
    | cons y ys =>
      simp only [strLess] at h1 h2
      by_cases hxy : x < y
      · simp [hxy] at h1
      · by_cases hyx : y < x
        · simp [hyx] at h2
        · have : x = y := le_antisymm (not_lt.1 hyx) (not_lt.1 hxy)
          subst this
          simp only [hxy, if_false] at h1 h2
          rw [ih _ h1 h2]

theorem strLess_asymm (a b : GoString) (h : strLess a b = true) : strLess b a = false := by
  by_contra hc
  have h3 := strLess_trans a b a h (by simpa using hc)
  simp [strLess_irrefl] at h3

theorem insertSorted_perm (x : GoString) (l : List GoString) :
    (insertSorted x l).Perm (x :: l) := by
  induction l with
  | nil => exact List.Perm.refl _
  | cons y ys ih =>
    simp only [insertSorted]
    split_ifs
    · exact List.Perm.refl _
    · exact (List.Perm.cons y ih).trans (List.Perm.swap x y ys)

theorem sortStrings_perm (l : List GoString) : (sortStrings l).Perm l := by
  induction l with
  | nil => exact List.Perm.refl _
  | cons x xs ih => exact (insertSorted_perm x _).trans (List.Perm.cons x ih)

theorem insertSorted_sorted (x : GoString) (l : List GoString) (h : SortedStrings l) :
    SortedStrings (insertSorted x l) := by
  induction l with
  | nil => simp [insertSorted, SortedStrings]
  | cons y ys ih =>
    unfold SortedStrings at h ih ⊢
    rw [List.pairwise_cons] at h
    simp only [insertSorted]
    split_ifs with hxy
    · refine List.pairwise_cons.2 ⟨?_, List.pairwise_cons.2 h⟩
      intro z hz
      rcases List.mem_cons.1 hz with rfl | hz
      · exact strLess_asymm _ _ hxy
      · by_contra hc
        have h3 := strLess_trans z x y (by simpa using hc) hxy
        simp [h.1 z hz] at h3
    · refine List.pairwise_cons.2 ⟨?_, ih h.2⟩
      intro z hz
      rcases List.mem_cons.1 ((insertSorted_perm x ys).mem_iff.1 hz) with rfl | hz
      · simpa using hxy
      · exact h.1 z hz

theorem sortStrings_sorted (l : List GoString) : SortedStrings (sortStrings l) := by
  induction l with
  | nil => simp [sortStrings, SortedStrings]
  | cons x xs ih => exact insertSorted_sorted x _ ih

/-- What the loop of `sort.Search` returns for a predicate that is monotone
below `N`, when the fuel covers the interval: the first index of `[i, j)` where
`f` holds, or `j`. -/
theorem searchLoop_spec (f : Nat → Bool) (N : Nat)
    (hmono : ∀ a b, a ≤ b → b < N → f a = true → f b = true) (fuel i j : Nat)
    (hij : i ≤ j) (hjN : j ≤ N) (hfuel : j - i ≤ fuel) :
    i ≤ searchLoop f fuel i j ∧ searchLoop f fuel i j ≤ j ∧
    (∀ k, k < searchLoop f fuel i j → i ≤ k → f k = false) ∧
    (searchLoop f fuel i j < j → f (searchLoop f fuel i j) = true) := by
  induction fuel generalizing i j with
  | zero =>
    have : i = j := by omega
    subst this
    simp only [searchLoop]
    exact ⟨le_refl _, le_refl _, fun k hk hik => by omega, fun h => absurd h (lt_irrefl _)⟩
  | succ n ih =>
    simp only [searchLoop]
    by_cases hlt : i < j
    · simp only [hlt, if_true]
      have hh1 : i ≤ (i + j) / 2 := by omega
      have hh2 : (i + j) / 2 < j := by omega
      by_cases hf : f ((i + j) / 2) = true
      · simp only [hf, Bool.not_true, Bool.false_eq_true, if_false]
        obtain ⟨a1, a2, a3, a4⟩ := ih i ((i + j) / 2) hh1 (by omega) (by omega)
        refine ⟨a1, by omega, a3, ?_⟩
        intro _
        rcases Nat.lt_or_ge (searchLoop f n i ((i + j) / 2)) ((i + j) / 2) with hc | hc
        · exact a4 hc
        · have : searchLoop f n i ((i + j) / 2) = (i + j) / 2 := by omega
          rw [this]; exact hf
      · have hf2 : f ((i + j) / 2) = false := by simpa using hf
        simp only [hf2, Bool.not_false, if_true]
        obtain ⟨a1, a2, a3, a4⟩ := ih ((i + j) / 2 + 1) j (by omega) hjN (by omega)
        refine ⟨by omega, a2, ?_, a4⟩
        intro k hk hik
        rcases Nat.lt_or_ge ((i + j) / 2) k with hc | hc
        · exact a3 k hk hc
        · cases hkf : f k with
          | false => rfl
          | true =>
            have := hmono k ((i + j) / 2) hc (by omega) hkf
            rw [hf2] at this
            exact absurd this (by decide)
    · simp only [hlt, if_false]
      exact ⟨le_refl _, hij, fun k hk hik => by omega, fun h => h.elim⟩

theorem sorted_getD_le (a : List GoString) (h : SortedStrings a) (i j : Nat)
    (hij : i ≤ j) (hj : j < a.length) : strLess (a.getD j []) (a.getD i []) = false := by
  rcases Nat.eq_or_lt_of_le hij with rfl | hlt
  · exact strLess_irrefl _
  · have hi : i < a.length := by omega
    have := (List.pairwise_iff_getElem.1 h) i j hi hj hlt
    rw [List.getD_eq_getElem _ _ hi, List.getD_eq_getElem _ _ hj]
    exact this

/-- Binary search in a sorted slice finds `x` exactly when `x` is in it. -/
theorem SearchStrings_found_iff (a : List GoString) (h : SortedStrings a) (x : GoString) :
    (SearchStrings a x < a.length ∧ a.getD (SearchStrings a x) [] = x) ↔ x ∈ a := by
  have key : ∀ i j, i ≤ j → j < a.length → strLess (a.getD i []) x = false →
      strLess (a.getD j []) x = false := by
    intro i j hij hj h2
    have h3 := sorted_getD_le a h i j hij hj
    cases h1 : strLess (a.getD j []) x with
    | false => rfl
    | true =>
      exfalso
      cases h4 : strLess x (a.getD i []) with
      | false =>
        have h6 := strLess_total _ _ h2 h4
        rw [h6, h1] at h3
        exact absurd h3 (by decide)
      | true =>
        have h5 := strLess_trans _ _ _ h1 h4
        rw [h3] at h5
        exact absurd h5 (by decide)
  have hmono : ∀ i j, i ≤ j → j < a.length → (!strLess (a.getD i []) x) = true →
      (!strLess (a.getD j []) x) = true := by
    intro i j hij hj hi
    rw [Bool.not_eq_true'] at hi ⊢
    exact key i j hij hj hi
  obtain ⟨_, _, b3, b4⟩ := searchLoop_spec _ a.length hmono a.length 0 a.length
    (Nat.zero_le _) (le_refl _) (by omega)
  change (∀ k, k < SearchStrings a x → 0 ≤ k → (!strLess (a.getD k []) x) = false) at b3
  change (SearchStrings a x < a.length →
    (!strLess (a.getD (SearchStrings a x) []) x) = true) at b4
  constructor
  · rintro ⟨h1, h2⟩
    rw [← h2, List.getD_eq_getElem _ _ h1]
    exact List.getElem_mem _
  · intro hx
    obtain ⟨k, hk, hkx⟩ := List.getElem_of_mem hx
    have hkx2 : a.getD k [] = x := by rw [List.getD_eq_getElem _ _ hk]; exact hkx
    have hle : SearchStrings a x ≤ k := by
      by_contra hc
      have := b3 k (by omega) (Nat.zero_le _)
      rw [hkx2, strLess_irrefl] at this
      exact absurd this (by decide)
    have hlt : SearchStrings a x < a.length := by omega
    refine ⟨hlt, ?_⟩
    have h1 := b4 hlt
    rw [Bool.not_eq_true'] at h1
    have h2 := sorted_getD_le a h _ k hle hk
    rw [hkx2] at h2
    exact strLess_total _ _ h1 h2

end Go

/-- The answer of `inArray` is membership in the slice. -/
theorem inArray_fst (t : GoString) (xs : List GoString) : (inArray t xs).1 = decide (t ∈ xs) := by
  have h := SearchStrings_found_iff (sortStrings xs) (sortStrings_sorted xs) t
  rw [(sortStrings_perm xs).mem_iff] at h
  unfold inArray
  by_cases hm : t ∈ xs
  · simp only [if_pos (h.2 hm), hm, decide_True]
  · have : ¬ (SearchStrings (sortStrings xs) t < (sortStrings xs).length ∧
        (sortStrings xs).getD (SearchStrings (sortStrings xs) t) [] = t) := fun hc => hm (h.1 hc)
    simp only [if_neg this, hm, decide_False]

/-- The slice after `inArray` is the sorted slice, a permutation of the one before. -/
theorem inArray_snd (t : GoString) (xs : List GoString) : (inArray t xs).2 = sortStrings xs := rfl

/-! ## The device loops -/

theorem pci_deviceLoop_EndsDash (ws : List GoString) (acc : GoString) (hs : List GoString)
    (h : EndsDash acc) : EndsDash (pci.deviceLoop ws acc hs).1 := by
  induction ws generalizing acc hs with
  | nil => exact h
  | cons w ws ih =>
    simp only [pci.deviceLoop]
    split_ifs
    · exact ih _ _ (Or.inr ⟨acc ++ Trim w (str "-/&()"), by rw [str_dash, List.append_assoc]⟩)
    · exact ih _ _ h
    · exact ih _ _ h

theorem usb_deviceLoop_EndsDash (ws : List GoString) (acc : GoString)
    (h : EndsDash acc) : EndsDash (usb.deviceLoop ws acc) := by
  induction ws generalizing acc with
  | nil => exact h
  | cons w ws ih =>
    simp only [usb.deviceLoop]
    split_ifs
    · exact ih _ (Or.inr ⟨acc ++ Trim w usb.deviceCutset, by rw [str_dash, List.append_assoc]⟩)
    · exact ih _ h

/-- The steps of PCI `getReadableDevice` after the loop give at most 34 bytes. -/
theorem pci_post_length (b : GoString) (h : EndsDash b) :
    (Trim (Replace (Replace
      (if (Replace (Replace b (ch '(') []) (ch ')') []).length > pci.deviceMaxLen
       then (Replace (Replace b (ch '(') []) (ch ')') []).take (pci.deviceMaxLen - 1)
       else Replace (Replace b (ch '(') []) (ch ')') [])
      (ch '/') (str "-")) (ch '&') (str "-")) (str "-")).length ≤ 34 := by
  have e2 : EndsDash (Replace (Replace b (ch '(') []) (ch ')') []) :=
    EndsDash_Replace _ _ _ (EndsDash_Replace _ _ _ h (by decide)) (by decide)
  split_ifs with hlen
  · refine le_trans (Trim_length_le _ _) ?_
    rw [str_dash, Replace_length_one, Replace_length_one, List.length_take]
    simp [pci.deviceMaxLen]
  · refine Trim_dash_length _ ?_ 34 ?_
    · exact EndsDash_Replace _ _ _ (EndsDash_Replace _ _ _ e2 (by decide)) (by decide)
    · rw [str_dash, Replace_length_one, Replace_length_one]
      simp only [pci.deviceMaxLen] at hlen
      omega

/-- The steps of USB `getReadableDevice` after the loop give at most 32 bytes. -/
theorem usb_post_length (b : GoString) (h : EndsDash b) :
    (Trim (Replace (Replace (Replace (Replace (Replace (Replace (Replace (Replace
      (if b.length > usb.deviceMaxLen then b.take (usb.deviceMaxLen - 1) else b)
      (ch '/') (str "-")) (ch '&') (str "-")) (ch '*') (str "-")) (ch '+') (str "-"))
      (ch '^') (str "-")) 0x5C (str "-")) (ch '(') (str "-")) (ch ')') (str "-"))
      (str "-")).length ≤ 32 := by
  split_ifs with hlen
  · refine le_trans (Trim_length_le _ _) ?_
    rw [str_dash]
    simp only [Replace_length_one, List.length_take]
    simp [usb.deviceMaxLen]
  · refine Trim_dash_length _ ?_ 32 ?_
    · iterate 8 refine EndsDash_Replace _ _ _ ?_ (by decide)
      exact h
    · rw [str_dash]
      simp only [Replace_length_one]
      simp only [usb.deviceMaxLen] at hlen
      omega

/-- The final cleanup of USB `getReadableVendor` does not lengthen the string. -/
theorem usb_cleanup_length (v : GoString) :
    (Replace (Replace (Trim v (str "-/&+")) (ch '/') (str "-")) (ch '.') []).length
      ≤ v.length := by
  refine le_trans (Replace_length_nil _ _) ?_
  rw [str_dash, Replace_length_one]
  exact Trim_length_le _ _

/-! ## The vendor functions -/

/-- The last word, as the vendor functions read it: `vendorSplitList[len-1]`. -/
theorem lastItem_eq (l : List GoString) (w : GoString) (h : l.getLast? = some w) :
    l.length ≠ 0 ∧ l.getD (l.length - 1) [] = w := by
  constructor
  · intro h0
    rw [List.length_eq_zero] at h0
    subst h0
    simp at h
  · rw [List.getLast?_eq_getElem?] at h
    rw [List.getD_eq_getElem?_getD, h]
    rfl

theorem str_lbracket : str "[" = [ch '['] := by decide

theorem str_rbracket : str "]" = [ch ']'] := by decide

/-- The slice `vendorLastItem[1 : len(vendorLastItem)-1]` of a bracketed word. -/
theorem slice_bracket (x : GoString) :
    sliceExpr (str "[" ++ x ++ str "]") 1 (((str "[" ++ x ++ str "]").length : Int) - 1)
      = some x := by
  have hlen : (str "[" ++ x ++ str "]").length = x.length + 2 := by
    rw [str_lbracket, str_rbracket]; simp
  unfold sliceExpr
  rw [hlen, if_pos ⟨by decide, by omega, by omega⟩]
  have t1 : (((x.length + 2 : Nat) : Int) - 1).toNat = x.length + 1 := by omega
  have t2 : (1 : Int).toNat = 1 := rfl
  rw [t1, t2, str_lbracket, str_rbracket]
  simp [List.take_append_eq_append_take]

theorem take_if_longer (j : GoString) (n : Nat) :
    (if j.length > n then j.take n else j) = j.take n := by
  split_ifs with h
  · rfl
  · exact (List.take_of_length_le (by omega)).symm

theorem pci_vendor_second_word (hp : List GoString) (s w0 : GoString) (ws : List GoString)
    (hf : Fields s = w0 :: ws) (hid : (w0 :: ws).getLast (List.cons_ne_nil w0 ws) ≠ str "ID)")
    (hperm : hp.Perm pci.hiddenSuffixVendor)
    (hbr : HasPrefix ((w0 :: ws).getLast (List.cons_ne_nil w0 ws)) (str "[") = false)
    (hlen : (Trim w0 (str ".,?")).length ≤ 10) :
    (pci.getReadableVendor hp s).1
      = some (pciCleanup (secondWordRule pci.hiddenSuffixVendor (str ".,?") w0 ws)) := by
  have hl : (w0 :: ws).getLast? = some ((w0 :: ws).getLast (List.cons_ne_nil _ _)) :=
    List.getLast?_eq_getLast _ _
  obtain ⟨h0, hlast⟩ := lastItem_eq _ _ hl
  have hid2 : ¬ ((w0 :: ws).getLast (List.cons_ne_nil _ _) = str "ID)") := hid
  have hbr2 := hbr
  unfold pci.getReadableVendor
  simp only
  rw [hf, if_neg h0, hlast, if_neg hid2, if_neg (by rw [hbr2]; decide)]
  simp only [List.set_cons_zero, List.getD_cons_zero]
  rw [if_neg (by simp only [pci.vendorMaxLen]; omega)]
  cases ws with
  | nil =>
    simp [secondWordRule, pciCleanup]
  | cons w1 rest =>
    simp only [List.length_cons, List.getD_cons_succ, List.getD_cons_zero, List.set_cons_succ,
      List.set_cons_zero]
    rw [if_neg (by omega), inArray_fst, take_if_longer]
    by_cases hm : w1 ∈ pci.hiddenSuffixVendor
    · simp [hperm.mem_iff, hm, secondWordRule, pciCleanup]
    · simp [hperm.mem_iff, hm, secondWordRule, pciCleanup, pci.vendorMaxLen]

theorem usb_vendor_second_word (hu : List GoString) (s w0 : GoString) (ws : List GoString)
    (hf : Fields s = w0 :: ws) (hid : (w0 :: ws).getLast (List.cons_ne_nil w0 ws) ≠ str "ID)")
    (hperm : hu.Perm usb.hiddenSuffixVendor)
    (hlen : (Trim w0 (str ".,?[]()")).length ≤ 10) :
    (usb.getReadableVendor hu s).1
      = usbCleanup (secondWordRule usb.hiddenSuffixVendor (str ".,?[]()") w0 ws) := by
  have hl : (w0 :: ws).getLast? = some ((w0 :: ws).getLast (List.cons_ne_nil _ _)) :=
    List.getLast?_eq_getLast _ _
  obtain ⟨h0, hlast⟩ := lastItem_eq _ _ hl
  have hid2 : ¬ ((w0 :: ws).getLast (List.cons_ne_nil _ _) = str "ID)") := hid
  unfold usb.getReadableVendor
  simp only
  rw [hf, if_neg h0, hlast, if_neg hid2]
  simp only [List.set_cons_zero, List.getD_cons_zero]
  rw [if_neg (by simp only [usb.vendorMaxLen]; omega)]
  cases ws with
  | nil =>
    simp [secondWordRule, usbCleanup]
  | cons w1 rest =>
    simp only [List.length_cons, List.getD_cons_succ, List.getD_cons_zero, List.set_cons_succ,
      List.set_cons_zero]
    rw [if_neg (by omega), inArray_fst, take_if_longer]
    by_cases hm : w1 ∈ usb.hiddenSuffixVendor
    · simp [hperm.mem_iff, hm, secondWordRule, usbCleanup]
    · simp [hperm.mem_iff, hm, secondWordRule, usbCleanup, usb.vendorMaxLen]

/-! ## Brackets in a device name -/

theorem Index_of_not_mem (s : GoString) (c : Byte) (h : c ∉ s) : Index s c = -1 := by
  induction s with
  | nil => rfl
  | cons x xs ih =>
    have hx : x ≠ c := fun hc => h (hc ▸ List.mem_cons_self _ _)
    have hxs : c ∉ xs := fun hc => h (List.mem_cons_of_mem _ hc)
    simp only [Index, if_neg hx, ih hxs, if_true]

theorem Index_append_cons (a : GoString) (c : Byte) (rest : GoString) (h : c ∉ a) :
    Index (a ++ c :: rest) c = (a.length : Int) := by
  induction a with
  | nil => simp [Index]
  | cons x xs ih =>
    have hx : x ≠ c := fun hc => h (hc ▸ List.mem_cons_self _ _)
    have hxs : c ∉ xs := fun hc => h (List.mem_cons_of_mem _ hc)
    have hne : ¬ ((xs.length : Int) = -1) := by omega
    have step : Index (x :: (xs ++ c :: rest)) c
        = (if x = c then 0
           else if Index (xs ++ c :: rest) c = -1 then -1 else Index (xs ++ c :: rest) c + 1) :=
      rfl
    rw [List.cons_append, step, if_neg hx, ih hxs, if_neg hne, List.length_cons]
    push_cast
    rfl

/-- The slice `s[startIndex+1 : endIndex]` of `a ++ "[" ++ b ++ "]" ++ c`. -/
theorem sliceExpr_bracket (a b c : GoString) :
    sliceExpr (a ++ str "[" ++ b ++ str "]" ++ c) ((a.length : Int) + 1)
      ((a.length : Int) + 1 + (b.length : Int)) = some b := by
  unfold sliceExpr
  have hlen : (a ++ str "[" ++ b ++ str "]" ++ c).length
      = a.length + 1 + b.length + 1 + c.length := by
    rw [str_lbracket, str_rbracket]; simp; omega
  rw [hlen, if_pos ⟨by omega, by omega, by omega⟩]
  have t1 : ((a.length : Int) + 1 + (b.length : Int)).toNat = (a ++ str "[" ++ b).length := by
    rw [str_lbracket]; simp; omega
  have t2 : ((a.length : Int) + 1).toNat = (a ++ str "[").length := by
    rw [str_lbracket]; simp
  have e : a ++ str "[" ++ b ++ str "]" ++ c = (a ++ str "[" ++ b) ++ (str "]" ++ c) := by
    simp
  rw [t1, t2, e, List.take_left', List.drop_left']
  · rfl
  · rfl

/-- The working string of PCI `getReadableDevice` decides its result. -/
theorem pci_getReadableDevice_congr (hs : List GoString) (s t : GoString)
    (h : (if Index s (ch '[') ≠ -1 then sliceExpr s (Index s (ch '[') + 1) (Index s (ch ']'))
          else some s)
       = (if Index t (ch '[') ≠ -1 then sliceExpr t (Index t (ch '[') + 1) (Index t (ch ']'))
          else some t)) :
    pci.getReadableDevice hs s = pci.getReadableDevice hs t := by
  unfold pci.getReadableDevice
  simp only
  rw [h]

/-! ## Properties of the readable names -/

/-- C1: for every input with at least one rune that is not white space, PCI
`getReadableClass` returns the first field of the input, cut to its first 4
bytes when it is longer than 4, and the result has at most 4 bytes. -/
theorem pci_getReadableClass_first_word (s : GoString)
    (h : ∃ p ∈ runes s, IsSpace p.1 = false) :
    ∃ w ws, Fields s = w :: ws ∧
      pci.getReadableClass s = some (if w.length > 4 then w.take 4 else w) ∧
      (if w.length > 4 then w.take 4 else w).length ≤ 4 := by
  have hne := Fields_ne_nil s h
  obtain ⟨w, ws, hw⟩ := List.exists_cons_of_ne_nil hne
  refine ⟨w, ws, hw, ?_, ?_⟩
  · simp [pci.getReadableClass, hw, pci.classMaxLen]
  · split_ifs with h4
    · simp
    · omega

/-- C1 at the inputs of the test: "Ethernet controller", "3D controller" and
"VGA compatible controller". -/
theorem pci_getReadableClass_first_word_witness :
    (∃ p ∈ runes (str "Ethernet controller"), IsSpace p.1 = false) ∧
    (∃ w ws, Fields (str "Ethernet controller") = w :: ws ∧
      pci.getReadableClass (str "Ethernet controller")
        = some (if w.length > 4 then w.take 4 else w) ∧
      (if w.length > 4 then w.take 4 else w).length ≤ 4) ∧
    pci.getReadableClass (str "Ethernet controller") = some (str "Ethe") ∧
    pci.getReadableClass (str "3D controller") = some (str "3D") ∧
    pci.getReadableClass (str "VGA compatible controller") = some (str "VGA") :=
  have h : ∃ p ∈ runes (str "Ethernet controller"), IsSpace p.1 = false :=
    ⟨(69, [69]), by decide, by decide⟩
  ⟨h, pci_getReadableClass_first_word _ h, by decide, by decide, by decide⟩

/-- C2: `inArray(t, xs)` is true exactly when `t` is an element of `xs`; so the
answer is the same for every permutation of `xs`, and an earlier query (which
sorts the slice) does not change the answer of a later one. -/
theorem inArray_true_iff_mem (t : GoString) (xs : List GoString) :
    ((inArray t xs).1 = true ↔ t ∈ xs) ∧
    (∀ ys : List GoString, ys.Perm xs → (inArray t ys).1 = (inArray t xs).1) ∧
    (∀ u : GoString, (inArray t (inArray u xs).2).1 = (inArray t xs).1) := by
  refine ⟨by simp [inArray_fst], ?_, ?_⟩
  · intro ys hp
    simp [inArray_fst, hp.mem_iff]
  · intro u
    simp [inArray_fst, inArray_snd, (sortStrings_perm xs).mem_iff]

set_option maxRecDepth 100000 in
/-- C2 at the queries of `TestInArray`, made one after the other on the slice
as the previous query left it. -/
theorem inArray_true_iff_mem_witness :
    (((inArray (str "Corp") testHiddenSuffix).1 = true ↔ str "Corp" ∈ testHiddenSuffix) ∧
     (∀ ys : List GoString, ys.Perm testHiddenSuffix →
        (inArray (str "Corp") ys).1 = (inArray (str "Corp") testHiddenSuffix).1) ∧
     (∀ u : GoString, (inArray (str "Corp") (inArray u testHiddenSuffix).2).1
        = (inArray (str "Corp") testHiddenSuffix).1)) ∧
    (inArray (str "Corp") testHiddenSuffix).1 = true ∧
    (inArray (str "Corporation") (inArray (str "Corp") testHiddenSuffix).2).1 = true ∧
    (inArray (str "Co") testHiddenSuffix).1 = true ∧
    (inArray (str "Inc") testHiddenSuffix).1 = true ∧
    (inArray (str "Technologies") testHiddenSuffix).1 = true ∧
    (inArray (str "LLC") testHiddenSuffix).1 = true ∧
    (inArray (str "Scoop") testHiddenSuffix).1 = false :=
  ⟨inArray_true_iff_mem (str "Corp") testHiddenSuffix,
   by decide, by decide, by decide, by decide, by decide, by decide, by decide⟩

/-- C3: when PCI `getReadableDevice` returns a result, the result has at most 34 bytes. -/
theorem pci_getReadableDevice_length (hs : List GoString) (s r : GoString)
    (h : (pci.getReadableDevice hs s).1 = some r) : r.length ≤ 34 := by
  unfold pci.getReadableDevice at h
  simp only at h
  split at h
  · simp at h
  · rename_i rd _
    by_cases h0 : (Fields rd).length = 0
    · rw [if_pos h0] at h
      simp only [Option.some.injEq] at h
      subst h; simp
    · rw [if_neg h0] at h
      simp only [Option.some.injEq] at h
      subst h
      exact pci_post_length _ (pci_deviceLoop_EndsDash _ _ _ (Or.inl rfl))

set_option maxRecDepth 100000 in
/-- C3 at the first input of `TestGetReadableDevice`, whose result has exactly 34 bytes. -/
theorem pci_getReadableDevice_length_witness :
    (pci.getReadableDevice pci.hiddenSuffixDevice
      (str "BeaverCreek HDMI Audio [Radeon HD 6500D and 6400G-6600G series]")).1
      = some (str "Radeon-HD-6500D-and-6400G-6600G-se") ∧
    (str "Radeon-HD-6500D-and-6400G-6600G-se").length ≤ 34 ∧
    (str "Radeon-HD-6500D-and-6400G-6600G-se").length = 34 :=
  have h : (pci.getReadableDevice pci.hiddenSuffixDevice
      (str "BeaverCreek HDMI Audio [Radeon HD 6500D and 6400G-6600G series]")).1
      = some (str "Radeon-HD-6500D-and-6400G-6600G-se") := by decide
  ⟨h, pci_getReadableDevice_length _ _ _ h, by decide⟩

/-- C4: the result of USB `getReadableDevice` has at most 32 bytes, for every input. -/
theorem usb_getReadableDevice_length (s : GoString) :
    (usb.getReadableDevice s).length ≤ 32 := by
  unfold usb.getReadableDevice
  simp only
  by_cases h0 : (Fields s).length = 0
  · rw [if_pos h0]; simp
  · rw [if_neg h0]
    exact usb_post_length _ (usb_deviceLoop_EndsDash _ _ (Or.inl rfl))

set_option maxRecDepth 100000 in
/-- C4 at the first input of the USB `TestGetReadableDevice`, whose result has
exactly 32 bytes. -/
theorem usb_getReadableDevice_length_witness :
    (usb.getReadableDevice
      (str "DataTraveler 2.0 1GB/4GB Flash Drive / Patriot Xporter 4GB Flash Drive")).length ≤ 32 ∧
    usb.getReadableDevice
      (str "DataTraveler 2.0 1GB/4GB Flash Drive / Patriot Xporter 4GB Flash Drive")
      = str "DataTraveler-2.0-1GB-4GB-Flash-D" ∧
    (str "DataTraveler-2.0-1GB-4GB-Flash-D").length = 32 :=
  ⟨usb_getReadableDevice_length _, by decide, by decide⟩

/-- C5: the result of USB `getReadableVendor` has at most 10 bytes, for every
input and every state of the suffix list. -/
theorem usb_getReadableVendor_length (hs : List GoString) (s : GoString) :
    (usb.getReadableVendor hs s).1.length ≤ 10 := by
  unfold usb.getReadableVendor
  simp only
  by_cases h0 : (Fields s).length = 0
  · rw [if_pos h0]; simp
  · rw [if_neg h0]
    refine le_trans (usb_cleanup_length _) ?_
    simp only [usb.vendorMaxLen]
    split_ifs with h1 h2 h3 h4 h5 <;> dsimp only
    · decide
    · simp [List.length_take]
    · omega
    · omega
    · simp [List.length_take]
    · omega

set_option maxRecDepth 100000 in
/-- C5 at two inputs of the USB `TestGetReadableVendor`. -/
theorem usb_getReadableVendor_length_witness :
    (usb.getReadableVendor usb.hiddenSuffixVendor (str "Nebraska Furniture Mart")).1.length ≤ 10 ∧
    (usb.getReadableVendor usb.hiddenSuffixVendor (str "Nebraska Furniture Mart")).1
      = str "Nebraska-F" ∧
    (usb.getReadableVendor usb.hiddenSuffixVendor (str "Trust International B.V.")).1
      = str "Trust-Inte" :=
  ⟨usb_getReadableVendor_length _ _, by decide, by decide⟩

set_option maxRecDepth 100000 in
/-- C6 fails on the code: a bracketed alias of 15 bytes is returned whole by
PCI `getReadableVendor`, above `vendorMaxLen`. -/
theorem pci_getReadableVendor_bracket_exceeds :
    (pci.getReadableVendor pci.hiddenSuffixVendor
      (str "Example Networks, Inc. [ExampleNetworks]")).1 = some (str "ExampleNetworks") ∧
    pci.vendorMaxLen < (str "ExampleNetworks").length := by
  decide

/-- C7: when the last field of the input is exactly "ID)", PCI and USB
`getReadableVendor` both return "Wrong-ID", whatever the other words and the
state of the suffix lists. -/
theorem getReadableVendor_wrong_id (hp hu : List GoString) (s : GoString)
    (h : (Fields s).getLast? = some (str "ID)")) :
    (pci.getReadableVendor hp s).1 = some (str "Wrong-ID") ∧
    (usb.getReadableVendor hu s).1 = str "Wrong-ID" := by
  obtain ⟨h0, hl⟩ := lastItem_eq _ _ h
  constructor
  · unfold pci.getReadableVendor
    simp only
    rw [if_neg h0, hl, if_pos rfl]
    dsimp only [Option.map_some']
    decide
  · unfold usb.getReadableVendor
    simp only
    rw [if_neg h0, hl, if_pos rfl]
    dsimp only
    decide

set_option maxRecDepth 100000 in
/-- C7 at the inputs of the tests that end in "ID)". -/
theorem getReadableVendor_wrong_id_witness :
    (Fields (str "Silicon Image, Inc. (Wrong ID)")).getLast? = some (str "ID)") ∧
    ((pci.getReadableVendor pci.hiddenSuffixVendor
        (str "Silicon Image, Inc. (Wrong ID)")).1 = some (str "Wrong-ID") ∧
     (usb.getReadableVendor usb.hiddenSuffixVendor
        (str "Silicon Image, Inc. (Wrong ID)")).1 = str "Wrong-ID") ∧
    (pci.getReadableVendor pci.hiddenSuffixVendor
        (str "VMWare Inc (temporary ID)")).1 = some (str "Wrong-ID") ∧
    (usb.getReadableVendor usb.hiddenSuffixVendor
        (str "ASUSTek Computer, Inc. (wrong ID)")).1 = str "Wrong-ID" :=
  have h : (Fields (str "Silicon Image, Inc. (Wrong ID)")).getLast? = some (str "ID)") := by
    decide
  ⟨h, getReadableVendor_wrong_id _ _ _ h, by decide, by decide⟩

/-- C8: when the last field of the input is a bracketed token `[x]`, PCI
`getReadableVendor` returns `x` with leading and trailing `-`, `/`, `&`
trimmed and every `/` replaced by `-`, whatever the other words, the length of
`x` and the state of the suffix list. -/
theorem pci_getReadableVendor_bracket_alias (hs : List GoString) (s x : GoString)
    (h : (Fields s).getLast? = some (str "[" ++ x ++ str "]")) :
    (pci.getReadableVendor hs s).1
      = some (Replace (Trim x (str "-/&")) (ch '/') (str "-")) := by
  obtain ⟨h0, hl⟩ := lastItem_eq _ _ h
  have hid : ¬ (str "[" ++ x ++ str "]" = str "ID)") := by
    intro hc
    have hh := congrArg List.head? hc
    rw [str_lbracket, show str "ID)" = [ch 'I', ch 'D', ch ')'] from by decide] at hh
    simp only [List.singleton_append, List.cons_append, List.head?_cons, Option.some.injEq] at hh
    exact absurd hh (by decide)
  have hpre : HasPrefix (str "[" ++ x ++ str "]") (str "[") = true := by
    rw [str_lbracket]
    simp [HasPrefix]
  unfold pci.getReadableVendor
  simp only
  rw [if_neg h0, hl, if_neg hid, if_pos hpre]
  dsimp only
  rw [slice_bracket, Option.map_some']

set_option maxRecDepth 100000 in
/-- C8 at the two bracketed inputs of `TestGetReadableVendor`. -/
theorem pci_getReadableVendor_bracket_alias_witness :
    (Fields (str "Advanced Micro Devices, Inc. [AMD/ATI]")).getLast?
      = some (str "[" ++ str "AMD/ATI" ++ str "]") ∧
    (pci.getReadableVendor pci.hiddenSuffixVendor
        (str "Advanced Micro Devices, Inc. [AMD/ATI]")).1
      = some (Replace (Trim (str "AMD/ATI") (str "-/&")) (ch '/') (str "-")) ∧
    (pci.getReadableVendor pci.hiddenSuffixVendor
        (str "Advanced Micro Devices, Inc. [AMD/ATI]")).1 = some (str "AMD-ATI") ∧
    (pci.getReadableVendor pci.hiddenSuffixVendor (str "T1042 [Freescale]")).1
      = some (str "Freescale") :=
  have h : (Fields (str "Advanced Micro Devices, Inc. [AMD/ATI]")).getLast?
      = some (str "[" ++ str "AMD/ATI" ++ str "]") := by decide
  ⟨h, pci_getReadableVendor_bracket_alias _ _ _ h, by decide, by decide⟩

/-- C9: the second-word rule of both vendor functions.  For an input with the
words `w0 :: ws` whose last word is not "ID)", and every state of the suffix
list that is a permutation of its initial value: when the first word trimmed
of the bus's punctuation has at most 10 bytes (and, for PCI, the last word
does not start with "["), the result is the cleanup of the second-word rule. -/
theorem getReadableVendor_second_word (hp hu : List GoString) (s w0 : GoString)
    (ws : List GoString) (hf : Fields s = w0 :: ws)
    (hid : (w0 :: ws).getLast (List.cons_ne_nil w0 ws) ≠ str "ID)")
    (hpp : hp.Perm pci.hiddenSuffixVendor) (hup : hu.Perm usb.hiddenSuffixVendor) :
    (HasPrefix ((w0 :: ws).getLast (List.cons_ne_nil w0 ws)) (str "[") = false →
      (Trim w0 (str ".,?")).length ≤ 10 →
      (pci.getReadableVendor hp s).1
        = some (pciCleanup (secondWordRule pci.hiddenSuffixVendor (str ".,?") w0 ws))) ∧
    ((Trim w0 (str ".,?[]()")).length ≤ 10 →
      (usb.getReadableVendor hu s).1
        = usbCleanup (secondWordRule usb.hiddenSuffixVendor (str ".,?[]()") w0 ws)) :=
  ⟨fun hbr hlen => pci_vendor_second_word hp s w0 ws hf hid hpp hbr hlen,
   fun hlen => usb_vendor_second_word hu s w0 ws hf hid hup hlen⟩

set_option maxRecDepth 100000 in
/-- C9 at "NexGen Microsystems" (two words, the join cut to 10 bytes), and the
results on inputs of the two test files. -/
theorem getReadableVendor_second_word_witness :
    Fields (str "NexGen Microsystems") = [str "NexGen", str "Microsystems"] ∧
    (pci.getReadableVendor pci.hiddenSuffixVendor (str "NexGen Microsystems")).1
      = some (pciCleanup (secondWordRule pci.hiddenSuffixVendor (str ".,?") (str "NexGen")
          [str "Microsystems"])) ∧
    (usb.getReadableVendor usb.hiddenSuffixVendor (str "NexGen Microsystems")).1
      = usbCleanup (secondWordRule usb.hiddenSuffixVendor (str ".,?[]()") (str "NexGen")
          [str "Microsystems"]) ∧
    (pci.getReadableVendor pci.hiddenSuffixVendor (str "NexGen Microsystems")).1
      = some (str "NexGen-Mic") ∧
    (pci.getReadableVendor pci.hiddenSuffixVendor (str "Sapphire, Inc.")).1
      = some (str "Sapphire") ∧
    (pci.getReadableVendor pci.hiddenSuffixVendor (str "IPC Corporation Ltd.")).1
      = some (str "IPC") ∧
    (usb.getReadableVendor usb.hiddenSuffixVendor (str "Kodak, Ltd.")).1 = str "Kodak" ∧
    (usb.getReadableVendor usb.hiddenSuffixVendor (str "Temic MHS S.A.")).1
      = str "Temic-MHS" :=
  have T := getReadableVendor_second_word pci.hiddenSuffixVendor usb.hiddenSuffixVendor
     (str "NexGen Microsystems") (str "NexGen") [str "Microsystems"] (by decide) (by decide)
     (List.Perm.refl _) (List.Perm.refl _)
  ⟨by decide, T.1 (by decide) (by decide), T.2 (by decide),
   by decide, by decide, by decide, by decide, by decide⟩

/-- C10: for `a` and `b` without `[` and `]`, PCI `getReadableDevice` gives on
`a ++ "[" ++ b ++ "]" ++ c` what it gives on `b`: the same result and the same
state of the suffix list. -/
theorem pci_getReadableDevice_bracket (hs : List GoString) (a b c : GoString)
    (ha1 : ch '[' ∉ a) (ha2 : ch ']' ∉ a) (hb1 : ch '[' ∉ b) (hb2 : ch ']' ∉ b) :
    pci.getReadableDevice hs (a ++ str "[" ++ b ++ str "]" ++ c)
      = pci.getReadableDevice hs b := by
  apply pci_getReadableDevice_congr
  have i1 : Index (a ++ str "[" ++ b ++ str "]" ++ c) (ch '[') = (a.length : Int) := by
    have e : a ++ str "[" ++ b ++ str "]" ++ c = a ++ ch '[' :: (b ++ str "]" ++ c) := by
      rw [str_lbracket]; simp
    rw [e, Index_append_cons _ _ _ ha1]
  have i2 : Index (a ++ str "[" ++ b ++ str "]" ++ c) (ch ']')
      = (a.length : Int) + 1 + (b.length : Int) := by
    have e : a ++ str "[" ++ b ++ str "]" ++ c = (a ++ str "[" ++ b) ++ ch ']' :: c := by
      rw [str_rbracket]; simp
    have hn : ch ']' ∉ a ++ str "[" ++ b := by
      rw [str_lbracket]
      simp only [List.mem_append, List.mem_singleton, not_or]
      exact ⟨⟨ha2, by decide⟩, hb2⟩
    rw [e, Index_append_cons _ _ _ hn, str_lbracket]
    simp
    omega
  rw [i1, i2, if_pos (by omega), sliceExpr_bracket, Index_of_not_mem b _ hb1, if_neg (by simp)]

set_option maxRecDepth 100000 in
/-- C10 at the bracketed inputs of `TestGetReadableDevice`. -/
theorem pci_getReadableDevice_bracket_witness :
    ch '[' ∉ str "Compute Engine Virtual Ethernet " ∧
    ch ']' ∉ str "Compute Engine Virtual Ethernet " ∧
    ch '[' ∉ str "gVNIC" ∧ ch ']' ∉ str "gVNIC" ∧
    pci.getReadableDevice pci.hiddenSuffixDevice
        (str "Compute Engine Virtual Ethernet " ++ str "[" ++ str "gVNIC" ++ str "]" ++ [])
      = pci.getReadableDevice pci.hiddenSuffixDevice (str "gVNIC") ∧
    (pci.getReadableDevice pci.hiddenSuffixDevice
        (str "Compute Engine Virtual Ethernet [gVNIC]")).1 = some (str "gVNIC") ∧
    (pci.getReadableDevice pci.hiddenSuffixDevice
        (str "Airbrush Combined Paintbox IPU/Oscar Edge TPU [Pixel Neural Core]")).1
      = some (str "Pixel-Neural-Core") :=
  ⟨by decide, by decide, by decide, by decide,
   pci_getReadableDevice_bracket _ _ _ _ (by decide) (by decide) (by decide) (by decide),
   by decide, by decide⟩

/-! ## Bytes that cannot occur in a result -/

namespace Go

theorem not_mem_Replace_self (s : GoString) (old : Byte) (new : GoString) (h : old ∉ new) :
    old ∉ Replace s old new := by
  unfold Replace
  intro hc
  obtain ⟨b, _, hb⟩ := List.mem_flatMap.1 hc
  by_cases hbo : b = old
  · rw [if_pos hbo] at hb; exact h hb
  · rw [if_neg hbo] at hb
    exact hbo (List.mem_singleton.1 hb).symm

theorem not_mem_Replace (s : GoString) (old c : Byte) (new : GoString) (hs : c ∉ s)
    (hn : c ∉ new) : c ∉ Replace s old new := by
  unfold Replace
  intro hc
  obtain ⟨b, hbs, hb⟩ := List.mem_flatMap.1 hc
  by_cases hbo : b = old
  · rw [if_pos hbo] at hb; exact hn hb
  · rw [if_neg hbo] at hb
    rw [List.mem_singleton.1 hb] at hs
    exact hs hbs

theorem trimLeftUnicodeAux_sublist (cutset : GoString) (fuel : Nat) (s : GoString) :
    (trimLeftUnicodeAux cutset fuel s).Sublist s := by
  induction fuel generalizing s with
  | zero => exact List.Sublist.refl _
  | succ n ih =>
    cases s with
    | nil => exact List.Sublist.refl _
    | cons b bs =>
      simp only [trimLeftUnicodeAux]
      split_ifs
      · exact List.Sublist.refl _
      · exact (ih _).trans (List.drop_sublist _ _)
      · exact List.Sublist.refl _
      · exact (ih _).trans (List.drop_sublist _ _)

theorem trimRightUnicodeAux_sublist (cutset : GoString) (fuel : Nat) (s : GoString) :
    (trimRightUnicodeAux cutset fuel s).Sublist s := by
  induction fuel generalizing s with
  | zero => exact List.Sublist.refl _
  | succ n ih =>
    simp only [trimRightUnicodeAux]
    split_ifs
    any_goals exact List.Sublist.refl _
    all_goals exact (ih _).trans (List.take_sublist _ _)

/-- The result of `Trim` is a part of its argument. -/
theorem Trim_sublist (s cutset : GoString) : (Trim s cutset).Sublist s := by
  unfold Trim
  split_ifs
  · exact List.Sublist.refl _
  · unfold trimLeftASCII trimRightASCII
    refine (List.dropWhile_sublist _).trans ?_
    have h := List.dropWhile_sublist (l := s.reverse) (fun b => cutset.contains b)
    have h2 := h.reverse
    rwa [List.reverse_reverse] at h2
  · exact (trimLeftUnicodeAux_sublist _ _ _).trans (trimRightUnicodeAux_sublist _ _ _)

theorem getLast?_of_dropWhile (p : Byte → Bool) (t : GoString) (x : Byte)
    (h : (t.dropWhile p).getLast? = some x) : t.getLast? = some x := by
  induction t with
  | nil => simp at h
  | cons a t ih =>
    rw [List.dropWhile_cons] at h
    split_ifs at h with hp
    · have h1 := ih h
      cases t with
      | nil => simp at h1
      | cons b t => rw [List.getLast?_cons_cons]; exact h1
    · exact h

/-- After `Trim(s, "-")` the string neither begins nor ends with `-`. -/
theorem Trim_dash_ends (s : GoString) :
    (Trim s (str "-")).head? ≠ some (ch '-') ∧ (Trim s (str "-")).getLast? ≠ some (ch '-') := by
  by_cases hs : s = []
  · subst hs
    simp [Trim]
  · have h1 : Trim s (str "-") = trimLeftASCII (trimRightASCII s (str "-")) (str "-") := by
      unfold Trim
      rw [if_neg (by simp [str_dash, hs]), if_pos (by decide)]
    rw [h1]
    unfold trimLeftASCII trimRightASCII
    constructor
    · intro hc
      have := List.head?_dropWhile_not (fun b => (str "-").contains b)
        (s.reverse.dropWhile (fun b => (str "-").contains b)).reverse
      rw [hc] at this
      revert this
      decide
    · intro hc
      have h2 := getLast?_of_dropWhile _ _ _ hc
      rw [List.getLast?_reverse] at h2
      have := List.head?_dropWhile_not (fun b => (str "-").contains b) s.reverse
      rw [h2] at this
      revert this
      decide

end Go

/-- C12: the result of PCI `getReadableDevice`, when there is one, contains
none of `(`, `)`, `/`; the result of USB `getReadableDevice` contains none of
`/`, `&`, `*`, `+`, `^`, backslash, `(`, `)`; and neither begins or ends with `-`. -/
theorem getReadableDevice_clean (hs : List GoString) (s r t : GoString)
    (h : (pci.getReadableDevice hs s).1 = some r) :
    (ch '(' ∉ r ∧ ch ')' ∉ r ∧ ch '/' ∉ r ∧
      r.head? ≠ some (ch '-') ∧ r.getLast? ≠ some (ch '-')) ∧
    (ch '/' ∉ usb.getReadableDevice t ∧ ch '&' ∉ usb.getReadableDevice t ∧
      ch '*' ∉ usb.getReadableDevice t ∧ ch '+' ∉ usb.getReadableDevice t ∧
      ch '^' ∉ usb.getReadableDevice t ∧ (0x5C : Byte) ∉ usb.getReadableDevice t ∧
      ch '(' ∉ usb.getReadableDevice t ∧ ch ')' ∉ usb.getReadableDevice t ∧
      (usb.getReadableDevice t).head? ≠ some (ch '-') ∧
      (usb.getReadableDevice t).getLast? ≠ some (ch '-')) := by
  constructor
  · unfold pci.getReadableDevice at h
    simp only at h
    split at h
    · simp at h
    · rename_i rd _
      by_cases h0 : (Fields rd).length = 0
      · rw [if_pos h0] at h
        simp only [Option.some.injEq] at h
        subst h; simp
      · rw [if_neg h0] at h
        simp only [Option.some.injEq] at h
        subst h
        have hd : ∀ c : Byte, c ∉ str "-" → ∀ (x : GoString) (o : Byte), c ∉ x →
            c ∉ Replace x o (str "-") := fun c hc x o hx => not_mem_Replace x o c _ hx hc
        have hsub : ∀ (c : Byte) (x : GoString), c ∉ x → c ∉ Trim x (str "-") :=
          fun c x hx hm => hx ((Trim_sublist x _).subset hm)
        have hif : ∀ (c : Byte) (x : GoString) (n m : Nat), c ∉ x →
            c ∉ (if x.length > n then x.take m else x) := by
          intro c x n m hx
          split_ifs
          · exact fun hm => hx ((List.take_sublist _ _).subset hm)
          · exact hx
        refine ⟨?_, ?_, ?_, (Trim_dash_ends _).1, (Trim_dash_ends _).2⟩
        · refine hsub _ _ (hd _ (by decide) _ _ (hd _ (by decide) _ _ (hif _ _ _ _ ?_)))
          exact not_mem_Replace _ _ _ _ (not_mem_Replace_self _ _ _ (by simp)) (by simp)
        · refine hsub _ _ (hd _ (by decide) _ _ (hd _ (by decide) _ _ (hif _ _ _ _ ?_)))
          exact not_mem_Replace_self _ _ _ (by simp)
        · refine hsub _ _ (hd _ (by decide) _ _ ?_)
          exact not_mem_Replace_self _ _ _ (by decide)
  · unfold usb.getReadableDevice
    simp only
    by_cases h0 : (Fields t).length = 0
    · rw [if_pos h0]; simp
    · rw [if_neg h0]
      have hd : ∀ c : Byte, c ∉ str "-" → ∀ (x : GoString) (o : Byte), c ∉ x →
          c ∉ Replace x o (str "-") := fun c hc x o hx => not_mem_Replace x o c _ hx hc
      have hself : ∀ (c : Byte) (x : GoString), c ∉ str "-" → c ∉ Replace x c (str "-") :=
        fun c x hc => not_mem_Replace_self x c _ hc
      have hsub : ∀ (c : Byte) (x : GoString), c ∉ x → c ∉ Trim x (str "-") :=
        fun c x hx hm => hx ((Trim_sublist x _).subset hm)
      refine ⟨?_, ?_, ?_, ?_, ?_, ?_, ?_, ?_, (Trim_dash_ends _).1, (Trim_dash_ends _).2⟩
      · exact hsub _ _ (by
          iterate 7 refine hd _ (by decide) _ _ ?_
          exact hself _ _ (by decide))
      · exact hsub _ _ (by
          iterate 6 refine hd _ (by decide) _ _ ?_
          exact hself _ _ (by decide))
      · exact hsub _ _ (by
          iterate 5 refine hd _ (by decide) _ _ ?_
          exact hself _ _ (by decide))
      · exact hsub _ _ (by
          iterate 4 refine hd _ (by decide) _ _ ?_
          exact hself _ _ (by decide))
      · exact hsub _ _ (by
          iterate 3 refine hd _ (by decide) _ _ ?_
          exact hself _ _ (by decide))
      · exact hsub _ _ (by
          iterate 2 refine hd _ (by decide) _ _ ?_
          exact hself _ _ (by decide))
      · exact hsub _ _ (by
          iterate 1 refine hd _ (by decide) _ _ ?_
          exact hself _ _ (by decide))
      · exact hsub _ _ (hself _ _ (by decide))

set_option maxRecDepth 100000 in
/-- C12 at an input of each `TestGetReadableDevice`. -/
theorem getReadableDevice_clean_witness :
    (pci.getReadableDevice pci.hiddenSuffixDevice
      (str "Atom Processor Z36xxx/Z37xxx Series SDIO Controller")).1
      = some (str "Atom-Z36xxx-Z37xxx-Series-SDIO") ∧
    usb.getReadableDevice (str "Mouse*in*a*Box Optical Pro") = str "Mouse-in-a-Box-Optical-Pro" ∧
    ch '/' ∉ str "Atom-Z36xxx-Z37xxx-Series-SDIO" ∧
    ch '*' ∉ usb.getReadableDevice (str "Mouse*in*a*Box Optical Pro") :=
  have h : (pci.getReadableDevice pci.hiddenSuffixDevice
      (str "Atom Processor Z36xxx/Z37xxx Series SDIO Controller")).1
      = some (str "Atom-Z36xxx-Z37xxx-Series-SDIO") := by decide
  have T := getReadableDevice_clean _ _ _ (str "Mouse*in*a*Box Optical Pro") h
  ⟨h, by decide, T.1.2.2.1, T.2.2.2.1⟩

theorem Replace_slash_eq (x : GoString) : Replace x (ch '/') (str "-") = slashToDash x := by
  induction x with
  | nil => rfl
  | cons b t ih =>
    have e : Replace (b :: t) (ch '/') (str "-")
        = (if b = ch '/' then str "-" else [b]) ++ Replace t (ch '/') (str "-") := rfl
    rw [e, ih]
    unfold slashToDash
    rw [List.map_cons]
    by_cases hb : b = ch '/'
    · rw [if_pos hb, if_pos hb, str_dash]; rfl
    · rw [if_neg hb, if_neg hb]; rfl

theorem Replace_dot_eq (x : GoString) : Replace x (ch '.') [] = stripDots x := by
  induction x with
  | nil => rfl
  | cons b t ih =>
    have e : Replace (b :: t) (ch '.') []
        = (if b = ch '.' then [] else [b]) ++ Replace t (ch '.') [] := rfl
    rw [e, ih]
    unfold stripDots
    by_cases hb : b = ch '.'
    · rw [if_pos hb, List.filter_cons_of_neg (by simpa using hb)]; rfl
    · rw [if_neg hb, List.filter_cons_of_pos (by simpa using hb)]; rfl

/-- The final cleanup of a USB vendor name is a trim, a byte for byte
replacement and a deletion. -/
theorem usbCleanup_eq (v : GoString) :
    usbCleanup v = stripDots (slashToDash (Trim v (str "-/&+"))) := by
  unfold usbCleanup
  rw [Replace_slash_eq, Replace_dot_eq]

/-- USB `getReadableVendor` is the cleanup of the vendor rule, for every state
of the suffix list. -/
theorem usb_vendor_eq_rule (hs : List GoString) (s : GoString) :
    (usb.getReadableVendor hs s).1 = usbCleanup (usbVendorRule hs (Fields s)) := by
  cases hf : Fields s with
  | nil =>
    unfold usb.getReadableVendor
    simp only
    rw [hf]
    rfl
  | cons w0 ws =>
    have hl : (w0 :: ws).getLast? = some ((w0 :: ws).getLast (List.cons_ne_nil _ _)) :=
      List.getLast?_eq_getLast _ _
    obtain ⟨h0, hlast⟩ := lastItem_eq _ _ hl
    have hrule : usbVendorRule hs (w0 :: ws)
        = if (w0 :: ws).getLast (List.cons_ne_nil _ _) = str "ID)" then str "Wrong-ID"
          else if (Trim w0 (str ".,?[]()")).length > 10 then (Trim w0 (str ".,?[]()")).take 10
          else secondWordRule hs (str ".,?[]()") w0 ws := by
      unfold usbVendorRule
      simp only [hl, Option.some.injEq]
    rw [hrule]
    unfold usb.getReadableVendor
    simp only
    rw [hf, if_neg h0, hlast]
    by_cases hid : (w0 :: ws).getLast (List.cons_ne_nil _ _) = str "ID)"
    · rw [if_pos hid, if_pos hid]
      rfl
    · rw [if_neg hid, if_neg hid]
      simp only [List.set_cons_zero, List.getD_cons_zero]
      by_cases hlen : (Trim w0 (str ".,?[]()")).length > 10
      · rw [if_pos hlen, if_pos (show (Trim w0 (str ".,?[]()")).length > usb.vendorMaxLen from hlen)]
        rfl
      · rw [if_neg hlen,
          if_neg (show ¬ (Trim w0 (str ".,?[]()")).length > usb.vendorMaxLen from hlen)]
        cases ws with
        | nil =>
          simp [secondWordRule, usbCleanup]
        | cons w1 rest =>
          simp only [List.length_cons, List.getD_cons_succ, List.getD_cons_zero,
            List.set_cons_succ, List.set_cons_zero]
          rw [if_neg (by omega), inArray_fst, take_if_longer]
          by_cases hm : w1 ∈ hs
          · simp [hm, secondWordRule, usbCleanup]
          · simp [hm, secondWordRule, usbCleanup, usb.vendorMaxLen]

theorem Trim_keep (a0 : Byte) (m : GoString) (bl : Byte) (c : GoString)
    (hc : isASCII c = true) (h0 : c.contains a0 = false) (hl : c.contains bl = false) :
    Trim (a0 :: (m ++ [bl])) c = a0 :: (m ++ [bl]) := by
  unfold Trim
  by_cases hcn : c = []
  · rw [if_pos (Or.inr hcn)]
  · rw [if_neg (by simp [hcn]), if_pos hc]
    unfold trimLeftASCII trimRightASCII
    have e1 : (a0 :: (m ++ [bl])).reverse = bl :: (a0 :: m).reverse := by simp
    rw [e1, List.dropWhile_cons_of_neg (by simpa using hl), ← e1, List.reverse_reverse,
      List.dropWhile_cons_of_neg (by simpa using h0)]

set_option maxRecDepth 100000 in
theorem isAlnum_not_special (c : Byte) (h : isAlnum c = true) :
    (str ".,?[]()").contains c = false ∧ (str "-/&+").contains c = false ∧
    c ≠ ch '/' ∧ c ≠ ch '.' := by
  have hv : (0x30 ≤ c.val ∧ c.val ≤ 0x39) ∨ (0x41 ≤ c.val ∧ c.val ≤ 0x5A) ∨
      (0x61 ≤ c.val ∧ c.val ≤ 0x7A) := by
    simpa [isAlnum] using h
  have k1 : ∀ d ∈ str ".,?[]()", ¬ ((0x30 ≤ d.val ∧ d.val ≤ 0x39) ∨
      (0x41 ≤ d.val ∧ d.val ≤ 0x5A) ∨ (0x61 ≤ d.val ∧ d.val ≤ 0x7A)) := by decide
  have k2 : ∀ d ∈ str "-/&+", ¬ ((0x30 ≤ d.val ∧ d.val ≤ 0x39) ∨
      (0x41 ≤ d.val ∧ d.val ≤ 0x5A) ∨ (0x61 ≤ d.val ∧ d.val ≤ 0x7A)) := by decide
  refine ⟨?_, ?_, ?_, ?_⟩
  · rw [Bool.eq_false_iff]
    intro hm
    exact k1 c (by simpa using hm) hv
  · rw [Bool.eq_false_iff]
    intro hm
    exact k2 c (by simpa using hm) hv
  · intro e
    exact k2 c (by rw [e]; decide) hv
  · intro e
    exact k1 c (by rw [e]; decide) hv

set_option maxRecDepth 100000 in
/-- A word of letters and digits with one dot inside, of at most 10 bytes: USB
`getReadableVendor` returns the letters and digits, joined. -/
theorem usb_vendor_dotted_word (hs : List GoString) (s a b : GoString)
    (hf : Fields s = [a ++ str "." ++ b]) (ha : a ≠ []) (hb : b ≠ [])
    (hal : ∀ c ∈ a ++ b, isAlnum c = true) (hlen : (a ++ b).length ≤ 9) :
    (usb.getReadableVendor hs s).1 = a ++ b := by
  obtain ⟨a0, a2, ea⟩ := List.exists_cons_of_ne_nil ha
  rcases List.eq_nil_or_concat b with eb | ⟨b2, bl, eb⟩
  · exact absurd eb hb
  · have hdot : str "." = [ch '.'] := by decide
    have hw : a ++ str "." ++ b = a0 :: ((a2 ++ [ch '.'] ++ b2) ++ [bl]) := by
      rw [ea, eb, hdot]; simp
    have h0 := isAlnum_not_special a0 (hal a0 (by rw [ea]; simp))
    have hl := isAlnum_not_special bl (hal bl (by rw [eb]; simp))
    have hwl : (a ++ str "." ++ b).length ≤ 10 := by
      rw [hdot]
      simp only [List.length_append, List.length_singleton] at hlen ⊢
      omega
    have hid : ¬ (a ++ str "." ++ b = str "ID)") := by
      intro e
      have hm : ch '.' ∈ a ++ str "." ++ b := by rw [hdot]; simp
      rw [e] at hm
      revert hm
      decide
    have hrule : usbVendorRule hs [a ++ str "." ++ b] = a ++ str "." ++ b := by
      unfold usbVendorRule
      simp only [List.getLast?_singleton, Option.some.injEq]
      rw [if_neg hid]
      have ht : Trim (a ++ str "." ++ b) (str ".,?[]()") = a ++ str "." ++ b := by
        rw [hw]
        exact Trim_keep a0 _ bl _ (by decide) h0.1 hl.1
      rw [ht, if_neg (by omega)]
      simp only [secondWordRule]
      exact ht
    rw [usb_vendor_eq_rule, hf, hrule, usbCleanup_eq]
    have ht2 : Trim (a ++ str "." ++ b) (str "-/&+") = a ++ str "." ++ b := by
      rw [hw]
      exact Trim_keep a0 _ bl _ (by decide) h0.2.1 hl.2.1
    rw [ht2]
    have hsl : slashToDash (a ++ str "." ++ b) = a ++ str "." ++ b := by
      unfold slashToDash
      rw [hdot]
      simp only [List.map_append, List.map_cons, List.map_nil]
      have k : ∀ x : GoString, (∀ c ∈ x, isAlnum c = true) →
          x.map (fun c => if c = ch '/' then ch '-' else c) = x := by
        intro x hx
        conv_rhs => rw [← List.map_id x]
        apply List.map_congr_left
        intro c hc
        rw [if_neg (isAlnum_not_special c (hx c hc)).2.2.1]
        rfl
      rw [k a (fun c hc => hal c (List.mem_append_left _ hc)),
        k b (fun c hc => hal c (List.mem_append_right _ hc)), if_neg (by decide)]
    rw [hsl]
    unfold stripDots
    rw [hdot]
    simp only [List.filter_append]
    have k : ∀ x : GoString, (∀ c ∈ x, isAlnum c = true) →
        x.filter (fun c => decide (c ≠ ch '.')) = x := by
      intro x hx
      rw [List.filter_eq_self]
      intro c hc
      simpa using (isAlnum_not_special c (hx c hc)).2.2.2
    rw [k a (fun c hc => hal c (List.mem_append_left _ hc)),
      k b (fun c hc => hal c (List.mem_append_right _ hc))]
    simp

/-- C13: for every input and every state of the suffix list, the result of
USB `getReadableVendor` contains no `.` and no `/`; it is the vendor rule's
value, trimmed, with `-` in the place of every `/` and with the dots taken out
(the other bytes stay as they are and in their order, so a dot inside a word
is deleted and the word stays whole); in particular a single word of letters
and digits with a dot inside, `a.b` of at most 10 bytes, gives `ab`. -/
theorem usb_getReadableVendor_no_dot_slash (hs : List GoString) (s : GoString) :
    (ch '.' ∉ (usb.getReadableVendor hs s).1 ∧ ch '/' ∉ (usb.getReadableVendor hs s).1) ∧
    (usb.getReadableVendor hs s).1
      = stripDots (slashToDash (Trim (usbVendorRule hs (Fields s)) (str "-/&+"))) ∧
    (∀ a b : GoString, Fields s = [a ++ str "." ++ b] → a ≠ [] → b ≠ [] →
      (∀ c ∈ a ++ b, isAlnum c = true) → (a ++ b).length ≤ 9 →
      (usb.getReadableVendor hs s).1 = a ++ b) := by
  refine ⟨?_, ?_, fun a b hf ha hb hal hlen => usb_vendor_dotted_word hs s a b hf ha hb hal hlen⟩
  · unfold usb.getReadableVendor
    simp only
    by_cases h0 : (Fields s).length = 0
    · rw [if_pos h0]; simp
    · rw [if_neg h0]
      dsimp only
      exact ⟨not_mem_Replace_self _ _ _ (by simp),
        not_mem_Replace _ _ _ _ (not_mem_Replace_self _ _ _ (by decide)) (by simp)⟩
  · rw [usb_vendor_eq_rule, usbCleanup_eq]

set_option maxRecDepth 100000 in
/-- C13 at the three inputs of the USB `TestGetReadableVendor`: the dot of
"Yubico.com" is deleted and the word stays whole. -/
theorem usb_getReadableVendor_no_dot_slash_witness :
    (ch '.' ∉ (usb.getReadableVendor usb.hiddenSuffixVendor (str "Yubico.com")).1 ∧
     ch '/' ∉ (usb.getReadableVendor usb.hiddenSuffixVendor (str "Yubico.com")).1) ∧
    Fields (str "Yubico.com") = [str "Yubico" ++ str "." ++ str "com"] ∧
    (usb.getReadableVendor usb.hiddenSuffixVendor (str "Yubico.com")).1
      = str "Yubico" ++ str "com" ∧
    (usb.getReadableVendor usb.hiddenSuffixVendor (str "Yubico.com")).1 = str "Yubicocom" ∧
    (usb.getReadableVendor usb.hiddenSuffixVendor (str "Y.C. Cable U.S.A., Inc.")).1
      = stripDots (slashToDash (Trim (usbVendorRule usb.hiddenSuffixVendor
          (Fields (str "Y.C. Cable U.S.A., Inc."))) (str "-/&+"))) ∧
    usbVendorRule usb.hiddenSuffixVendor (Fields (str "Y.C. Cable U.S.A., Inc."))
      = str "Y.C-Cable" ∧
    (usb.getReadableVendor usb.hiddenSuffixVendor (str "Y.C. Cable U.S.A., Inc.")).1
      = str "YC-Cable" ∧
    (usb.getReadableVendor usb.hiddenSuffixVendor (str "AMP/Tycoelectronics Corp.")).1
      = str "AMP-Tycoel" :=
  ⟨(usb_getReadableVendor_no_dot_slash usb.hiddenSuffixVendor (str "Yubico.com")).1,
   by decide,
   (usb_getReadableVendor_no_dot_slash usb.hiddenSuffixVendor (str "Yubico.com")).2.2
     (str "Yubico") (str "com") (by decide) (by decide) (by decide) (by decide) (by decide),
   by decide,
   (usb_getReadableVendor_no_dot_slash usb.hiddenSuffixVendor
     (str "Y.C. Cable U.S.A., Inc.")).2.1,
   by decide, by decide, by decide⟩

/-! ## Noise words of a PCI device name -/

theorem pci_deviceLoop_fst (suffixes : List GoString) (ws : List GoString) (acc : GoString)
    (hs : List GoString) (hp : hs.Perm suffixes) :
    (pci.deviceLoop ws acc hs).1 = pciDeviceJoin suffixes ws acc := by
  induction ws generalizing acc hs with
  | nil => rfl
  | cons w ws ih =>
    have hp2 : (inArray w hs).2.Perm suffixes := by
      rw [inArray_snd]; exact (sortStrings_perm hs).trans hp
    simp only [pci.deviceLoop, pciDeviceJoin, inArray_fst, hp.mem_iff]
    by_cases hm : w ∈ suffixes
    · simp only [hm, decide_True, Bool.not_true, Bool.false_eq_true, if_false, if_true]
      exact ih _ _ hp2
    · simp only [hm, decide_False, Bool.not_false, if_true, if_false]
      split_ifs
      · exact ih _ _ hp2
      · exact ih _ _ hp2

theorem pciDeviceJoin_insert (suffixes : List GoString) (ws1 ws2 : List GoString)
    (n acc : GoString) (hn : n ∈ suffixes) :
    pciDeviceJoin suffixes (ws1 ++ n :: ws2) acc = pciDeviceJoin suffixes (ws1 ++ ws2) acc := by
  induction ws1 generalizing acc with
  | nil => simp [pciDeviceJoin, hn]
  | cons w ws ih =>
    simp only [List.cons_append, pciDeviceJoin]
    split_ifs
    · exact ih _
    · exact ih _
    · exact ih _

theorem pciDevicePost_nil : pciDevicePost [] = [] := by decide

/-- PCI `getReadableDevice` on an input without `[`: the words are joined and
post-processed. -/
theorem pci_getReadableDevice_no_bracket (hs : List GoString) (s : GoString)
    (hp : hs.Perm pci.hiddenSuffixDevice) (hb : ch '[' ∉ s) :
    (pci.getReadableDevice hs s).1
      = some (pciDevicePost (pciDeviceJoin pci.hiddenSuffixDevice (Fields s) [])) := by
  unfold pci.getReadableDevice
  simp only
  rw [Index_of_not_mem s _ hb, if_neg (by simp)]
  dsimp only
  by_cases h0 : (Fields s).length = 0
  · rw [if_pos h0]
    rw [List.length_eq_zero] at h0
    rw [h0]
    simp only [pciDeviceJoin, pciDevicePost_nil]
  · rw [if_neg h0]
    dsimp only
    rw [pci_deviceLoop_fst _ _ _ _ hp]
    rfl

/-- C11: for inputs without `[`, adding a word of `hiddenSuffixDevice` as a
separate word at any position does not change the result of PCI
`getReadableDevice`, for every state of the suffix list that is a permutation
of its initial value. -/
theorem pci_getReadableDevice_noise_word (hs hs2 : List GoString) (s s2 n : GoString)
    (ws1 ws2 : List GoString)
    (hp : hs.Perm pci.hiddenSuffixDevice) (hp2 : hs2.Perm pci.hiddenSuffixDevice)
    (hn : n ∈ pci.hiddenSuffixDevice)
    (hb : ch '[' ∉ s) (hb2 : ch '[' ∉ s2)
    (hf : Fields s = ws1 ++ ws2) (hf2 : Fields s2 = ws1 ++ n :: ws2) :
    (pci.getReadableDevice hs2 s2).1 = (pci.getReadableDevice hs s).1 := by
  rw [pci_getReadableDevice_no_bracket hs s hp hb,
    pci_getReadableDevice_no_bracket hs2 s2 hp2 hb2, hf, hf2,
    pciDeviceJoin_insert _ _ _ _ _ hn]

set_option maxRecDepth 100000 in
/-- C11 at "Iris Plus Graphics G7 (Ice Lake)": the word "Graphics" is dropped. -/
theorem pci_getReadableDevice_noise_word_witness :
    (pci.getReadableDevice pci.hiddenSuffixDevice (str "Iris Plus Graphics G7 (Ice Lake)")).1
      = (pci.getReadableDevice pci.hiddenSuffixDevice (str "Iris Plus G7 (Ice Lake)")).1 ∧
    (pci.getReadableDevice pci.hiddenSuffixDevice (str "Iris Plus Graphics G7 (Ice Lake)")).1
      = some (str "Iris-Plus-G7-Ice-Lake") :=
  ⟨pci_getReadableDevice_noise_word pci.hiddenSuffixDevice pci.hiddenSuffixDevice
     (str "Iris Plus G7 (Ice Lake)") (str "Iris Plus Graphics G7 (Ice Lake)") (str "Graphics")
     [str "Iris", str "Plus"] [str "G7", str "(Ice", str "Lake)"]
     (List.Perm.refl _) (List.Perm.refl _) (by decide) (by decide) (by decide)
     (by decide) (by decide),
   by decide⟩

set_option maxRecDepth 100000 in
/-- C18 fails on the code: on the empty string and on a string of spaces
`classSplitList[0]` is out of range and `getReadableClass` panics. -/
theorem pci_getReadableClass_panics :
    pci.getReadableClass [] = none ∧ pci.getReadableClass (str "   ") = none ∧
    (pci.getReadableVendor pci.hiddenSuffixVendor []).1 = some [] ∧
    (pci.getReadableDevice pci.hiddenSuffixDevice []).1 = some [] := by
  decide

set_option maxRecDepth 100000 in
/-- C20 fails on the code: the dots are deleted after the trim, so a `-` that
stood before a trailing dot ends the result. -/
theorem usb_getReadableVendor_ends_with_dash :
    (usb.getReadableVendor usb.hiddenSuffixVendor (str "ABCDEFGH-.com")).1 = str "ABCDEFGH-" ∧
    (str "ABCDEFGH-").getLast? = some (ch '-') ∧
    (usb.getReadableVendor usb.hiddenSuffixVendor (str "+.+Plus")).1 = str "+Plus" ∧
    (str "+Plus").head? = some (ch '+') := by
  decide

/-! ## The cut of a USB device name -/

theorem usb_deviceLoop_eq (ws : List GoString) (acc : GoString) :
    usb.deviceLoop ws acc
      = acc ++ ((ws.map (fun w => Trim w usb.deviceCutset)).filter
          (fun w => w.length ≠ 0)).flatMap (fun w => w ++ str "-") := by
  induction ws generalizing acc with
  | nil => simp [usb.deviceLoop]
  | cons w ws ih =>
    simp only [usb.deviceLoop, List.map_cons]
    by_cases hw : (Trim w usb.deviceCutset).length ≠ 0
    · rw [if_pos hw, ih, List.filter_cons_of_pos (by simpa using hw), List.flatMap_cons,
        List.append_assoc]
    · rw [if_neg hw, ih, List.filter_cons_of_neg (by simpa using hw)]

theorem flatMap_dash (l : List GoString) (h : l ≠ []) :
    l.flatMap (fun w => w ++ str "-") = joinDash l ++ str "-" := by
  induction l with
  | nil => exact absurd rfl h
  | cons w l ih =>
    cases l with
    | nil => simp [joinDash]
    | cons v l =>
      rw [List.flatMap_cons, ih (List.cons_ne_nil _ _)]
      simp [joinDash]

theorem usbSubst_append_dash (x : GoString) : usbSubst (x ++ str "-") = usbSubst x ++ str "-" := by
  have h : ∀ (y : GoString) (o : Byte), o ≠ ch '-' →
      Replace (y ++ str "-") o (str "-") = Replace y o (str "-") ++ str "-" := by
    intro y o ho
    rw [Replace_append]
    congr 1
    rw [str_dash]
    simp [Replace, Ne.symm ho]
  unfold usbSubst
  rw [h _ _ (by decide), h _ _ (by decide), h _ _ (by decide), h _ _ (by decide),
    h _ _ (by decide), h _ _ (by decide), h _ _ (by decide), h _ _ (by decide)]

theorem Trim_append_dash (x : GoString) :
    Trim (x ++ str "-") (str "-") = Trim x (str "-") := by
  by_cases hx : x = []
  · subst hx; decide
  · have e : ∀ y : GoString, y ≠ [] →
        Trim y (str "-") = trimLeftASCII (trimRightASCII y (str "-")) (str "-") := by
      intro y hy
      unfold Trim
      rw [if_neg (by simp [str_dash, hy]), if_pos (by decide)]
    rw [e _ (by simp [hx]), e _ hx]
    congr 1
    unfold trimRightASCII
    rw [str_dash, List.reverse_append, List.reverse_singleton, List.singleton_append,
      List.dropWhile_cons_of_pos (by simp)]

theorem usb_getReadableDevice_eq (s : GoString) :
    usb.getReadableDevice s
      = if (Fields s).length = 0 then []
        else Trim (usbSubst
          (if (usb.deviceLoop (Fields s) []).length > 33
           then (usb.deviceLoop (Fields s) []).take 32
           else usb.deviceLoop (Fields s) [])) (str "-") := rfl

/-- C19, amended: USB `getReadableDevice` cuts nothing when the joined words
have at most 32 bytes, the result being the joined string with the
substitutions applied and leading and trailing `-` trimmed; when the joined
string has more than 32 bytes it is cut to its first 32 bytes before the
substitutions and the trim. -/
theorem usb_getReadableDevice_cut_at_32 (s : GoString) :
    ((joinDash (usbWords s)).length ≤ 32 →
      usb.getReadableDevice s = Trim (usbSubst (joinDash (usbWords s))) (str "-")) ∧
    (32 < (joinDash (usbWords s)).length →
      usb.getReadableDevice s
        = Trim (usbSubst ((joinDash (usbWords s)).take 32)) (str "-")) := by
  have hnil : Trim (usbSubst []) (str "-") = [] := by decide
  rw [usb_getReadableDevice_eq]
  by_cases h0 : (Fields s).length = 0
  · rw [if_pos h0]
    have hw : usbWords s = [] := by
      rw [List.length_eq_zero] at h0
      simp [usbWords, h0]
    rw [hw]
    exact ⟨fun _ => hnil.symm, fun h => by simp [joinDash] at h⟩
  · rw [if_neg h0, usb_deviceLoop_eq, List.nil_append]
    change (_ → Trim (usbSubst (if ((usbWords s).flatMap _).length > 33
        then ((usbWords s).flatMap _).take 32 else (usbWords s).flatMap _)) _ = _) ∧
      (_ → Trim (usbSubst (if ((usbWords s).flatMap _).length > 33
        then ((usbWords s).flatMap _).take 32 else (usbWords s).flatMap _)) _ = _)
    by_cases hw : usbWords s = []
    · rw [hw]
      exact ⟨fun _ => by simp [joinDash], fun h => by simp [joinDash] at h⟩
    · rw [flatMap_dash _ hw]
      have hl : (joinDash (usbWords s) ++ str "-").length = (joinDash (usbWords s)).length + 1 := by
        rw [str_dash]; simp
      constructor
      · intro h
        rw [if_neg (by omega), usbSubst_append_dash, Trim_append_dash]
      · intro h
        rw [if_pos (by omega), List.take_append_of_le_length (by omega)]

set_option maxRecDepth 100000 in
/-- C19 as stated fails at a word of 33 bytes: the joined string has 33 bytes
and the result is its first 32 bytes. -/
theorem usb_getReadableDevice_cuts_33 :
    (joinDash (usbWords word33)).length ≤ 33 ∧
    usb.getReadableDevice word33 ≠ Trim (usbSubst (joinDash (usbWords word33))) (str "-") ∧
    usb.getReadableDevice word33 = word33.take 32 := by
  decide

set_option maxRecDepth 100000 in
/-- C19, amended, at a word of 33 bytes and at a name of the test that is kept whole. -/
theorem usb_getReadableDevice_cut_at_32_witness :
    32 < (joinDash (usbWords word33)).length ∧
    usb.getReadableDevice word33 = Trim (usbSubst ((joinDash (usbWords word33)).take 32)) (str "-") ∧
    (joinDash (usbWords (str "Mouse*in*a*Box Optical Pro"))).length ≤ 32 ∧
    usb.getReadableDevice (str "Mouse*in*a*Box Optical Pro")
      = Trim (usbSubst (joinDash (usbWords (str "Mouse*in*a*Box Optical Pro")))) (str "-") :=
  have h1 : 32 < (joinDash (usbWords word33)).length := by decide
  have h2 : (joinDash (usbWords (str "Mouse*in*a*Box Optical Pro"))).length ≤ 32 := by decide
  ⟨h1, (usb_getReadableDevice_cut_at_32 word33).2 h1, h2,
   (usb_getReadableDevice_cut_at_32 (str "Mouse*in*a*Box Optical Pro")).1 h2⟩

/-! ## The scanners -/

theorem mapGet_mapSet (m : GoMap) (k v k2 : GoString) :
    mapGet (mapSet m k v) k2 = if k = k2 then some v else mapGet m k2 := by
  induction m with
  | nil => simp [mapSet, mapGet]
  | cons e m ih =>
    obtain ⟨k1, v1⟩ := e
    simp only [mapSet]
    by_cases h1 : k1 = k
    · subst h1
      simp only [if_true, mapGet]
      by_cases h2 : k1 = k2 <;> simp [h2]
    · simp only [h1, if_false, mapGet, ih]
      by_cases h2 : k1 = k2
      · subst h2
        simp [Ne.symm h1]
      · simp [h2]

theorem readSinglePciAttribute_isSome (fs : Sysfs) (p a : GoString) :
    (pci.readSinglePciAttribute fs p a).isSome = (fs.ReadFile (Join p a)).isSome := by
  unfold pci.readSinglePciAttribute
  cases fs.ReadFile (Join p a) <;> rfl

theorem mandatoryLoop_isSome (fs : Sysfs) (p : GoString) (l : List GoString) (attrs : GoMap) :
    (pci.mandatoryLoop fs p l attrs).isSome
      = l.all (fun attr => (fs.ReadFile (Join p attr)).isSome) := by
  induction l generalizing attrs with
  | nil => rfl
  | cons a l ih =>
    simp only [pci.mandatoryLoop, List.all_cons]
    rw [← readSinglePciAttribute_isSome fs p a]
    cases pci.readSinglePciAttribute fs p a with
    | none => rfl
    | some v => simp [ih]

theorem mandatoryLoop_get (fs : Sysfs) (p : GoString) (l : List GoString) (attrs res : GoMap)
    (h : pci.mandatoryLoop fs p l attrs = some res) (k : GoString) :
    mapGet res k = if k ∈ l then pci.readSinglePciAttribute fs p k else mapGet attrs k := by
  induction l generalizing attrs with
  | nil =>
    simp only [pci.mandatoryLoop, Option.some.injEq] at h
    subst h
    simp
  | cons a l ih =>
    simp only [pci.mandatoryLoop] at h
    cases hr : pci.readSinglePciAttribute fs p a with
    | none => rw [hr] at h; simp at h
    | some v =>
      rw [hr] at h
      rw [ih _ h, mapGet_mapSet]
      by_cases hk : k ∈ l
      · simp [hk]
      · by_cases hka : a = k
        · subst hka; simp [hk, hr]
        · simp [hk, hka, Ne.symm hka]

theorem optionalLoop_get (fs : Sysfs) (p : GoString) (l : List GoString) (attrs : GoMap)
    (k : GoString) (hk : k ∉ l) :
    mapGet (pci.optionalLoop fs p l attrs) k = mapGet attrs k := by
  induction l generalizing attrs with
  | nil => rfl
  | cons a l ih =>
    have hka : a ≠ k := fun hc => hk (hc ▸ List.mem_cons_self _ _)
    have hkl : k ∉ l := fun hc => hk (List.mem_cons_of_mem _ hc)
    simp only [pci.optionalLoop]
    cases pci.readSinglePciAttribute fs p a with
    | none => exact ih _ hkl
    | some v => rw [ih _ hkl, mapGet_mapSet, if_neg hka]

theorem readPciDevInfo_isSome (fs : Sysfs) (p : GoString) :
    (pci.readPciDevInfo fs p).isSome = mandatoryReadable fs p := by
  unfold pci.readPciDevInfo mandatoryReadable
  rw [← mandatoryLoop_isSome fs p _ []]
  cases pci.mandatoryLoop fs p pci.mandatoryDevAttrs [] <;> rfl

theorem detectLoop_eq (fs : Sysfs) (base : GoString) (ds : List GoString)
    (acc : List InstanceFeature) :
    pci.detectLoop fs base ds acc
      = acc ++ ds.filterMap (fun d => pci.readPciDevInfo fs (Join base d)) := by
  induction ds generalizing acc with
  | nil => simp [pci.detectLoop]
  | cons d ds ih =>
    simp only [pci.detectLoop]
    cases hr : pci.readPciDevInfo fs (Join base d) with
    | none => simp [List.filterMap_cons, hr, ih]
    | some info => simp [List.filterMap_cons, hr, ih]

theorem filterMap_map_some {α β : Type} (f : α → Option β) (l : List α) :
    (l.filterMap f).map some = (l.filter (fun a => (f a).isSome)).map f := by
  induction l with
  | nil => rfl
  | cons a l ih =>
    cases hf : f a with
    | none => rw [List.filterMap_cons_none hf, List.filter_cons_of_neg (by simp [hf]), ih]
    | some b =>
      rw [List.filterMap_cons_some hf, List.filter_cons_of_pos (by simp [hf]),
        List.map_cons, List.map_cons, ih, hf]

/-- C15: when the listing of the device directory succeeds, `detectPci`
returns no error; its records are, in listing order, those of the device
directories whose five mandatory attribute files are all readable, each with
the five attributes as read; a directory with an unreadable mandatory file
gives no record. -/
theorem pci_detectPci_skips_incomplete (fs : Sysfs) (base : GoString)
    (devices : List GoString) (h : fs.ReadDir base = some devices) :
    ∃ recs, pci.detectPci fs base = some recs ∧
      recs.map some = (devices.filter (fun d => mandatoryReadable fs (Join base d))).map
        (fun d => pci.readPciDevInfo fs (Join base d)) ∧
      (∀ d, mandatoryReadable fs (Join base d) = false →
        pci.readPciDevInfo fs (Join base d) = none) ∧
      (∀ d, mandatoryReadable fs (Join base d) = true →
        ∃ r, pci.readPciDevInfo fs (Join base d) = some r ∧
          ∀ a ∈ pci.mandatoryDevAttrs,
            mapGet r.Attributes a = pci.readSinglePciAttribute fs (Join base d) a) := by
  refine ⟨_, by rw [pci.detectPci, h], ?_, ?_, ?_⟩
  · rw [detectLoop_eq, List.nil_append, filterMap_map_some]
    simp only [readPciDevInfo_isSome]
  · intro d hd
    rw [← readPciDevInfo_isSome] at hd
    cases hr : pci.readPciDevInfo fs (Join base d) with
    | none => rfl
    | some r => rw [hr] at hd; simp at hd
  · intro d hd
    rw [← readPciDevInfo_isSome] at hd
    unfold pci.readPciDevInfo at hd ⊢
    cases hm : pci.mandatoryLoop fs (Join base d) pci.mandatoryDevAttrs [] with
    | none => rw [hm] at hd; simp at hd
    | some attrs =>
      refine ⟨_, rfl, ?_⟩
      intro a ha
      have hopt : a ∉ pci.optionalDevAttrs := by
        revert a
        decide
      change mapGet (pci.optionalLoop fs (Join base d) pci.optionalDevAttrs attrs) a = _
      rw [optionalLoop_get _ _ _ _ _ hopt, mandatoryLoop_get _ _ _ _ _ hm, if_pos ha]

set_option maxRecDepth 100000 in
/-- C15 on the example host: of the three PCI devices listed, the two with all
mandatory files give a record, in listing order, and `0000:00:14.0` is skipped. -/
theorem pci_detectPci_skips_incomplete_witness :
    exampleSysfs.ReadDir (str "/sys/bus/pci/devices")
      = some [str "0000:00:02.0", str "0000:00:14.0", str "0000:00:1f.3"] ∧
    (∃ recs, pci.detectPci exampleSysfs (str "/sys/bus/pci/devices") = some recs ∧
      recs.map some
        = ([str "0000:00:02.0", str "0000:00:14.0", str "0000:00:1f.3"].filter
            (fun d => mandatoryReadable exampleSysfs (Join (str "/sys/bus/pci/devices") d))).map
          (fun d => pci.readPciDevInfo exampleSysfs (Join (str "/sys/bus/pci/devices") d))) ∧
    pci.detectPci exampleSysfs (str "/sys/bus/pci/devices")
      = some [⟨[(str "class", str "0300"), (str "vendor", str "8086"), (str "device", str "3e92"),
               (str "subsystem_vendor", str "1028"), (str "subsystem_device", str "0869")]⟩,
              ⟨[(str "class", str "0403"), (str "vendor", str "8086"), (str "device", str "a348"),
               (str "subsystem_vendor", str "1028"), (str "subsystem_device", str "0869")]⟩] :=
  have h : exampleSysfs.ReadDir (str "/sys/bus/pci/devices")
      = some [str "0000:00:02.0", str "0000:00:14.0", str "0000:00:1f.3"] := by decide
  have T := pci_detectPci_skips_incomplete exampleSysfs _ _ h
  ⟨h, T.imp (fun _ hr => ⟨hr.1, hr.2.1⟩), by decide⟩

theorem usbAttrValue_eq (fs : Sysfs) (p a : GoString) :
    usbAttrValue fs p a
      = if ((usb.readSingleUsbAttribute fs p a).getD []).length > 0
        then some ((usb.readSingleUsbAttribute fs p a).getD []) else none := by
  unfold usbAttrValue usb.readSingleUsbAttribute usb.readSingleUsbSysfsAttribute
  cases fs.ReadFile (Join p ((mapGet usb.devAttrFileMap a).getD [])) with
  | none => simp
  | some c => rfl

theorem attrsLoop_get (fs : Sysfs) (p : GoString) (l : List GoString) (attrs : GoMap)
    (k : GoString) :
    mapGet (usb.attrsLoop fs p l attrs) k
      = if k ∈ l then (usbAttrValue fs p k).orElse (fun _ => mapGet attrs k)
        else mapGet attrs k := by
  induction l generalizing attrs with
  | nil => simp [usb.attrsLoop]
  | cons a l ih =>
    have hv := usbAttrValue_eq fs p a
    simp only [usb.attrsLoop]
    by_cases hlen : ((usb.readSingleUsbAttribute fs p a).getD []).length > 0
    · rw [if_pos hlen] at hv
      rw [if_pos hlen, ih, mapGet_mapSet]
      by_cases hka : a = k
      · subst hka
        by_cases hk : a ∈ l <;> simp [hk, hv]
      · by_cases hk : k ∈ l <;> simp [hk, hka, Ne.symm hka]
    · rw [if_neg hlen] at hv
      rw [if_neg hlen, ih]
      by_cases hka : a = k
      · subst hka
        by_cases hk : a ∈ l <;> simp [hk, hv]
      · by_cases hk : k ∈ l <;> simp [hk, hka, Ne.symm hka]

/-- C16: when the device-level class value is not "00" (a class file that is
unreadable or empty included), `readUsbDevInfo` returns one record and no
error, and the record maps each of `class`, `vendor`, `device`, `serial` whose
file is readable with a non-empty trimmed content to that content, and has no
other key. -/
theorem usb_readUsbDevInfo_single (fs : Sysfs) (devPath : GoString)
    (h : usbAttrValue fs devPath (str "class") ≠ some (str "00")) :
    ∃ r, usb.readUsbDevInfo fs devPath = some [r] ∧
      ∀ k, mapGet r.Attributes k
        = if k ∈ usb.devAttrs then usbAttrValue fs devPath k else none := by
  have hget : ∀ k, mapGet (usb.attrsLoop fs devPath usb.devAttrs []) k
      = if k ∈ usb.devAttrs then usbAttrValue fs devPath k else none := by
    intro k
    rw [attrsLoop_get]
    by_cases hk : k ∈ usb.devAttrs
    · rw [if_pos hk, if_pos hk]
      cases usbAttrValue fs devPath k <;> rfl
    · rw [if_neg hk, if_neg hk]; rfl
  have hclass : (mapGet (usb.attrsLoop fs devPath usb.devAttrs []) (str "class")).getD []
      ≠ str "00" := by
    rw [hget, if_pos (by decide)]
    cases hv : usbAttrValue fs devPath (str "class") with
    | none => decide
    | some v =>
      rw [hv] at h
      intro hc
      exact h (by rw [← hc]; rfl)
  refine ⟨⟨usb.attrsLoop fs devPath usb.devAttrs []⟩, ?_, hget⟩
  unfold usb.readUsbDevInfo
  simp only
  rw [if_pos hclass]

set_option maxRecDepth 100000 in
/-- C16 on the example host: the hub `1-2` has class "09" and gives one record. -/
theorem usb_readUsbDevInfo_single_witness :
    usbAttrValue exampleSysfs (str "/sys/bus/usb/devices/1-2") (str "class") ≠ some (str "00") ∧
    (∃ r, usb.readUsbDevInfo exampleSysfs (str "/sys/bus/usb/devices/1-2") = some [r] ∧
      ∀ k, mapGet r.Attributes k
        = if k ∈ usb.devAttrs then usbAttrValue exampleSysfs (str "/sys/bus/usb/devices/1-2") k
          else none) ∧
    usb.readUsbDevInfo exampleSysfs (str "/sys/bus/usb/devices/1-2")
      = some [⟨[(str "class", str "09"), (str "vendor", str "1d6b"), (str "device", str "0002"),
               (str "serial", str "0000:00:14.0")]⟩] :=
  have h : usbAttrValue exampleSysfs (str "/sys/bus/usb/devices/1-2") (str "class")
      ≠ some (str "00") := by decide
  ⟨h, usb_readUsbDevInfo_single _ _ h, by decide⟩

set_option maxRecDepth 100000 in
/-- C14 fails on the code: the receiver `1-1` of the example host has device
class "00" and three interfaces, all of class "03"; `readUsbDevInfo` returns
three records, one for every interface, for one distinct interface class. -/
theorem usb_readUsbDevInfo_record_per_interface :
    usbAttrValue exampleSysfs (str "/sys/bus/usb/devices/1-1") (str "class") = some (str "00") ∧
    usbInterfaceClasses exampleSysfs (str "/sys/bus/usb/devices/1-1")
      = [str "03", str "03", str "03"] ∧
    (usbInterfaceClasses exampleSysfs (str "/sys/bus/usb/devices/1-1")).dedup.length = 1 ∧
    usb.readUsbDevInfo exampleSysfs (str "/sys/bus/usb/devices/1-1")
      = some [⟨[(str "class", str "03"), (str "vendor", str "046d"), (str "device", str "c52b")]⟩,
              ⟨[(str "class", str "03"), (str "vendor", str "046d"), (str "device", str "c52b")]⟩,
              ⟨[(str "class", str "03"), (str "vendor", str "046d"), (str "device", str "c52b")]⟩] := by
  decide

/-- What `readSinglePciAttribute` computes for a readable attribute file with
content `c`: `c` with a leading "0x" removed and then the leading and trailing
white space trimmed; for the attribute "class" that value is cut to its first
4 bytes, so a class value has at most 4 bytes. -/
theorem pci_readSinglePciAttribute_value (fs : Sysfs) (devPath attrName c : GoString)
    (h : fs.ReadFile (Join devPath attrName) = some c) :
    (attrName ≠ str "class" →
      pci.readSinglePciAttribute fs devPath attrName
        = some (TrimSpace (TrimPrefix c (str "0x")))) ∧
    (attrName = str "class" →
      pci.readSinglePciAttribute fs devPath attrName
        = some ((TrimSpace (TrimPrefix c (str "0x"))).take 4) ∧
      ∀ v, pci.readSinglePciAttribute fs devPath attrName = some v → v.length ≤ 4) := by
  unfold pci.readSinglePciAttribute
  rw [h]
  dsimp only
  constructor
  · intro hn
    rw [if_neg (fun hc => hn hc.1)]
  · intro hcl
    have e : (if attrName = str "class" ∧ (TrimSpace (TrimPrefix c (str "0x"))).length > 4
          then (TrimSpace (TrimPrefix c (str "0x"))).take 4
          else TrimSpace (TrimPrefix c (str "0x")))
        = (TrimSpace (TrimPrefix c (str "0x"))).take 4 := by
      by_cases hl : (TrimSpace (TrimPrefix c (str "0x"))).length > 4
      · rw [if_pos ⟨hcl, hl⟩]
      · rw [if_neg (fun hc => hl hc.2)]
        exact (List.take_of_length_le (by omega)).symm
    rw [e]
    refine ⟨rfl, ?_⟩
    intro v hv
    simp only [Option.some.injEq] at hv
    subst hv
    rw [List.length_take]
    omega

set_option maxRecDepth 100000 in
/-- C17 fails on the code: for a content with a blank before "0x" the prefix
is looked for before the white space is trimmed, so the "0x" stays, where
trimming and then removing the prefix gives "8086". -/
theorem pci_readSinglePciAttribute_keeps_0x :
    exampleSysfs.ReadFile (Join (str "/padded") (str "vendor")) = some (line " 0x8086") ∧
    pci.readSinglePciAttribute exampleSysfs (str "/padded") (str "vendor")
      = some (str "0x8086") ∧
    TrimPrefix (TrimSpace (line " 0x8086")) (str "0x") = str "8086" ∧
    pci.readSinglePciAttribute exampleSysfs (str "/padded") (str "vendor")
      ≠ some (TrimPrefix (TrimSpace (line " 0x8086")) (str "0x")) := by
  decide

set_option maxRecDepth 100000 in
/-- The attribute values on the example host: the class file "0x030000" gives
"0300" and the vendor file "0x8086" gives "8086". -/
theorem pci_readSinglePciAttribute_value_witness :
    exampleSysfs.ReadFile (Join (str "/sys/bus/pci/devices/0000:00:02.0") (str "class"))
      = some (line "0x030000") ∧
    pci.readSinglePciAttribute exampleSysfs (str "/sys/bus/pci/devices/0000:00:02.0") (str "class")
      = some ((TrimSpace (TrimPrefix (line "0x030000") (str "0x"))).take 4) ∧
    pci.readSinglePciAttribute exampleSysfs (str "/sys/bus/pci/devices/0000:00:02.0") (str "class")
      = some (str "0300") ∧
    pci.readSinglePciAttribute exampleSysfs (str "/sys/bus/pci/devices/0000:00:02.0") (str "vendor")
      = some (str "8086") :=
  have h : exampleSysfs.ReadFile (Join (str "/sys/bus/pci/devices/0000:00:02.0") (str "class"))
      = some (line "0x030000") := by decide
  have hv : exampleSysfs.ReadFile (Join (str "/sys/bus/pci/devices/0000:00:02.0") (str "vendor"))
      = some (line "0x8086") := by decide
  have hval : TrimSpace (TrimPrefix (line "0x8086") (str "0x")) = str "8086" := by decide
  ⟨h, ((pci_readSinglePciAttribute_value _ _ _ _ h).2 rfl).1, by decide,
   hval ▸ (pci_readSinglePciAttribute_value _ _ _ _ hv).1 (by decide)⟩

/-! ## The suffix lists after a query -/

theorem insertSorted_of_le (x : GoString) (l : List GoString)
    (h : ∀ z ∈ l, strLess z x = false) : insertSorted x l = x :: l := by
  induction l with
  | nil => rfl
  | cons y ys ih =>
    simp only [insertSorted]
    by_cases hxy : strLess x y = true
    · rw [if_pos hxy]
    · rw [if_neg hxy]
      have hyx := h y (List.mem_cons_self _ _)
      have hxy2 : strLess x y = false := by simpa using hxy
      have e : x = y := strLess_total x y hxy2 hyx
      subst e
      rw [ih (fun z hz => h z (List.mem_cons_of_mem _ hz))]

theorem sortStrings_of_sorted (l : List GoString) (h : SortedStrings l) : sortStrings l = l := by
  induction l with
  | nil => rfl
  | cons x xs ih =>
    unfold SortedStrings at h
    rw [List.pairwise_cons] at h
    simp only [sortStrings]
    rw [ih h.2]
    exact insertSorted_of_le x xs h.1

theorem pci_deviceLoop_snd_perm (ws : List GoString) (acc : GoString) (hs : List GoString) :
    (pci.deviceLoop ws acc hs).2.Perm hs := by
  induction ws generalizing acc hs with
  | nil => exact List.Perm.refl _
  | cons w ws ih =>
    have hp : (inArray w hs).2.Perm hs := by rw [inArray_snd]; exact sortStrings_perm hs
    simp only [pci.deviceLoop]
    split_ifs
    · exact (ih _ _).trans hp
    · exact (ih _ _).trans hp
    · exact (ih _ _).trans hp

/-- C21, amended: the list after `inArray(t, xs)` is `xs` sorted: it has the
same elements as `xs`, in increasing order, and it is `xs` itself when `xs` is
already in increasing order; so `getReadableVendor` and `getReadableDevice`
leave the suffix lists with the same elements, possibly in another order. -/
theorem inArray_list_after (t : GoString) (xs : List GoString) (s : GoString) :
    (inArray t xs).2.Perm xs ∧ SortedStrings (inArray t xs).2 ∧
    (SortedStrings xs → (inArray t xs).2 = xs) ∧
    (pci.getReadableVendor xs s).2.Perm xs ∧ (pci.getReadableDevice xs s).2.Perm xs ∧
    (usb.getReadableVendor xs s).2.Perm xs := by
  have hp : ∀ u, (inArray u xs).2.Perm xs := fun u => by
    rw [inArray_snd]; exact sortStrings_perm xs
  refine ⟨hp t, ?_, ?_, ?_, ?_, ?_⟩
  · rw [inArray_snd]; exact sortStrings_sorted xs
  · intro h; rw [inArray_snd]; exact sortStrings_of_sorted xs h
  · unfold pci.getReadableVendor
    simp only
    split_ifs <;> dsimp only <;> first | exact List.Perm.refl _ | exact hp _
  · unfold pci.getReadableDevice
    simp only
    split
    · exact List.Perm.refl _
    · split_ifs <;> dsimp only <;>
        first | exact List.Perm.refl _ | exact pci_deviceLoop_snd_perm _ _ _
  · unfold usb.getReadableVendor
    simp only
    split_ifs <;> dsimp only <;> first | exact List.Perm.refl _ | exact hp _

set_option maxRecDepth 100000 in
/-- C21 as stated fails: the suffix lists are not in increasing order in the
source, so the first query reorders them. -/
theorem inArray_reorders_list :
    (inArray (str "Inc.") pci.hiddenSuffixVendor).2 ≠ pci.hiddenSuffixVendor ∧
    (pci.getReadableVendor pci.hiddenSuffixVendor (str "Sapphire, Inc.")).2
      ≠ pci.hiddenSuffixVendor ∧
    (pci.getReadableDevice pci.hiddenSuffixDevice (str "Iris Plus Graphics G7 (Ice Lake)")).2
      ≠ pci.hiddenSuffixDevice ∧
    (usb.getReadableVendor usb.hiddenSuffixVendor (str "Kodak, Ltd.")).2
      ≠ usb.hiddenSuffixVendor := by
  decide

set_option maxRecDepth 100000 in
/-- C21, amended, on the PCI vendor list: after a query the list is sorted, a
second query leaves it as it is. -/
theorem inArray_list_after_witness :
    (inArray (str "Inc.") pci.hiddenSuffixVendor).2.Perm pci.hiddenSuffixVendor ∧
    SortedStrings (inArray (str "Inc.") pci.hiddenSuffixVendor).2 ∧
    (inArray (str "Corp") (inArray (str "Inc.") pci.hiddenSuffixVendor).2).2
      = (inArray (str "Inc.") pci.hiddenSuffixVendor).2 ∧
    (pci.getReadableVendor pci.hiddenSuffixVendor (str "Sapphire, Inc.")).2.Perm
      pci.hiddenSuffixVendor :=
  have T := inArray_list_after (str "Inc.") pci.hiddenSuffixVendor (str "Sapphire, Inc.")
  ⟨T.1, T.2.1,
   (inArray_list_after (str "Corp") (inArray (str "Inc.") pci.hiddenSuffixVendor).2 []).2.2.1 T.2.1,
   T.2.2.2.1⟩

set_option maxRecDepth 100000 in
/-- C22 fails on the code: a last word that is "[" alone, a "[" with no "]"
after it and a "]" before the first "[" make the slice bounds invalid, and the
functions panic. -/
theorem pci_bracket_panics :
    (pci.getReadableVendor pci.hiddenSuffixVendor (str "Acme Corp. [")).1 = none ∧
    (pci.getReadableDevice pci.hiddenSuffixDevice (str "Ethernet Adapter [rev 2")).1 = none ∧
    (pci.getReadableDevice pci.hiddenSuffixDevice (str "Port 1] Bridge [X1]")).1 = none ∧
    (pci.getReadableDevice pci.hiddenSuffixDevice (str "Bridge [X1]")).1 = some (str "X1") := by
  decide

/-! ## The decoder on its first four bytes -/

namespace Go

theorem first_val (b : Byte) :
    (b.val < 0x80 ∧ first b = 0xF0) ∨
    ((0x80 ≤ b.val ∧ b.val < 0xC2 ∨ 0xF4 < b.val) ∧ first b = 0xF1) ∨
    (0xC2 ≤ b.val ∧ b.val < 0xE0 ∧ first b = 0x02) ∨
    (b.val = 0xE0 ∧ first b = 0x13) ∨
    ((0xE1 ≤ b.val ∧ b.val < 0xED ∨ 0xEE ≤ b.val ∧ b.val < 0xF0) ∧ first b = 0x03) ∨
    (b.val = 0xED ∧ first b = 0x23) ∨
    (b.val = 0xF0 ∧ first b = 0x34) ∨
    (0xF1 ≤ b.val ∧ b.val < 0xF4 ∧ first b = 0x04) ∨
    (b.val = 0xF4 ∧ first b = 0x44) := by
  unfold first
  by_cases h1 : b.val < 0x80
  · rw [if_pos h1]; exact Or.inl ⟨h1, rfl⟩
  rw [if_neg h1]
  by_cases h2 : b.val < 0xC2
  · rw [if_pos h2]; exact Or.inr (Or.inl ⟨by omega, rfl⟩)
  rw [if_neg h2]
  by_cases h3 : b.val < 0xE0
  · rw [if_pos h3]; exact Or.inr (Or.inr (Or.inl ⟨by omega, h3, rfl⟩))
  rw [if_neg h3]
  by_cases h4 : b.val = 0xE0
  · rw [if_pos h4]; exact Or.inr (Or.inr (Or.inr (Or.inl ⟨h4, rfl⟩)))
  rw [if_neg h4]
  by_cases h5 : b.val < 0xED
  · rw [if_pos h5]; exact Or.inr (Or.inr (Or.inr (Or.inr (Or.inl ⟨by omega, rfl⟩))))
  rw [if_neg h5]
  by_cases h6 : b.val = 0xED
  · rw [if_pos h6]; exact Or.inr (Or.inr (Or.inr (Or.inr (Or.inr (Or.inl ⟨h6, rfl⟩)))))
  rw [if_neg h6]
  by_cases h7 : b.val < 0xF0
  · rw [if_pos h7]; exact Or.inr (Or.inr (Or.inr (Or.inr (Or.inl ⟨by omega, rfl⟩))))
  rw [if_neg h7]
  by_cases h8 : b.val = 0xF0
  · rw [if_pos h8]
    exact Or.inr (Or.inr (Or.inr (Or.inr (Or.inr (Or.inr (Or.inl ⟨h8, rfl⟩))))))
  rw [if_neg h8]
  by_cases h9 : b.val < 0xF4
  · rw [if_pos h9]
    exact Or.inr (Or.inr (Or.inr (Or.inr (Or.inr (Or.inr (Or.inr
      (Or.inl ⟨by omega, h9, rfl⟩)))))))
  rw [if_neg h9]
  by_cases h10 : b.val = 0xF4
  · rw [if_pos h10]
    exact Or.inr (Or.inr (Or.inr (Or.inr (Or.inr (Or.inr (Or.inr (Or.inr ⟨h10, rfl⟩)))))))
  rw [if_neg h10]
  exact Or.inr (Or.inl ⟨by omega, rfl⟩)

theorem decodeCore_ascii (b0 : Byte) (b1 b2 b3 : Nat) (h : b0.val < 0x80) :
    decodeCore b0 b1 b2 b3 = (b0.val, 1) := by
  rcases first_val b0 with ⟨_, hf⟩ | ⟨_, hf⟩ | ⟨_, _, hf⟩ | ⟨_, hf⟩ | ⟨_, hf⟩ | ⟨_, hf⟩ |
    ⟨_, hf⟩ | ⟨_, _, hf⟩ | ⟨_, hf⟩
  all_goals first
    | omega
    | simp [decodeCore, hf]

theorem decodeCore_not_lead (b0 : Byte) (b1 b2 b3 : Nat)
    (h : 0x80 ≤ b0.val ∧ b0.val < 0xC2 ∨ 0xF4 < b0.val) :
    decodeCore b0 b1 b2 b3 = (RuneError, 1) := by
  rcases first_val b0 with ⟨hb, hf⟩ | ⟨hb, hf⟩ | ⟨hb, hb2, hf⟩ | ⟨hb, hf⟩ | ⟨hb, hf⟩ | ⟨hb, hf⟩ |
    ⟨hb, hf⟩ | ⟨hb, hb2, hf⟩ | ⟨hb, hf⟩
  all_goals first
    | omega
    | simp [decodeCore, hf]

theorem decodeCore_indep (b0 : Byte) (b1 b2 b3 c1 c2 c3 : Nat)
    (h : (notCont b1 ∧ notCont c1) ∨ (b1 = c1 ∧ ((notCont b2 ∧ notCont c2) ∨
      (b2 = c2 ∧ ((notCont b3 ∧ notCont c3) ∨ b3 = c3))))) :
    decodeCore b0 b1 b2 b3 = decodeCore b0 c1 c2 c3 := by
  unfold notCont at h
  rcases first_val b0 with ⟨hb, hf⟩ | ⟨hb, hf⟩ | ⟨hb, hb2, hf⟩ | ⟨hb, hf⟩ | ⟨hb, hf⟩ | ⟨hb, hf⟩ |
    ⟨hb, hf⟩ | ⟨hb, hb2, hf⟩ | ⟨hb, hf⟩
  all_goals simp only [decodeCore, hf, acceptRanges]
  all_goals norm_num
  all_goals split_ifs
  all_goals first
    | with_reducible rfl
    | (exfalso; omega)
    | (have e1 : b1 = c1 := by omega
       subst e1
       first
         | with_reducible rfl
         | (have e2 : b2 = c2 := by omega
            subst e2
            first
              | with_reducible rfl
              | (have e3 : b3 = c3 := by omega
                 subst e3
                 with_reducible rfl)))

theorem decodeCore_trunc1 (b0 : Byte) (b1 b2 b3 c1 c2 c3 : Nat) (h : notCont c1) :
    decodeCore b0 c1 c2 c3 = decodeCore b0 b1 b2 b3 ∨
      decodeCore b0 c1 c2 c3 = (RuneError, 1) := by
  unfold notCont at h
  rcases first_val b0 with ⟨hb, hf⟩ | ⟨hb, hf⟩ | ⟨hb, hb2, hf⟩ | ⟨hb, hf⟩ | ⟨hb, hf⟩ | ⟨hb, hf⟩ |
    ⟨hb, hf⟩ | ⟨hb, hb2, hf⟩ | ⟨hb, hf⟩
  all_goals simp only [decodeCore, hf, acceptRanges]
  all_goals norm_num
  all_goals split_ifs
  all_goals first
    | (left; with_reducible rfl)
    | (right; omega)

theorem decodeCore_trunc2 (b0 : Byte) (b1 b2 b3 c2 c3 : Nat) (h : notCont c2) :
    decodeCore b0 b1 c2 c3 = decodeCore b0 b1 b2 b3 ∨
      decodeCore b0 b1 c2 c3 = (RuneError, 1) := by
  unfold notCont at h
  rcases first_val b0 with ⟨hb, hf⟩ | ⟨hb, hf⟩ | ⟨hb, hb2, hf⟩ | ⟨hb, hf⟩ | ⟨hb, hf⟩ | ⟨hb, hf⟩ |
    ⟨hb, hf⟩ | ⟨hb, hb2, hf⟩ | ⟨hb, hf⟩
  all_goals simp only [decodeCore, hf, acceptRanges]
  all_goals norm_num
  all_goals split_ifs
  all_goals first
    | (left; with_reducible rfl)
    | (right; omega)

theorem decodeCore_trunc3 (b0 : Byte) (b1 b2 b3 c3 : Nat) (h : notCont c3) :
    decodeCore b0 b1 b2 c3 = decodeCore b0 b1 b2 b3 ∨
      decodeCore b0 b1 b2 c3 = (RuneError, 1) := by
  unfold notCont at h
  rcases first_val b0 with ⟨hb, hf⟩ | ⟨hb, hf⟩ | ⟨hb, hb2, hf⟩ | ⟨hb, hf⟩ | ⟨hb, hf⟩ | ⟨hb, hf⟩ |
    ⟨hb, hf⟩ | ⟨hb, hb2, hf⟩ | ⟨hb, hf⟩
  all_goals simp only [decodeCore, hf, acceptRanges]
  all_goals norm_num
  all_goals split_ifs
  all_goals first
    | (left; with_reducible rfl)
    | (right; omega)

theorem decodeCore_size (b0 : Byte) (b1 b2 b3 : Nat) :
    1 ≤ (decodeCore b0 b1 b2 b3).2 ∧ (decodeCore b0 b1 b2 b3).2 ≤ 4 ∧
    (2 ≤ (decodeCore b0 b1 b2 b3).2 → 0xC2 ≤ b0.val ∧ ¬ notCont b1) ∧
    (3 ≤ (decodeCore b0 b1 b2 b3).2 → ¬ notCont b2) ∧
    (4 ≤ (decodeCore b0 b1 b2 b3).2 → ¬ notCont b3) ∧
    ((decodeCore b0 b1 b2 b3).2 = 1 → 0x80 ≤ b0.val →
      (decodeCore b0 b1 b2 b3).1 = RuneError) := by
  unfold notCont
  rcases first_val b0 with ⟨hb, hf⟩ | ⟨hb, hf⟩ | ⟨hb, hb2, hf⟩ | ⟨hb, hf⟩ | ⟨hb, hf⟩ | ⟨hb, hf⟩ |
    ⟨hb, hf⟩ | ⟨hb, hb2, hf⟩ | ⟨hb, hf⟩
  all_goals simp only [decodeCore, hf, acceptRanges]
  all_goals norm_num
  all_goals try split_ifs
  all_goals try dsimp only
  all_goals omega

theorem decodeCore_success (b0 : Byte) (b1 b2 b3 c2 c3 : Nat) :
    ((decodeCore b0 b1 b2 b3).2 = 2 → decodeCore b0 b1 c2 c3 = decodeCore b0 b1 b2 b3) ∧
    ((decodeCore b0 b1 b2 b3).2 = 3 → decodeCore b0 b1 b2 c3 = decodeCore b0 b1 b2 b3) := by
  rcases first_val b0 with ⟨hb, hf⟩ | ⟨hb, hf⟩ | ⟨hb, hb2, hf⟩ | ⟨hb, hf⟩ | ⟨hb, hf⟩ | ⟨hb, hf⟩ |
    ⟨hb, hf⟩ | ⟨hb, hb2, hf⟩ | ⟨hb, hf⟩
  all_goals simp only [decodeCore, hf, acceptRanges]
  all_goals norm_num
  all_goals try split_ifs
  all_goals try dsimp only
  all_goals omega


theorem decodeCore_short (b0 : Byte) (b1 b2 b3 k : Nat) (hx : ¬ first b0 ≥ 0xF0)
    (hk : k < first b0 % 8)
    (h : (k = 1 ∧ b1 = 0) ∨ (k = 2 ∧ b2 = 0) ∨ (k = 3 ∧ b3 = 0)) :
    decodeCore b0 b1 b2 b3 = (RuneError, 1) := by
  rcases first_val b0 with ⟨hb, hf⟩ | ⟨hb, hf⟩ | ⟨hb, hb2, hf⟩ | ⟨hb, hf⟩ | ⟨hb, hf⟩ | ⟨hb, hf⟩ |
    ⟨hb, hf⟩ | ⟨hb, hb2, hf⟩ | ⟨hb, hf⟩
  all_goals rw [hf] at hx hk
  all_goals simp only [decodeCore, hf, acceptRanges]
  all_goals norm_num at hx hk ⊢
  all_goals omega

theorem byteAt_nil (i : Nat) : byteAt [] i = 0 := by simp [byteAt]

theorem byteAt_cons_zero (b : Byte) (t : GoString) : byteAt (b :: t) 0 = b.val := by
  simp [byteAt]

theorem byteAt_cons_succ (b : Byte) (t : GoString) (i : Nat) :
    byteAt (b :: t) (i + 1) = byteAt t i := by
  simp [byteAt]

/-- The decoder reads the first byte and at most three bytes after it. -/
theorem decodeRune_core (b0 : Byte) (rest : GoString) :
    decodeRune (b0 :: rest)
      = decodeCore b0 (byteAt rest 0) (byteAt rest 1) (byteAt rest 2) := by
  have e1 : byteAt (b0 :: rest) 1 = byteAt rest 0 := byteAt_cons_succ _ _ _
  have e2 : byteAt (b0 :: rest) 2 = byteAt rest 1 := byteAt_cons_succ _ _ _
  have e3 : byteAt (b0 :: rest) 3 = byteAt rest 2 := byteAt_cons_succ _ _ _
  unfold decodeRune
  simp only [e1, e2, e3]
  by_cases hx : first b0 ≥ 0xF0
  · simp only [decodeCore, hx, if_true]
  · rw [if_neg hx]
    by_cases hl : (b0 :: rest).length < first b0 % 8
    · rw [if_pos hl]
      symm
      refine decodeCore_short b0 _ _ _ (b0 :: rest).length hx hl ?_
      have hm : first b0 % 8 < 8 := Nat.mod_lt _ (by decide)
      cases rest with
      | nil => left; exact ⟨rfl, byteAt_nil _⟩
      | cons b1 r1 =>
        cases r1 with
        | nil => right; left; exact ⟨rfl, by simp [byteAt]⟩
        | cons b2 r2 =>
          cases r2 with
          | nil => right; right; exact ⟨rfl, by simp [byteAt]⟩
          | cons b3 r3 =>
            exfalso
            rcases first_val b0 with ⟨hb, hf⟩ | ⟨hb, hf⟩ | ⟨hb, hb2, hf⟩ | ⟨hb, hf⟩ | ⟨hb, hf⟩ |
              ⟨hb, hf⟩ | ⟨hb, hf⟩ | ⟨hb, hb2, hf⟩ | ⟨hb, hf⟩
            all_goals rw [hf] at hl
            all_goals simp at hl
            all_goals omega
    · rw [if_neg hl]
      simp only [decodeCore, hx, if_false]


/-! ### Decoding in front of other bytes -/

theorem byteAt_cons_one (b : Byte) (t : GoString) : byteAt (b :: t) 1 = byteAt t 0 :=
  byteAt_cons_succ b t 0

theorem byteAt_cons_two (b : Byte) (t : GoString) : byteAt (b :: t) 2 = byteAt t 1 :=
  byteAt_cons_succ b t 1

theorem notCont_zero : notCont 0 := Or.inl (by decide)

theorem notCont_of_ascii (b : Nat) (h : b < 0x80) : notCont b := Or.inl h

/-- What follows a string does not change the rune decoded at its beginning
when it starts with a byte that is not a continuation byte. -/
theorem decodeRune_append_starts (u y1 y2 : GoString) (hu : u ≠ [])
    (h1 : StartsRune y1) (h2 : StartsRune y2) :
    decodeRune (u ++ y1) = decodeRune (u ++ y2) := by
  unfold StartsRune at h1 h2
  match u, hu with
  | [b0], _ =>
    simp only [List.singleton_append, decodeRune_core]
    exact decodeCore_indep _ _ _ _ _ _ _ (Or.inl ⟨h1, h2⟩)
  | [b0, a], _ =>
    simp only [List.cons_append, List.nil_append, decodeRune_core, byteAt_cons_zero,
      byteAt_cons_one, byteAt_cons_two]
    exact decodeCore_indep _ _ _ _ _ _ _ (Or.inr ⟨rfl, Or.inl ⟨h1, h2⟩⟩)
  | [b0, a, b], _ =>
    simp only [List.cons_append, List.nil_append, decodeRune_core, byteAt_cons_zero,
      byteAt_cons_one, byteAt_cons_two]
    exact decodeCore_indep _ _ _ _ _ _ _ (Or.inr ⟨rfl, Or.inr ⟨rfl, Or.inl ⟨h1, h2⟩⟩⟩)
  | b0 :: a :: b :: c :: r, _ =>
    simp only [List.cons_append, decodeRune_core, byteAt_cons_zero,
      byteAt_cons_one, byteAt_cons_two]

/-- What follows a string that ends with an ASCII byte does not change the
rune decoded at its beginning. -/
theorem decodeRune_append_ends (u y1 y2 : GoString) (hu : u ≠ []) (he : EndsASCII u) :
    decodeRune (u ++ y1) = decodeRune (u ++ y2) := by
  have hl : (u.getLast hu).val < 0x80 := by
    rcases he with he | ⟨v, c, hv, hc⟩
    · exact absurd he hu
    · subst hv
      simpa using hc
  match u, hu, hl with
  | [b0], _, hl =>
    simp only [List.getLast_singleton] at hl
    simp only [List.singleton_append, decodeRune_core]
    rw [decodeCore_ascii _ _ _ _ hl, decodeCore_ascii _ _ _ _ hl]
  | [b0, a], _, hl =>
    simp only [List.getLast_cons_cons, List.getLast_singleton] at hl
    simp only [List.cons_append, List.nil_append, decodeRune_core, byteAt_cons_zero,
      byteAt_cons_one, byteAt_cons_two]
    exact decodeCore_indep _ _ _ _ _ _ _
      (Or.inl ⟨notCont_of_ascii _ hl, notCont_of_ascii _ hl⟩)
  | [b0, a, b], _, hl =>
    simp only [List.getLast_cons_cons, List.getLast_singleton] at hl
    simp only [List.cons_append, List.nil_append, decodeRune_core, byteAt_cons_zero,
      byteAt_cons_one, byteAt_cons_two]
    exact decodeCore_indep _ _ _ _ _ _ _
      (Or.inr ⟨rfl, Or.inl ⟨notCont_of_ascii _ hl, notCont_of_ascii _ hl⟩⟩)
  | b0 :: a :: b :: c :: r, _, _ =>
    simp only [List.cons_append, decodeRune_core, byteAt_cons_zero,
      byteAt_cons_one, byteAt_cons_two]

/-- The rune decoded at the beginning of a prefix is the rune decoded in the
whole string, or the error rune. -/
theorem decodeRune_truncated (u y : GoString) :
    (decodeRune u).1 = (decodeRune (u ++ y)).1 ∨ (decodeRune u).1 = RuneError := by
  match u with
  | [] => right; rfl
  | [b0] =>
    simp only [List.singleton_append, decodeRune_core, byteAt_nil]
    rcases decodeCore_trunc1 b0 (byteAt y 0) (byteAt y 1) (byteAt y 2) 0 0 0 notCont_zero
      with h | h
    · left; rw [h]
    · right; rw [h]
  | [b0, a] =>
    simp only [List.cons_append, List.nil_append, decodeRune_core, byteAt_cons_zero,
      byteAt_cons_one, byteAt_cons_two, byteAt_nil]
    rcases decodeCore_trunc2 b0 a.val (byteAt y 0) (byteAt y 1) 0 0 notCont_zero with h | h
    · left; rw [h]
    · right; rw [h]
  | [b0, a, b] =>
    simp only [List.cons_append, List.nil_append, decodeRune_core, byteAt_cons_zero,
      byteAt_cons_one, byteAt_cons_two, byteAt_nil]
    rcases decodeCore_trunc3 b0 a.val b.val (byteAt y 0) 0 notCont_zero with h | h
    · left; rw [h]
    · right; rw [h]
  | b0 :: a :: b :: c :: r =>
    left
    simp only [List.cons_append, decodeRune_core, byteAt_cons_zero,
      byteAt_cons_one, byteAt_cons_two]

theorem byteAt_map (f : Byte → Byte) (hf1 : ∀ b : Byte, 0x80 ≤ b.val → f b = b)
    (hf2 : ∀ b : Byte, b.val < 0x80 → (f b).val < 0x80) (t : GoString) (i : Nat) :
    byteAt (t.map f) i = byteAt t i ∨ (notCont (byteAt (t.map f) i) ∧ notCont (byteAt t i)) := by
  induction t generalizing i with
  | nil => left; rfl
  | cons b r ih =>
    cases i with
    | zero =>
      simp only [List.map_cons, byteAt_cons_zero]
      by_cases hb : b.val < 0x80
      · right; exact ⟨notCont_of_ascii _ (hf2 b hb), notCont_of_ascii _ hb⟩
      · left; rw [hf1 b (by omega)]
    | succ i =>
      simp only [List.map_cons, byteAt_cons_succ]
      exact ih i

/-- Replacing ASCII bytes by ASCII bytes does not change the rune decoded at a
byte that is not ASCII. -/
theorem decodeRune_map (f : Byte → Byte) (hf1 : ∀ b : Byte, 0x80 ≤ b.val → f b = b)
    (hf2 : ∀ b : Byte, b.val < 0x80 → (f b).val < 0x80) (b0 : Byte) (rest : GoString)
    (h0 : 0x80 ≤ b0.val) :
    decodeRune ((b0 :: rest).map f) = decodeRune (b0 :: rest) := by
  rw [List.map_cons, hf1 b0 h0, decodeRune_core, decodeRune_core]
  apply decodeCore_indep
  rcases byteAt_map f hf1 hf2 rest 0 with e1 | n1
  · rcases byteAt_map f hf1 hf2 rest 1 with e2 | n2
    · rcases byteAt_map f hf1 hf2 rest 2 with e3 | n3
      · exact Or.inr ⟨e1, Or.inr ⟨e2, Or.inr e3⟩⟩
      · exact Or.inr ⟨e1, Or.inr ⟨e2, Or.inl n3⟩⟩
    · exact Or.inr ⟨e1, Or.inl n2⟩
  · exact Or.inl n1

theorem decodeRune_ascii (b0 : Byte) (rest : GoString) (h : b0.val < 0x80) :
    decodeRune (b0 :: rest) = (b0.val, 1) := by
  rw [decodeRune_core, decodeCore_ascii _ _ _ _ h]

theorem decodeRune_cont (b0 : Byte) (rest : GoString) (h1 : 0x80 ≤ b0.val)
    (h2 : b0.val < 0xC0) : decodeRune (b0 :: rest) = (RuneError, 1) := by
  rw [decodeRune_core, decodeCore_not_lead _ _ _ _ (Or.inl ⟨h1, by omega⟩)]


/-! ### The bytes of a rune -/

theorem cont_byteAt_zero (r : GoString) (h : ¬ notCont (byteAt r 0)) :
    ∃ b r2, r = b :: r2 ∧ 0x80 ≤ b.val ∧ b.val < 0xC0 := by
  cases r with
  | nil => exact absurd notCont_zero h
  | cons b r2 =>
    rw [byteAt_cons_zero] at h
    unfold notCont at h
    exact ⟨b, r2, rfl, by omega, by omega⟩

/-- The bytes a decoded rune occupies: the first byte, then continuation bytes
only, and the first byte is a lead byte when there is more than one. -/
theorem decodeRune_chunk (b0 : Byte) (rest : GoString) :
    ∃ cs t2, rest = cs ++ t2 ∧ cs.length + 1 = (decodeRune (b0 :: rest)).2 ∧
      (∀ b ∈ cs, 0x80 ≤ b.val ∧ b.val < 0xC0) ∧ (cs ≠ [] → 0xC2 ≤ b0.val) := by
  rw [decodeRune_core]
  obtain ⟨h1, h4, k2, k3, k4, -⟩ :=
    decodeCore_size b0 (byteAt rest 0) (byteAt rest 1) (byteAt rest 2)
  generalize (decodeCore b0 (byteAt rest 0) (byteAt rest 1) (byteAt rest 2)).2 = n at *
  have hn : n = 1 ∨ n = 2 ∨ n = 3 ∨ n = 4 := by omega
  rcases hn with hn | hn | hn | hn
  · exact ⟨[], rest, rfl, by simp [hn], by simp, by simp⟩
  · obtain ⟨hb0, c1⟩ := k2 (by omega)
    obtain ⟨b1, r1, e1, l1, u1⟩ := cont_byteAt_zero rest c1
    subst e1
    refine ⟨[b1], r1, rfl, by simp [hn], ?_, fun _ => hb0⟩
    intro b hb
    rw [List.mem_singleton.1 hb]
    exact ⟨l1, u1⟩
  · obtain ⟨hb0, c1⟩ := k2 (by omega)
    have c2 := k3 (by omega)
    obtain ⟨b1, r1, e1, l1, u1⟩ := cont_byteAt_zero rest c1
    subst e1
    rw [byteAt_cons_one] at c2
    obtain ⟨b2, r2, e2, l2, u2⟩ := cont_byteAt_zero r1 c2
    subst e2
    refine ⟨[b1, b2], r2, rfl, by simp [hn], ?_, fun _ => hb0⟩
    intro b hb
    simp only [List.mem_cons, List.mem_singleton, List.not_mem_nil, or_false] at hb
    rcases hb with hb | hb
    · rw [hb]; exact ⟨l1, u1⟩
    · rw [hb]; exact ⟨l2, u2⟩
  · obtain ⟨hb0, c1⟩ := k2 (by omega)
    have c2 := k3 (by omega)
    have c3 := k4 (by omega)
    obtain ⟨b1, r1, e1, l1, u1⟩ := cont_byteAt_zero rest c1
    subst e1
    rw [byteAt_cons_one] at c2
    rw [byteAt_cons_two] at c3
    obtain ⟨b2, r2, e2, l2, u2⟩ := cont_byteAt_zero r1 c2
    subst e2
    rw [byteAt_cons_one] at c3
    obtain ⟨b3, r3, e3, l3, u3⟩ := cont_byteAt_zero r2 c3
    subst e3
    refine ⟨[b1, b2, b3], r3, rfl, by simp [hn], ?_, fun _ => hb0⟩
    intro b hb
    simp only [List.mem_cons, List.mem_singleton, List.not_mem_nil, or_false] at hb
    rcases hb with hb | hb | hb
    · rw [hb]; exact ⟨l1, u1⟩
    · rw [hb]; exact ⟨l2, u2⟩
    · rw [hb]; exact ⟨l3, u3⟩

/-- A rune decoded from more than one byte does not depend on what follows
its bytes. -/
theorem decodeRune_chunk_indep (b0 : Byte) (cs t2 z : GoString) (hc : cs ≠ [])
    (h : (decodeRune (b0 :: (cs ++ t2))).2 = cs.length + 1) :
    decodeRune (b0 :: (cs ++ z)) = decodeRune (b0 :: (cs ++ t2)) := by
  match cs, hc with
  | [b1], _ =>
    simp only [List.cons_append, List.nil_append, decodeRune_core, byteAt_cons_zero,
      byteAt_cons_one, byteAt_cons_two, List.length_singleton] at h ⊢
    exact (decodeCore_success b0 b1.val (byteAt t2 0) (byteAt t2 1) (byteAt z 0)
      (byteAt z 1)).1 h
  | [b1, b2], _ =>
    simp only [List.cons_append, List.nil_append, decodeRune_core, byteAt_cons_zero,
      byteAt_cons_one, byteAt_cons_two, List.length_cons, List.length_nil] at h ⊢
    exact (decodeCore_success b0 b1.val b2.val (byteAt t2 0) 0 (byteAt z 0)).2 h
  | [b1, b2, b3], _ =>
    simp only [List.cons_append, List.nil_append, decodeRune_core, byteAt_cons_zero,
      byteAt_cons_one, byteAt_cons_two]
  | b1 :: b2 :: b3 :: b4 :: r, _ =>
    simp only [List.cons_append, decodeRune_core, byteAt_cons_zero,
      byteAt_cons_one, byteAt_cons_two]

theorem Replace_cons (b : Byte) (t : GoString) (old : Byte) (new : GoString) :
    Replace (b :: t) old new = (if b = old then new else [b]) ++ Replace t old new := rfl

theorem Replace_of_not_mem (s : GoString) (old : Byte) (new : GoString) (h : old ∉ s) :
    Replace s old new = s := by
  induction s with
  | nil => rfl
  | cons b t ih =>
    have hb : ¬ b = old := by
      intro e
      rw [e] at h
      exact h (List.mem_cons_self _ _)
    rw [Replace_cons, ih (fun hm => h (List.mem_cons_of_mem _ hm)), if_neg hb]
    rfl

/-- Deleting an ASCII byte everywhere does not change a rune that was decoded
from more than one byte. -/
theorem decodeRune_delete (o : Byte) (ho : o.val < 0x80) (b0 : Byte) (rest : GoString)
    (h : 2 ≤ (decodeRune (b0 :: rest)).2) :
    Replace (b0 :: rest) o [] = b0 :: Replace rest o [] ∧
    decodeRune (b0 :: Replace rest o []) = decodeRune (b0 :: rest) := by
  obtain ⟨cs, t2, e, hl, hcs, hb0⟩ := decodeRune_chunk b0 rest
  have hne : cs ≠ [] := by
    intro hnil
    rw [hnil] at hl
    simp only [List.length_nil] at hl
    omega
  have hb := hb0 hne
  have h0 : b0 ≠ o := by
    intro e0
    rw [e0] at hb
    omega
  have hmem : o ∉ cs := by
    intro hm
    have := (hcs o hm).1
    omega
  subst e
  constructor
  · rw [Replace_cons, if_neg h0]; rfl
  · rw [Replace_append, Replace_of_not_mem cs o [] hmem]
    exact decodeRune_chunk_indep b0 cs t2 _ hne hl.symm


/-! ### Strings without white space at any byte offset -/

theorem IsSpace_RuneError : IsSpace RuneError = false := by decide

theorem StartsRune_nil : StartsRune [] := notCont_zero

theorem StartsRune_cons_ascii (c : Byte) (y : GoString) (h : c.val < 0x80) :
    StartsRune (c :: y) := by
  unfold StartsRune
  rw [byteAt_cons_zero]
  exact notCont_of_ascii _ h

/-- A suffix of `x ++ y` is a suffix of `y`, or a nonempty suffix of `x` followed by `y`. -/
theorem suffix_append_cases (t x y : GoString) (h : t <:+ x ++ y) :
    t <:+ y ∨ ∃ u, u <:+ x ∧ u ≠ [] ∧ t = u ++ y := by
  obtain ⟨v, hv⟩ := h
  rcases List.append_eq_append_iff.1 hv with ⟨a, ha, hb⟩ | ⟨c, -, hc⟩
  · by_cases hnil : a = []
    · left
      rw [hb, hnil]
      exact List.suffix_refl _
    · right
      exact ⟨a, ⟨v, ha.symm⟩, hnil, hb⟩
  · left
    exact ⟨c, hc.symm⟩

theorem EndsASCII_suffix (x u : GoString) (hx : EndsASCII x) (hu : u <:+ x) : EndsASCII u := by
  rcases hx with hx | ⟨v, c, hv, hc⟩
  · left
    rw [hx] at hu
    exact List.suffix_nil.1 hu
  · rw [hv] at hu
    rcases suffix_append_cases u v [c] hu with h | ⟨w, -, -, hw⟩
    · rcases List.suffix_cons_iff.1 h with h1 | h1
      · right
        exact ⟨[], c, by rw [h1]; rfl, hc⟩
      · left
        exact List.suffix_nil.1 h1
    · right
      exact ⟨w, c, hw, hc⟩

theorem EndsASCII_append_ascii (x : GoString) (c : Byte) (h : c.val < 0x80) :
    EndsASCII (x ++ [c]) := Or.inr ⟨x, c, rfl, h⟩

theorem SpaceFree_nil : SpaceFree [] := by
  intro t ht
  rw [List.suffix_nil.1 ht]
  exact IsSpace_RuneError

theorem LeadsValid_nil : LeadsValid [] := by
  intro b0 rest ht
  exact absurd (List.suffix_nil.1 ht) (List.cons_ne_nil _ _)

theorem SpaceFree_suffix (x t : GoString) (hx : SpaceFree x) (ht : t <:+ x) : SpaceFree t :=
  fun u hu => hx u (hu.trans ht)

theorem LeadsValid_suffix (x t : GoString) (hx : LeadsValid x) (ht : t <:+ x) : LeadsValid t :=
  fun b0 rest hu => hx b0 rest (hu.trans ht)

theorem SpaceFree_left (x y : GoString) (h : SpaceFree (x ++ y)) : SpaceFree x := by
  intro t ht
  have h1 : t ++ y <:+ x ++ y := by
    obtain ⟨v, hv⟩ := ht
    exact ⟨v, by rw [← hv, List.append_assoc]⟩
  rcases decodeRune_truncated t y with e | e
  · rw [e]; exact h _ h1
  · rw [e]; exact IsSpace_RuneError

theorem SpaceFree_part (x m : GoString) (hx : SpaceFree x) (hm : m <:+: x) : SpaceFree m := by
  obtain ⟨l, r, e⟩ := hm
  have h1 : SpaceFree (m ++ r) := SpaceFree_suffix x _ hx ⟨l, by rw [← e, List.append_assoc]⟩
  exact SpaceFree_left m r h1

/-- The rune decoded at a nonempty suffix of `x` is the same with and without
`y` behind it, when `y` begins a rune or `x` ends with an ASCII byte. -/
theorem decodeRune_append_right (x y u : GoString) (hu : u <:+ x) (hne : u ≠ [])
    (hc : StartsRune y ∨ EndsASCII x) : decodeRune (u ++ y) = decodeRune u := by
  have e : decodeRune (u ++ y) = decodeRune (u ++ []) := by
    rcases hc with hc | hc
    · exact decodeRune_append_starts u y [] hne hc StartsRune_nil
    · exact decodeRune_append_ends u y [] hne (EndsASCII_suffix x u hc hu)
  rwa [List.append_nil] at e

theorem SpaceFree_append (x y : GoString) (hx : SpaceFree x) (hy : SpaceFree y)
    (hc : StartsRune y ∨ EndsASCII x) : SpaceFree (x ++ y) := by
  intro t ht
  rcases suffix_append_cases t x y ht with h | ⟨u, hu, hne, e⟩
  · exact hy t h
  · rw [e, decodeRune_append_right x y u hu hne hc]
    exact hx u hu

theorem LeadsValid_append (x y : GoString) (hx : LeadsValid x) (hy : LeadsValid y)
    (hc : StartsRune y ∨ EndsASCII x) : LeadsValid (x ++ y) := by
  intro b0 rest ht h0
  rcases suffix_append_cases _ x y ht with h | ⟨u, hu, hne, e⟩
  · exact hy b0 rest h h0
  · rw [e, decodeRune_append_right x y u hu hne hc]
    cases u with
    | nil => exact absurd rfl hne
    | cons a u2 =>
      have ea : b0 = a := by
        rw [List.cons_append] at e
        exact (List.cons.inj e).1
      subst ea
      exact hx b0 u2 hu h0

theorem LeadsValid_left (x y : GoString) (h : LeadsValid (x ++ y)) (hy : StartsRune y) :
    LeadsValid x := by
  intro b0 rest ht h0
  have h1 : (b0 :: rest) ++ y <:+ x ++ y := by
    obtain ⟨v, hv⟩ := ht
    exact ⟨v, by rw [← hv, List.append_assoc]⟩
  have h2 := h b0 (rest ++ y) h1 h0
  rw [← List.cons_append, decodeRune_append_right (b0 :: rest) y (b0 :: rest)
    (List.suffix_refl _) (List.cons_ne_nil _ _) (Or.inl hy)] at h2
  exact h2

theorem suffix_map (f : Byte → Byte) (x t : GoString) (h : t <:+ x.map f) :
    ∃ t0, t0 <:+ x ∧ t = t0.map f := by
  obtain ⟨v, hv⟩ := h
  obtain ⟨l1, l2, e, -, e2⟩ := List.map_eq_append_iff.1 hv.symm
  exact ⟨l2, ⟨l1, e.symm⟩, e2.symm⟩

theorem SpaceFree_map (f : Byte → Byte) (hf1 : ∀ b : Byte, 0x80 ≤ b.val → f b = b)
    (hf2 : ∀ b : Byte, b.val < 0x80 → (f b).val < 0x80)
    (hf3 : ∀ b : Byte, b.val < 0x80 → IsSpace b.val = false → IsSpace (f b).val = false)
    (x : GoString) (hx : SpaceFree x) : SpaceFree (x.map f) := by
  intro t ht
  obtain ⟨t0, h0, e⟩ := suffix_map f x t ht
  subst e
  cases t0 with
  | nil => exact IsSpace_RuneError
  | cons b0 r =>
    have hs := hx _ h0
    by_cases hb : b0.val < 0x80
    · rw [decodeRune_ascii b0 r hb] at hs
      rw [List.map_cons, decodeRune_ascii (f b0) _ (hf2 b0 hb)]
      exact hf3 b0 hb hs
    · rw [decodeRune_map f hf1 hf2 b0 r (by omega)]
      exact hs

theorem LeadsValid_map (f : Byte → Byte) (hf1 : ∀ b : Byte, 0x80 ≤ b.val → f b = b)
    (hf2 : ∀ b : Byte, b.val < 0x80 → (f b).val < 0x80)
    (x : GoString) (hx : LeadsValid x) : LeadsValid (x.map f) := by
  intro c0 rest ht hc
  obtain ⟨t0, h0, e⟩ := suffix_map f x _ ht
  cases t0 with
  | nil => exact absurd e (List.cons_ne_nil _ _)
  | cons b0 r =>
    rw [e]
    rw [List.map_cons] at e
    have e0 : c0 = f b0 := (List.cons.inj e).1
    have hb : 0x80 ≤ b0.val := by
      by_contra hlt
      have := hf2 b0 (by omega)
      rw [← e0] at this
      omega
    rw [decodeRune_map f hf1 hf2 b0 r hb]
    have e1 : c0 = b0 := by rw [e0, hf1 b0 hb]
    exact hx b0 r h0 (by rw [← e1]; exact hc)

theorem Replace_one_eq_map (s : GoString) (old c : Byte) :
    Replace s old [c] = s.map (replaceByte old c) := by
  induction s with
  | nil => rfl
  | cons b t ih =>
    rw [Replace_cons, ih, List.map_cons]
    unfold replaceByte
    by_cases hb : b = old
    · rw [if_pos hb, if_pos hb]; rfl
    · rw [if_neg hb, if_neg hb]; rfl

theorem replaceByte_high (old c : Byte) (ho : old.val < 0x80) (b : Byte) (hb : 0x80 ≤ b.val) :
    replaceByte old c b = b := by
  unfold replaceByte
  rw [if_neg]
  intro e
  rw [e] at hb
  omega

theorem replaceByte_low (old c : Byte) (hc : c.val < 0x80) (b : Byte) (hb : b.val < 0x80) :
    (replaceByte old c b).val < 0x80 := by
  unfold replaceByte
  split_ifs
  · exact hc
  · exact hb

theorem replaceByte_space (old c : Byte) (hc : IsSpace c.val = false) (b : Byte)
    (hb : IsSpace b.val = false) : IsSpace (replaceByte old c b).val = false := by
  unfold replaceByte
  split_ifs
  · exact hc
  · exact hb

theorem SpaceFree_Replace_one (x : GoString) (old c : Byte) (ho : old.val < 0x80)
    (hc : c.val < 0x80) (hs : IsSpace c.val = false) (hx : SpaceFree x) :
    SpaceFree (Replace x old [c]) := by
  rw [Replace_one_eq_map]
  exact SpaceFree_map _ (replaceByte_high old c ho) (replaceByte_low old c hc)
    (fun b _ hb => replaceByte_space old c hs b hb) x hx

theorem LeadsValid_Replace_one (x : GoString) (old c : Byte) (ho : old.val < 0x80)
    (hc : c.val < 0x80) (hx : LeadsValid x) : LeadsValid (Replace x old [c]) := by
  rw [Replace_one_eq_map]
  exact LeadsValid_map _ (replaceByte_high old c ho) (replaceByte_low old c hc) x hx

theorem suffix_delete (o : Byte) (x t : GoString) (h : t <:+ Replace x o []) :
    t = [] ∨ ∃ b0 rest, (b0 :: rest) <:+ x ∧ b0 ≠ o ∧ t = b0 :: Replace rest o [] := by
  induction x with
  | nil =>
    left
    exact List.suffix_nil.1 h
  | cons a x2 ih =>
    rw [Replace_cons] at h
    by_cases ha : a = o
    · rw [if_pos ha, List.nil_append] at h
      rcases ih h with e | ⟨b0, rest, hs, hb, e⟩
      · exact Or.inl e
      · exact Or.inr ⟨b0, rest, hs.trans (List.suffix_cons _ _), hb, e⟩
    · rw [if_neg ha, List.singleton_append] at h
      rcases List.suffix_cons_iff.1 h with e | h2
      · exact Or.inr ⟨a, x2, List.suffix_refl _, ha, e⟩
      · rcases ih h2 with e | ⟨b0, rest, hs, hb, e⟩
        · exact Or.inl e
        · exact Or.inr ⟨b0, rest, hs.trans (List.suffix_cons _ _), hb, e⟩

/-- Deleting an ASCII byte keeps both invariants, when both hold before. -/
theorem clean_delete (o : Byte) (ho : o.val < 0x80) (x : GoString) (hs : SpaceFree x)
    (hl : LeadsValid x) : SpaceFree (Replace x o []) ∧ LeadsValid (Replace x o []) := by
  constructor
  · intro t ht
    rcases suffix_delete o x t ht with e | ⟨b0, rest, hsuf, hb, e⟩
    · rw [e]; exact IsSpace_RuneError
    · rw [e]
      have h1 := hs _ hsuf
      by_cases c1 : b0.val < 0x80
      · rw [decodeRune_ascii b0 _ c1]
        rw [decodeRune_ascii b0 _ c1] at h1
        exact h1
      · by_cases c2 : b0.val < 0xC0
        · rw [decodeRune_cont b0 _ (by omega) c2]
          exact IsSpace_RuneError
        · rw [(decodeRune_delete o ho b0 rest (hl b0 rest hsuf (by omega))).2]
          exact h1
  · intro c0 r ht hc
    rcases suffix_delete o x _ ht with e | ⟨b0, rest, hsuf, hb, e⟩
    · exact absurd e (List.cons_ne_nil _ _)
    · rw [e]
      have e0 : c0 = b0 := (List.cons.inj e).1
      rw [e0] at hc
      have h2 := hl b0 rest hsuf hc
      rw [(decodeRune_delete o ho b0 rest h2).2]
      exact h2

/-- A string of ASCII bytes none of which is white space has both invariants. -/
theorem clean_ascii (x : GoString) (h : ∀ b ∈ x, b.val < 0x80 ∧ IsSpace b.val = false) :
    SpaceFree x ∧ LeadsValid x := by
  constructor
  · intro t ht
    cases t with
    | nil => exact IsSpace_RuneError
    | cons b0 r =>
      have hb := h b0 (ht.subset (List.mem_cons_self _ _))
      rw [decodeRune_ascii b0 r hb.1]
      exact hb.2
  · intro b0 r ht hc
    have hb := h b0 (ht.subset (List.mem_cons_self _ _))
    omega

theorem GoodPrefix_of (x : GoString) (hs : SpaceFree x) (hl : LeadsValid x) : GoodPrefix x :=
  ⟨[], by rw [List.append_nil]; exact hs, by rw [List.append_nil]; exact hl⟩

theorem GoodPrefix_part (x m : GoString) (hx : GoodPrefix x) (hm : m <:+: x) :
    GoodPrefix m := by
  obtain ⟨y, hs, hl⟩ := hx
  obtain ⟨l, r, e⟩ := hm
  have hsuf : m ++ (r ++ y) <:+ x ++ y := ⟨l, by rw [← e]; simp only [List.append_assoc]⟩
  exact ⟨r ++ y, SpaceFree_suffix _ _ hs hsuf, LeadsValid_suffix _ _ hl hsuf⟩

theorem GoodPrefix_Replace_one (x : GoString) (old c : Byte) (ho : old.val < 0x80)
    (hc : c.val < 0x80) (hs : IsSpace c.val = false) (hx : GoodPrefix x) :
    GoodPrefix (Replace x old [c]) := by
  obtain ⟨y, h1, h2⟩ := hx
  refine ⟨Replace y old [c], ?_, ?_⟩
  · rw [← Replace_append]
    exact SpaceFree_Replace_one _ old c ho hc hs h1
  · rw [← Replace_append]
    exact LeadsValid_Replace_one _ old c ho hc h2

theorem GoodPrefix_delete (x : GoString) (o : Byte) (ho : o.val < 0x80) (hx : GoodPrefix x) :
    GoodPrefix (Replace x o []) := by
  obtain ⟨y, h1, h2⟩ := hx
  have h := clean_delete o ho (x ++ y) h1 h2
  rw [Replace_append] at h
  exact ⟨Replace y o [], h.1, h.2⟩

theorem GoodPrefix_spaceFree (x : GoString) (hx : GoodPrefix x) : SpaceFree x := by
  obtain ⟨y, h1, -⟩ := hx
  exact SpaceFree_left x y h1

theorem SpaceFree_runesAux (fuel : Nat) (x : GoString) (hx : SpaceFree x) :
    ∀ p ∈ runesAux fuel x, IsSpace p.1 = false := by
  induction fuel generalizing x with
  | zero => intro p hp; simp [runesAux] at hp
  | succ n ih =>
    cases x with
    | nil => intro p hp; simp [runesAux] at hp
    | cons b bs =>
      intro p hp
      simp only [runesAux, List.mem_cons] at hp
      rcases hp with e | hp
      · rw [e]
        exact hx _ (List.suffix_refl _)
      · exact ih _ (SpaceFree_suffix _ _ hx (List.drop_suffix _ _)) p hp

/-- A string whose every byte offset decodes to a rune that is not white space
has no white space rune. -/
theorem SpaceFree_noSpace (x : GoString) (hx : SpaceFree x) : NoSpace x :=
  SpaceFree_runesAux x.length x hx


/-! ### The fields of a string -/

/-- One round of the loop over the runes: the rune read, its bytes, and the
rest of the string. -/
theorem runesAux_step (n : Nat) (b : Byte) (bs : GoString) :
    ∃ cs t2, bs = cs ++ t2 ∧ (∀ c ∈ cs, 0x80 ≤ c.val ∧ c.val < 0xC0) ∧
      (cs ≠ [] → 0xC2 ≤ b.val) ∧ cs.length + 1 = (decodeRune (b :: bs)).2 ∧
      runesAux (n + 1) (b :: bs) = ((decodeRune (b :: bs)).1, b :: cs) :: runesAux n t2 := by
  obtain ⟨cs, t2, e, hl, hcs, hb⟩ := decodeRune_chunk b bs
  refine ⟨cs, t2, e, hcs, hb, hl, ?_⟩
  have h1 : (b :: bs).take (decodeRune (b :: bs)).2 = b :: cs := by
    rw [← hl, e, List.take_succ_cons, List.take_left]
  have h2 : (b :: bs).drop (decodeRune (b :: bs)).2 = t2 := by
    rw [← hl, e, List.drop_succ_cons, List.drop_left]
  simp only [runesAux]
  rw [h1, h2]

theorem decodeRune_size_one (b : Byte) (r : GoString) (h : (decodeRune (b :: r)).2 = 1)
    (hb : 0x80 ≤ b.val) : (decodeRune (b :: r)).1 = RuneError := by
  rw [decodeRune_core] at h ⊢
  exact (decodeCore_size b _ _ _).2.2.2.2.2 h hb

theorem suffix_cont (cs u : GoString) (hcs : ∀ c ∈ cs, 0x80 ≤ c.val ∧ c.val < 0xC0)
    (hu : u <:+ cs) (hne : u ≠ []) :
    ∃ c r, u = c :: r ∧ 0x80 ≤ c.val ∧ c.val < 0xC0 := by
  cases u with
  | nil => exact absurd rfl hne
  | cons c r => exact ⟨c, r, rfl, hcs c (hu.subset (List.mem_cons_self _ _))⟩

theorem fieldsLoop_nil_eq (cur : GoString) :
    fieldsLoop [] cur = if cur = [] then [] else [cur] := by
  unfold fieldsLoop
  rfl

theorem fieldsLoop_cons_eq (r : Nat) (bs : GoString) (rest : List (Nat × GoString))
    (cur : GoString) :
    fieldsLoop ((r, bs) :: rest) cur =
      if IsSpace r then (if cur = [] then fieldsLoop rest [] else cur :: fieldsLoop rest [])
      else fieldsLoop rest (cur ++ bs) := by
  rw [fieldsLoop]

/-- A field that is closed has both invariants, when the bytes gathered so far
had them in front of the rest of the input and the rest begins a rune. -/
theorem closed_word (L : Prop) (t cur : GoString) (ht : StartsRune t)
    (hs : ∀ u, u <:+ cur → u ≠ [] → IsSpace (decodeRune (u ++ t)).1 = false)
    (hl : L → ∀ u, u <:+ cur → ∀ b0 rest, u = b0 :: rest → 0xC0 ≤ b0.val →
      2 ≤ (decodeRune (u ++ t)).2) :
    SpaceFree cur ∧ (L → LeadsValid cur) := by
  constructor
  · intro u hu
    by_cases hne : u = []
    · rw [hne]; exact IsSpace_RuneError
    · have h := hs u hu hne
      rw [decodeRune_append_right u t u (List.suffix_refl _) hne (Or.inl ht)] at h
      exact h
  · intro hL b0 rest hu h0
    have h := hl hL _ hu b0 rest rfl h0
    rw [decodeRune_append_right _ t _ (List.suffix_refl _) (List.cons_ne_nil _ _)
      (Or.inl ht)] at h
    exact h

/-- Every field the loop of `Fields` returns has both invariants. -/
theorem fieldsLoop_words (L : Prop) (fuel : Nat) : ∀ (t cur : GoString), t.length ≤ fuel →
    (∀ u, u <:+ cur → u ≠ [] → IsSpace (decodeRune (u ++ t)).1 = false) →
    (L → LeadsValid t) →
    (L → ∀ u, u <:+ cur → ∀ b0 rest, u = b0 :: rest → 0xC0 ≤ b0.val →
      2 ≤ (decodeRune (u ++ t)).2) →
    ∀ w ∈ fieldsLoop (runesAux fuel t) cur, SpaceFree w ∧ (L → LeadsValid w) := by
  induction fuel with
  | zero =>
    intro t cur hlen hs hlt hl w hw
    have ht : t = [] := List.length_eq_zero.1 (Nat.le_zero.1 hlen)
    subst ht
    simp only [runesAux, fieldsLoop_nil_eq] at hw
    split_ifs at hw with hc
    · simp at hw
    · rw [List.mem_singleton.1 hw]
      exact closed_word L [] cur StartsRune_nil hs hl
  | succ n ih =>
    intro t cur hlen hs hlt hl w hw
    cases t with
    | nil =>
      simp only [runesAux, fieldsLoop_nil_eq] at hw
      split_ifs at hw with hc
      · simp at hw
      · rw [List.mem_singleton.1 hw]
        exact closed_word L [] cur StartsRune_nil hs hl
    | cons b bs =>
      obtain ⟨cs, t2, e, hcs, hb, hsz, hr⟩ := runesAux_step n b bs
      rw [hr, fieldsLoop_cons_eq] at hw
      have hlen2 : t2.length ≤ n := by
        rw [e] at hlen
        simp only [List.length_cons, List.length_append] at hlen
        omega
      have hsuf2 : t2 <:+ b :: bs := by
        rw [e]
        exact ⟨b :: cs, rfl⟩
      by_cases hsp : IsSpace (decodeRune (b :: bs)).1 = true
      · rw [if_pos hsp] at hw
        have hstart : StartsRune (b :: bs) := by
          unfold StartsRune notCont
          rw [byteAt_cons_zero]
          by_contra hcon
          rw [decodeRune_cont b bs (by omega) (by omega), IsSpace_RuneError] at hsp
          exact Bool.false_ne_true hsp
        have hrest : ∀ w ∈ fieldsLoop (runesAux n t2) [], SpaceFree w ∧ (L → LeadsValid w) := by
          apply ih t2 [] hlen2
          · intro u hu hne
            exact absurd (List.suffix_nil.1 hu) hne
          · intro hL
            exact LeadsValid_suffix _ _ (hlt hL) hsuf2
          · intro _ u hu b0 rest hcons
            rw [List.suffix_nil.1 hu] at hcons
            exact absurd hcons (List.cons_ne_nil _ _).symm
        split_ifs at hw with hc
        · exact hrest w hw
        · rcases List.mem_cons.1 hw with hw1 | hw2
          · rw [hw1]
            exact closed_word L (b :: bs) cur hstart hs hl
          · exact hrest w hw2
      · rw [if_neg hsp] at hw
        have hsp2 : IsSpace (decodeRune (b :: bs)).1 = false := by simpa using hsp
        have hbs : (b :: cs) ++ t2 = b :: bs := by rw [e]; rfl
        apply ih t2 (cur ++ (b :: cs)) hlen2 ?_ ?_ ?_ w hw
        · intro u hu hne
          rcases suffix_append_cases u cur (b :: cs) hu with h | ⟨u1, hu1, hne1, e1⟩
          · rcases List.suffix_cons_iff.1 h with h1 | h1
            · rw [h1, hbs]
              exact hsp2
            · obtain ⟨c, r, ec, hc1, hc2⟩ := suffix_cont cs u hcs h1 hne
              rw [ec, List.cons_append, decodeRune_cont c _ hc1 hc2]
              exact IsSpace_RuneError
          · rw [e1, List.append_assoc, hbs]
            exact hs u1 hu1 hne1
        · intro hL
          exact LeadsValid_suffix _ _ (hlt hL) hsuf2
        · intro hL u hu b0 rest hcons h0
          rcases suffix_append_cases u cur (b :: cs) hu with h | ⟨u1, hu1, hne1, e1⟩
          · rcases List.suffix_cons_iff.1 h with h1 | h1
            · rw [h1, hbs]
              have eb : b0 = b := by
                rw [h1] at hcons
                exact ((List.cons.inj hcons).1).symm
              rw [eb] at h0
              exact hlt hL b bs (List.suffix_refl _) h0
            · obtain ⟨c, r, ec, hc1, hc2⟩ :=
                suffix_cont cs u hcs h1 (by rw [hcons]; exact List.cons_ne_nil _ _)
              have eb : b0 = c := by
                rw [ec] at hcons
                exact ((List.cons.inj hcons).1).symm
              rw [eb] at h0
              omega
          · rw [e1, List.append_assoc, hbs]
            cases u1 with
            | nil => exact absurd rfl hne1
            | cons a r1 =>
              have eb : b0 = a := by
                rw [e1, List.cons_append] at hcons
                exact ((List.cons.inj hcons).1).symm
              rw [eb] at h0
              exact hl hL _ hu1 a r1 rfl h0

/-- Every field of `Fields s` has no white space at any byte offset, and every
lead byte in it begins a well formed rune when that holds in `s`. -/
theorem Fields_words (s : GoString) :
    ∀ w ∈ Fields s, SpaceFree w ∧ (LeadsValid s → LeadsValid w) := by
  apply fieldsLoop_words (LeadsValid s) s.length s [] (le_refl _)
  · intro u hu hne
    exact absurd (List.suffix_nil.1 hu) hne
  · exact fun h => h
  · intro _ u hu b0 rest hcons
    rw [List.suffix_nil.1 hu] at hcons
    exact absurd hcons (List.cons_ne_nil _ _).symm

theorem runesAux_valid (fuel : Nat) : ∀ t : GoString, t.length ≤ fuel →
    (∀ p ∈ runesAux fuel t, p.1 = RuneError → p.2.length ≠ 1) → LeadsValid t := by
  induction fuel with
  | zero =>
    intro t hlen _
    rw [List.length_eq_zero.1 (Nat.le_zero.1 hlen)]
    exact LeadsValid_nil
  | succ n ih =>
    intro t hlen h
    cases t with
    | nil => exact LeadsValid_nil
    | cons b bs =>
      obtain ⟨cs, t2, e, hcs, hb, hsz, hr⟩ := runesAux_step n b bs
      rw [hr] at h
      have hlen2 : t2.length ≤ n := by
        rw [e] at hlen
        simp only [List.length_cons, List.length_append] at hlen
        omega
      have h2 : LeadsValid t2 := ih t2 hlen2 (fun p hp => h p (List.mem_cons_of_mem _ hp))
      have hbs : (b :: cs) ++ t2 = b :: bs := by rw [e]; rfl
      intro b0 rest hsuf h0
      rw [← hbs] at hsuf
      rcases suffix_append_cases _ (b :: cs) t2 hsuf with k | ⟨u, hu, hne, e1⟩
      · exact h2 b0 rest k h0
      · rcases List.suffix_cons_iff.1 hu with k1 | k1
        · rw [e1, k1, hbs]
          have eb : b0 = b := by
            rw [k1, List.cons_append] at e1
            exact (List.cons.inj e1).1
          rw [eb] at h0
          by_contra hlt
          have hone : (decodeRune (b :: bs)).2 = 1 := by
            have := decodeRune_size_pos b bs
            omega
          have herr := decodeRune_size_one b bs hone (by omega)
          have hcsnil : cs = [] := by
            rw [hone] at hsz
            exact List.length_eq_zero.1 (by omega)
          have := h _ (List.mem_cons_self _ _) herr
          rw [hcsnil] at this
          exact this rfl
        · obtain ⟨c, r, ec, hc1, hc2⟩ := suffix_cont cs u hcs k1 hne
          have eb : b0 = c := by
            rw [ec, List.cons_append] at e1
            exact (List.cons.inj e1).1
          rw [eb] at h0
          omega

/-- In a string of valid UTF-8 every lead byte begins a well formed rune. -/
theorem ValidString_leadsValid (s : GoString) (h : ValidString s) : LeadsValid s :=
  runesAux_valid s.length s (le_refl _) h

theorem fieldsLoop_all_space (rs : List (Nat × GoString))
    (h : ∀ p ∈ rs, IsSpace p.1 = true) : fieldsLoop rs [] = [] := by
  induction rs with
  | nil => rfl
  | cons p rs ih =>
    obtain ⟨r, bs⟩ := p
    rw [fieldsLoop_cons_eq, if_pos (h (r, bs) (List.mem_cons_self _ _)), if_pos rfl]
    exact ih (fun q hq => h q (List.mem_cons_of_mem _ hq))

/-- A string made of white space only has no field. -/
theorem Fields_all_space (s : GoString) (h : ∀ p ∈ runes s, IsSpace p.1 = true) :
    Fields s = [] :=
  fieldsLoop_all_space _ h

theorem runesAux_all_space (fuel : Nat) : ∀ t : GoString, t.length ≤ fuel →
    (∀ p ∈ runesAux fuel t, IsSpace p.1 = true) →
    ∀ c ∈ t, IsSpace c.val = true ∨ 0x80 ≤ c.val := by
  induction fuel with
  | zero =>
    intro t hlen _ c hc
    rw [List.length_eq_zero.1 (Nat.le_zero.1 hlen)] at hc
    exact absurd hc (List.not_mem_nil _)
  | succ n ih =>
    intro t hlen h c hc
    cases t with
    | nil => exact absurd hc (List.not_mem_nil _)
    | cons b bs =>
      obtain ⟨cs, t2, e, hcs, hb, hsz, hr⟩ := runesAux_step n b bs
      rw [hr] at h
      have hlen2 : t2.length ≤ n := by
        rw [e] at hlen
        simp only [List.length_cons, List.length_append] at hlen
        omega
      rw [e] at hc
      rcases List.mem_cons.1 hc with h1 | h1
      · by_cases hlow : b.val < 0x80
        · left
          have := h _ (List.mem_cons_self _ _)
          rw [decodeRune_ascii b bs hlow] at this
          rw [h1]
          exact this
        · right
          rw [h1]
          omega
      · rcases List.mem_append.1 h1 with h2 | h2
        · exact Or.inr (hcs c h2).1
        · exact ih t2 hlen2 (fun p hp => h p (List.mem_cons_of_mem _ hp)) c h2

/-- A string made of white space only has no opening bracket. -/
theorem all_space_no_bracket (s : GoString) (h : ∀ p ∈ runes s, IsSpace p.1 = true) :
    ch '[' ∉ s := by
  intro hm
  rcases runesAux_all_space s.length s (le_refl _) h _ hm with k | k
  · revert k; decide
  · revert k; decide


/-! ### What `Trim` keeps -/

theorem trimLeftUnicodeAux_suffix (cutset : GoString) (fuel : Nat) (s : GoString) :
    trimLeftUnicodeAux cutset fuel s <:+ s := by
  induction fuel generalizing s with
  | zero => exact List.suffix_refl _
  | succ n ih =>
    cases s with
    | nil => exact List.suffix_refl _
    | cons b bs =>
      simp only [trimLeftUnicodeAux]
      split_ifs
      · exact List.suffix_refl _
      · exact (ih _).trans (List.drop_suffix _ _)
      · exact List.suffix_refl _
      · exact (ih _).trans (List.drop_suffix _ _)

theorem trimRightUnicodeAux_left (cutset : GoString) (fuel : Nat) (s : GoString) :
    trimRightUnicodeAux cutset fuel s <+: s := by
  induction fuel generalizing s with
  | zero => exact List.prefix_refl _
  | succ n ih =>
    simp only [trimRightUnicodeAux]
    split_ifs
    any_goals exact List.prefix_refl _
    all_goals exact List.IsPrefix.trans (ih _) <| List.take_prefix _ _

theorem mem_cutset_ascii (c : GoString) (hc : isASCII c = true) (b : Byte)
    (hb : c.contains b = true) : b.val < 0x80 := by
  have hm : b ∈ c := by simpa using hb
  unfold isASCII at hc
  have := List.all_eq_true.1 hc b hm
  simpa using this

/-- With a cutset of ASCII bytes `Trim` removes a prefix and a suffix; the
suffix removed is made of bytes of the cutset. -/
theorem Trim_ascii_decomp (s c : GoString) (hc : isASCII c = true) :
    ∃ l r, s = l ++ Trim s c ++ r ∧ StartsRune r := by
  unfold Trim
  split_ifs with h1
  · exact ⟨[], [], by simp, StartsRune_nil⟩
  · unfold trimLeftASCII trimRightASCII
    refine ⟨List.takeWhile (fun b => c.contains b)
        (s.reverse.dropWhile (fun b => c.contains b)).reverse,
      (s.reverse.takeWhile (fun b => c.contains b)).reverse, ?_, ?_⟩
    · rw [List.takeWhile_append_dropWhile, ← List.reverse_append,
        List.takeWhile_append_dropWhile, List.reverse_reverse]
    · cases hr : (s.reverse.takeWhile (fun b => c.contains b)).reverse with
      | nil => exact StartsRune_nil
      | cons b r2 =>
        have hm : b ∈ (s.reverse.takeWhile (fun b => c.contains b)).reverse := by
          rw [hr]; exact List.mem_cons_self _ _
        have hm2 := List.mem_takeWhile_imp (List.mem_reverse.1 hm)
        exact StartsRune_cons_ascii b r2 (mem_cutset_ascii c hc b hm2)

/-- The result of `Trim` is a run of consecutive bytes of its argument. -/
theorem Trim_part (s c : GoString) : Trim s c <:+: s := by
  by_cases hc : isASCII c = true
  · obtain ⟨l, r, e, -⟩ := Trim_ascii_decomp s c hc
    exact ⟨l, r, e.symm⟩
  · unfold Trim
    split_ifs
    · exact List.infix_refl _
    · exact ((trimLeftUnicodeAux_suffix _ _ _).isInfix).trans
        ((trimRightUnicodeAux_left _ _ _).isInfix)

theorem SpaceFree_Trim (s c : GoString) (hs : SpaceFree s) : SpaceFree (Trim s c) :=
  SpaceFree_part s _ hs (Trim_part s c)

theorem LeadsValid_Trim (s c : GoString) (hc : isASCII c = true) (hs : LeadsValid s) :
    LeadsValid (Trim s c) := by
  obtain ⟨l, r, e, hr⟩ := Trim_ascii_decomp s c hc
  have h1 : LeadsValid (Trim s c ++ r) :=
    LeadsValid_suffix s _ hs ⟨l, by rw [List.append_assoc] at e; exact e.symm⟩
  exact LeadsValid_left _ r h1 hr

theorem SpaceFree_take (s : GoString) (n : Nat) (hs : SpaceFree s) : SpaceFree (s.take n) :=
  SpaceFree_part s _ hs <| List.IsPrefix.isInfix <| List.take_prefix n s

theorem GoodPrefix_take (s : GoString) (n : Nat) (hs : GoodPrefix s) : GoodPrefix (s.take n) :=
  GoodPrefix_part s _ hs <| List.IsPrefix.isInfix <| List.take_prefix n s

theorem GoodPrefix_Trim (s c : GoString) (hs : GoodPrefix s) : GoodPrefix (Trim s c) :=
  GoodPrefix_part s _ hs (Trim_part s c)

/-- The byte `Index` finds: the string splits there. -/
theorem Index_split (s : GoString) (c : Byte) (h : Index s c ≠ -1) :
    ∃ a rest, s = a ++ c :: rest ∧ Index s c = (a.length : Int) := by
  induction s with
  | nil => exact absurd rfl h
  | cons x xs ih =>
    by_cases hx : x = c
    · refine ⟨[], xs, by rw [hx]; rfl, ?_⟩
      simp [Index, hx]
    · by_cases hi : Index xs c = -1
      · exfalso
        apply h
        simp [Index, hx, hi]
      · obtain ⟨a, rest, e, hl⟩ := ih hi
        refine ⟨x :: a, rest, by rw [e]; rfl, ?_⟩
        simp only [Index, if_neg hx, if_neg hi, hl, List.length_cons]
        push_cast
        rfl

theorem getD_all (P : GoString → Prop) (l : List GoString) (i : Nat) (h0 : P [])
    (h : ∀ w ∈ l, P w) : P (l.getD i []) := by
  rw [List.getD_eq_getElem?_getD]
  cases hg : l[i]? with
  | none => exact h0
  | some w => exact h w (List.getElem?_mem hg)

theorem set_all (P : GoString → Prop) (l : List GoString) (i : Nat) (x : GoString) (hx : P x)
    (h : ∀ w ∈ l, P w) : ∀ w ∈ l.set i x, P w := by
  intro w hw
  rcases List.mem_or_eq_of_mem_set hw with k | k
  · exact h w k
  · rw [k]; exact hx

end Go

/-! ## Derived names contain no white space -/

set_option maxRecDepth 100000 in
theorem SpaceFree_str_dash : SpaceFree (str "-") ∧ LeadsValid (str "-") :=
  clean_ascii _ (by decide)

set_option maxRecDepth 100000 in
theorem SpaceFree_wrong_id : SpaceFree (str "Wrong-ID") ∧ LeadsValid (str "Wrong-ID") :=
  clean_ascii _ (by decide)

theorem SpaceFree_join (a b : GoString) (ha : SpaceFree a) (hb : SpaceFree b) :
    SpaceFree (a ++ str "-" ++ b) := by
  rw [List.append_assoc]
  exact SpaceFree_append a _ ha
    (SpaceFree_append _ b SpaceFree_str_dash.1 hb (Or.inr (Or.inr ⟨[], ch '-', rfl, by decide⟩)))
    (Or.inl (StartsRune_cons_ascii (ch '-') _ (by decide)))

theorem LeadsValid_join (a b : GoString) (ha : LeadsValid a) (hb : LeadsValid b) :
    LeadsValid (a ++ str "-" ++ b) := by
  rw [List.append_assoc]
  exact LeadsValid_append a _ ha
    (LeadsValid_append _ b SpaceFree_str_dash.2 hb (Or.inr (Or.inr ⟨[], ch '-', rfl, by decide⟩)))
    (Or.inl (StartsRune_cons_ascii (ch '-') _ (by decide)))

theorem SpaceFree_sliceExpr (s r : GoString) (lo hi : Int) (hs : SpaceFree s)
    (h : sliceExpr s lo hi = some r) : SpaceFree r := by
  unfold sliceExpr at h
  split_ifs at h
  rw [← Option.some.inj h]
  exact SpaceFree_part s _ hs
    ((List.drop_suffix _ _).isInfix.trans <| List.IsPrefix.isInfix <| List.take_prefix _ _)

/-- PCI `getReadableClass`: the result has no white space at any byte offset. -/
theorem pci_class_spaceFree (s r : GoString) (h : pci.getReadableClass s = some r) :
    SpaceFree r := by
  unfold pci.getReadableClass at h
  simp only at h
  cases hg : (Fields s).get? 0 with
  | none => rw [hg] at h; exact absurd h (by simp)
  | some w =>
    rw [hg] at h
    have hw : SpaceFree w := (Fields_words s w (List.get?_mem hg)).1
    simp only [Option.some.injEq] at h
    rw [← h]
    split_ifs
    · exact SpaceFree_take w _ hw
    · exact hw

/-- PCI `getReadableVendor`: the result has no white space at any byte offset. -/
theorem pci_vendor_spaceFree (hs : List GoString) (s r : GoString)
    (h : (pci.getReadableVendor hs s).1 = some r) : SpaceFree r := by
  have hall : ∀ w ∈ Fields s, SpaceFree w := fun w hw => (Fields_words s w hw).1
  have h1 : ∀ w ∈ (Fields s).set 0 (Trim ((Fields s).getD 0 []) (str ".,?")), SpaceFree w :=
    set_all SpaceFree _ _ _ (SpaceFree_Trim _ _ (getD_all SpaceFree _ _ SpaceFree_nil hall)) hall
  have h2 : ∀ w ∈ ((Fields s).set 0 (Trim ((Fields s).getD 0 []) (str ".,?"))).set 1
      (Trim (((Fields s).set 0 (Trim ((Fields s).getD 0 []) (str ".,?"))).getD 1 [])
        (str ".,?")), SpaceFree w :=
    set_all SpaceFree _ _ _ (SpaceFree_Trim _ _ (getD_all SpaceFree _ _ SpaceFree_nil h1)) h1
  have fin : ∀ x : GoString, SpaceFree x →
      SpaceFree (Replace (Trim x (str "-/&")) (ch '/') (str "-")) := fun x hx =>
    SpaceFree_Replace_one _ _ _ (by decide) (by decide) (by decide) (SpaceFree_Trim _ _ hx)
  unfold pci.getReadableVendor at h
  simp only [] at h
  split_ifs at h
  all_goals simp only [Option.map_some', Option.some.injEq, Option.map_eq_some'] at h
  · rw [← h]; exact SpaceFree_nil
  · rw [← h]; exact fin _ SpaceFree_wrong_id.1
  · obtain ⟨a, ha, e⟩ := h
    rw [← e]
    exact fin _ (SpaceFree_sliceExpr _ _ _ _ (getD_all SpaceFree _ _ SpaceFree_nil hall) ha)
  · rw [← h]; exact fin _ (SpaceFree_take _ _ (getD_all SpaceFree _ _ SpaceFree_nil h1))
  · rw [← h]; exact fin _ (getD_all SpaceFree _ _ SpaceFree_nil h1)
  · rw [← h]; exact fin _ (getD_all SpaceFree _ _ SpaceFree_nil h1)
  · rw [← h]
    exact fin _ (SpaceFree_take _ _ (SpaceFree_join _ _
      (getD_all SpaceFree _ _ SpaceFree_nil h2) (getD_all SpaceFree _ _ SpaceFree_nil h2)))
  · rw [← h]
    exact fin _ (SpaceFree_join _ _
      (getD_all SpaceFree _ _ SpaceFree_nil h2) (getD_all SpaceFree _ _ SpaceFree_nil h2))

theorem Clean_nil : Clean [] := ⟨SpaceFree_nil, LeadsValid_nil⟩

theorem Clean_Trim (x c : GoString) (hc : isASCII c = true) (hx : Clean x) : Clean (Trim x c) :=
  ⟨SpaceFree_Trim x c hx.1, LeadsValid_Trim x c hc hx.2⟩

theorem Clean_join (a b : GoString) (ha : Clean a) (hb : Clean b) :
    Clean (a ++ str "-" ++ b) :=
  ⟨SpaceFree_join a b ha.1 hb.1, LeadsValid_join a b ha.2 hb.2⟩

theorem Clean_good (x : GoString) (hx : Clean x) : GoodPrefix x := GoodPrefix_of x hx.1 hx.2

/-- USB `getReadableVendor`: the result has no white space at any byte offset
when every lead byte of the input begins a well formed rune. -/
theorem usb_vendor_spaceFree (hs : List GoString) (s : GoString) (hv : LeadsValid s) :
    SpaceFree (usb.getReadableVendor hs s).1 := by
  have hall : ∀ w ∈ Fields s, Clean w := fun w hw =>
    ⟨(Fields_words s w hw).1, (Fields_words s w hw).2 hv⟩
  have hcut : isASCII (str ".,?[]()") = true := by decide
  have h1 : ∀ w ∈ (Fields s).set 0 (Trim ((Fields s).getD 0 []) (str ".,?[]()")), Clean w :=
    set_all Clean _ _ _ (Clean_Trim _ _ hcut (getD_all Clean _ _ Clean_nil hall)) hall
  have h2 : ∀ w ∈ ((Fields s).set 0 (Trim ((Fields s).getD 0 []) (str ".,?[]()"))).set 1
      (Trim (((Fields s).set 0 (Trim ((Fields s).getD 0 []) (str ".,?[]()"))).getD 1 [])
        (str ".,?[]()")), Clean w :=
    set_all Clean _ _ _ (Clean_Trim _ _ hcut (getD_all Clean _ _ Clean_nil h1)) h1
  have fin : ∀ x : GoString, GoodPrefix x →
      SpaceFree (Replace (Replace (Trim x (str "-/&+")) (ch '/') (str "-")) (ch '.') []) :=
    fun x hx => GoodPrefix_spaceFree _ (GoodPrefix_delete _ _ (by decide)
      (GoodPrefix_Replace_one _ _ _ (by decide) (by decide) (by decide)
        (GoodPrefix_Trim _ _ hx)))
  unfold usb.getReadableVendor
  simp only []
  split_ifs
  · exact SpaceFree_nil
  · exact fin _ (Clean_good _ SpaceFree_wrong_id)
  · exact fin _ (GoodPrefix_take _ _ (Clean_good _ (getD_all Clean _ _ Clean_nil h1)))
  · exact fin _ (Clean_good _ (getD_all Clean _ _ Clean_nil h1))
  · exact fin _ (Clean_good _ (getD_all Clean _ _ Clean_nil h1))
  · exact fin _ (GoodPrefix_take _ _ (Clean_good _ (Clean_join _ _
      (getD_all Clean _ _ Clean_nil h2) (getD_all Clean _ _ Clean_nil h2))))
  · exact fin _ (Clean_good _ (Clean_join _ _
      (getD_all Clean _ _ Clean_nil h2) (getD_all Clean _ _ Clean_nil h2)))

theorem EndsASCII_dash (x : GoString) : EndsASCII (x ++ str "-") :=
  Or.inr ⟨x, ch '-', by rw [str_dash], by decide⟩

theorem SpaceFree_add_word (acc d : GoString) (ha : SpaceFree acc) (he : EndsASCII acc)
    (hd : SpaceFree d) : SpaceFree (acc ++ (d ++ str "-")) :=
  SpaceFree_append acc _ ha
    (SpaceFree_append d _ hd SpaceFree_str_dash.1
      (Or.inl (StartsRune_cons_ascii (ch '-') _ (by decide)))) (Or.inr he)

theorem LeadsValid_add_word (acc d : GoString) (ha : LeadsValid acc) (he : EndsASCII acc)
    (hd : LeadsValid d) : LeadsValid (acc ++ (d ++ str "-")) :=
  LeadsValid_append acc _ ha
    (LeadsValid_append d _ hd SpaceFree_str_dash.2
      (Or.inl (StartsRune_cons_ascii (ch '-') _ (by decide)))) (Or.inr he)

theorem EndsASCII_add_word (acc d : GoString) : EndsASCII (acc ++ (d ++ str "-")) := by
  rw [← List.append_assoc]
  exact EndsASCII_dash _

theorem usb_deviceLoop_spaceFree (ws : List GoString) (acc : GoString)
    (hws : ∀ w ∈ ws, SpaceFree w) (ha : SpaceFree acc) (he : EndsASCII acc) :
    SpaceFree (usb.deviceLoop ws acc) := by
  induction ws generalizing acc with
  | nil => exact ha
  | cons w ws ih =>
    have hw2 : ∀ v ∈ ws, SpaceFree v := fun v hv => hws v (List.mem_cons_of_mem _ hv)
    simp only [usb.deviceLoop]
    split_ifs
    · exact ih _ hw2 (SpaceFree_add_word _ _ ha he
        (SpaceFree_Trim _ _ (hws w (List.mem_cons_self _ _)))) (EndsASCII_add_word _ _)
    · exact ih _ hw2 ha he

theorem SpaceFree_usbSubst (x : GoString) (hx : SpaceFree x) : SpaceFree (usbSubst x) := by
  unfold usbSubst
  have k : ∀ (y : GoString) (o : Byte), o.val < 0x80 → SpaceFree y →
      SpaceFree (Replace y o (str "-")) := fun y o ho hy =>
    SpaceFree_Replace_one y o (ch '-') ho (by decide) (by decide) hy
  exact k _ _ (by decide) (k _ _ (by decide) (k _ _ (by decide) (k _ _ (by decide)
    (k _ _ (by decide) (k _ _ (by decide) (k _ _ (by decide) (k _ _ (by decide) hx)))))))

/-- USB `getReadableDevice`: the result has no white space at any byte offset. -/
theorem usb_device_spaceFree (s : GoString) : SpaceFree (usb.getReadableDevice s) := by
  have hall : ∀ w ∈ Fields s, SpaceFree w := fun w hw => (Fields_words s w hw).1
  have hl : SpaceFree (usb.deviceLoop (Fields s) []) :=
    usb_deviceLoop_spaceFree _ _ hall SpaceFree_nil (Or.inl rfl)
  rw [usb_getReadableDevice_eq]
  split_ifs
  · exact SpaceFree_nil
  · exact SpaceFree_Trim _ _ (SpaceFree_usbSubst _ (SpaceFree_take _ _ hl))
  · exact SpaceFree_Trim _ _ (SpaceFree_usbSubst _ hl)

theorem pci_deviceLoop_clean (ws : List GoString) (acc : GoString) (hs : List GoString)
    (hws : ∀ w ∈ ws, Clean w) (ha : Clean acc) (he : EndsASCII acc) :
    Clean (pci.deviceLoop ws acc hs).1 := by
  induction ws generalizing acc hs with
  | nil => exact ha
  | cons w ws ih =>
    have hw2 : ∀ v ∈ ws, Clean v := fun v hv => hws v (List.mem_cons_of_mem _ hv)
    have hw := Clean_Trim w (str "-/&()") (by decide) (hws w (List.mem_cons_self _ _))
    simp only [pci.deviceLoop]
    split_ifs
    · exact ih _ _ hw2 ⟨SpaceFree_add_word _ _ ha.1 he hw.1,
        LeadsValid_add_word _ _ ha.2 he hw.2⟩ (EndsASCII_add_word _ _)
    · exact ih _ _ hw2 ha he
    · exact ih _ _ hw2 ha he

theorem LeadsValid_bracket (s m : GoString) (lo : Int) (hv : LeadsValid s)
    (h : sliceExpr s lo (Index s (ch ']')) = some m) : LeadsValid m := by
  unfold sliceExpr at h
  split_ifs at h with hc
  have hne : Index s (ch ']') ≠ -1 := by omega
  obtain ⟨a, rest, e, hi⟩ := Index_split s (ch ']') hne
  rw [hi] at h
  rw [← Option.some.inj h]
  have ht : s.take ((a.length : Int)).toNat = a := by
    rw [Int.toNat_ofNat]
    conv_lhs => rw [e]
    exact List.take_left _ _
  rw [ht]
  have ha : LeadsValid a := by
    rw [e] at hv
    exact LeadsValid_left a _ hv (StartsRune_cons_ascii _ _ (by decide))
  exact LeadsValid_suffix a _ ha (List.drop_suffix _ _)

/-- PCI `getReadableDevice`: the result has no white space at any byte offset
when every lead byte of the input begins a well formed rune. -/
theorem pci_device_spaceFree (hs : List GoString) (s r : GoString) (hv : LeadsValid s)
    (h : (pci.getReadableDevice hs s).1 = some r) : SpaceFree r := by
  have key : ∀ m : GoString, LeadsValid m → ∀ hs2 : List GoString,
      SpaceFree (Trim (Replace (Replace
        (if (Replace (Replace (pci.deviceLoop (Fields m) [] hs2).1 (ch '(') []) (ch ')') []).length
            > pci.deviceMaxLen
         then (Replace (Replace (pci.deviceLoop (Fields m) [] hs2).1 (ch '(') [])
            (ch ')') []).take (pci.deviceMaxLen - 1)
         else Replace (Replace (pci.deviceLoop (Fields m) [] hs2).1 (ch '(') []) (ch ')') [])
        (ch '/') (str "-")) (ch '&') (str "-")) (str "-")) := by
    intro m hm hs2
    have hall : ∀ w ∈ Fields m, Clean w := fun w hw =>
      ⟨(Fields_words m w hw).1, (Fields_words m w hw).2 hm⟩
    have hl := pci_deviceLoop_clean (Fields m) [] hs2 hall Clean_nil (Or.inl rfl)
    have hd1 := clean_delete (ch '(') (by decide) _ hl.1 hl.2
    have hd2 := clean_delete (ch ')') (by decide) _ hd1.1 hd1.2
    have k : ∀ (y : GoString) (o : Byte), o.val < 0x80 → SpaceFree y →
        SpaceFree (Replace y o (str "-")) := fun y o ho hy =>
      SpaceFree_Replace_one y o (ch '-') ho (by decide) (by decide) hy
    apply SpaceFree_Trim
    apply k _ _ (by decide)
    apply k _ _ (by decide)
    split_ifs
    · exact SpaceFree_take _ _ hd2.1
    · exact hd2.1
  unfold pci.getReadableDevice at h
  simp only [] at h
  by_cases hi : Index s (ch '[') ≠ -1
  · rw [if_pos hi] at h
    cases hb : sliceExpr s (Index s (ch '[') + 1) (Index s (ch ']')) with
    | none => rw [hb] at h; exact absurd h (by simp)
    | some m =>
      rw [hb] at h
      simp only [] at h
      have hm := LeadsValid_bracket s m _ hv hb
      by_cases h0 : (Fields m).length = 0
      · rw [if_pos h0] at h
        simp only [Option.some.injEq] at h
        rw [← h]; exact SpaceFree_nil
      · rw [if_neg h0] at h
        simp only [Option.some.injEq] at h
        rw [← h]; exact key m hm hs
  · rw [if_neg hi] at h
    simp only [] at h
    by_cases h0 : (Fields s).length = 0
    · rw [if_pos h0] at h
      simp only [Option.some.injEq] at h
      rw [← h]; exact SpaceFree_nil
    · rw [if_neg h0] at h
      simp only [Option.some.injEq] at h
      rw [← h]; exact key s hv hs

theorem pci_vendor_blank (hs : List GoString) (s : GoString)
    (h : ∀ p ∈ runes s, IsSpace p.1 = true) : (pci.getReadableVendor hs s).1 = some [] := by
  unfold pci.getReadableVendor
  simp only []
  rw [Fields_all_space s h]
  rfl

theorem pci_device_blank (hs : List GoString) (s : GoString)
    (h : ∀ p ∈ runes s, IsSpace p.1 = true) : (pci.getReadableDevice hs s).1 = some [] := by
  unfold pci.getReadableDevice
  simp only []
  rw [Index_of_not_mem s _ (all_space_no_bracket s h), if_neg (by simp)]
  simp only []
  rw [Fields_all_space s h]
  rfl

theorem usb_vendor_blank (hs : List GoString) (s : GoString)
    (h : ∀ p ∈ runes s, IsSpace p.1 = true) : (usb.getReadableVendor hs s).1 = [] := by
  unfold usb.getReadableVendor
  simp only []
  rw [Fields_all_space s h]
  rfl

theorem usb_device_blank (s : GoString)
    (h : ∀ p ∈ runes s, IsSpace p.1 = true) : usb.getReadableDevice s = [] := by
  rw [usb_getReadableDevice_eq, Fields_all_space s h]
  rfl

/-- C23, amended: the results of PCI `getReadableClass`, PCI `getReadableVendor`
and USB `getReadableDevice` contain no white space rune, whatever the input;
the results of PCI `getReadableDevice` and USB `getReadableVendor` contain none
when the input is valid UTF-8; and the four vendor and device functions return
the empty string when every rune of the input is white space (the empty input
included).  The lists are the values of the three noise-suffix variables. -/
theorem derived_names_no_space (hv hd hu : List GoString) (s : GoString) :
    (∀ r, pci.getReadableClass s = some r → NoSpace r) ∧
    (∀ r, (pci.getReadableVendor hv s).1 = some r → NoSpace r) ∧
    NoSpace (usb.getReadableDevice s) ∧
    (ValidString s → ∀ r, (pci.getReadableDevice hd s).1 = some r → NoSpace r) ∧
    (ValidString s → NoSpace (usb.getReadableVendor hu s).1) ∧
    ((∀ p ∈ runes s, IsSpace p.1 = true) →
      (pci.getReadableVendor hv s).1 = some [] ∧ (pci.getReadableDevice hd s).1 = some [] ∧
      (usb.getReadableVendor hu s).1 = [] ∧ usb.getReadableDevice s = []) :=
  ⟨fun r h => SpaceFree_noSpace r (pci_class_spaceFree s r h),
   fun r h => SpaceFree_noSpace r (pci_vendor_spaceFree hv s r h),
   SpaceFree_noSpace _ (usb_device_spaceFree s),
   fun hval r h => SpaceFree_noSpace r
     (pci_device_spaceFree hd s r (ValidString_leadsValid s hval) h),
   fun hval => SpaceFree_noSpace _ (usb_vendor_spaceFree hu s (ValidString_leadsValid s hval)),
   fun h => ⟨pci_vendor_blank hv s h, pci_device_blank hd s h, usb_vendor_blank hu s h,
     usb_device_blank s h⟩⟩

set_option maxRecDepth 100000 in
/-- C23 as stated fails: the bytes `C2 28 A0` are one word for `Fields`, PCI
`getReadableDevice` deletes the `(` between them and returns the bytes `C2 A0`,
the no-break space U+00A0; USB `getReadableVendor` does the same to `C2 2E A0`
by deleting the dot. -/
theorem derived_names_space_from_invalid_utf8 :
    (pci.getReadableDevice pci.hiddenSuffixDevice [0xC2, 0x28, 0xA0]).1 = some [0xC2, 0xA0] ∧
    (usb.getReadableVendor usb.hiddenSuffixVendor [0xC2, 0x2E, 0xA0]).1 = [0xC2, 0xA0] ∧
    runes [0xC2, 0xA0] = [(0xA0, [0xC2, 0xA0])] ∧ IsSpace 0xA0 = true ∧
    ¬ NoSpace [0xC2, 0xA0] ∧
    ¬ ValidString [0xC2, 0x28, 0xA0] ∧ ¬ ValidString [0xC2, 0x2E, 0xA0] := by
  unfold NoSpace ValidString
  decide

set_option maxRecDepth 100000 in
theorem derived_names_no_space_witness :
    NoSpace (str "Iris") ∧ NoSpace (str "Iris-Plus") ∧
    NoSpace (usb.getReadableDevice (str "Iris Plus Graphics G7 (Ice Lake)")) ∧
    (ValidString (str "Iris Plus Graphics G7 (Ice Lake)") ∧
      NoSpace (str "Iris-Plus-G7-Ice-Lake")) ∧
    NoSpace (usb.getReadableVendor usb.hiddenSuffixVendor
      (str "Iris Plus Graphics G7 (Ice Lake)")).1 ∧
    (Fields [0x20, 0x09, 0x20] = [] ∧
      (pci.getReadableVendor pci.hiddenSuffixVendor [0x20, 0x09, 0x20]).1 = some [] ∧
      (pci.getReadableDevice pci.hiddenSuffixDevice [0x20, 0x09, 0x20]).1 = some [] ∧
      (usb.getReadableVendor usb.hiddenSuffixVendor [0x20, 0x09, 0x20]).1 = [] ∧
      usb.getReadableDevice [0x20, 0x09, 0x20] = []) :=
  ⟨(derived_names_no_space pci.hiddenSuffixVendor pci.hiddenSuffixDevice usb.hiddenSuffixVendor
      (str "Iris Plus Graphics G7 (Ice Lake)")).1 _ (by decide),
   (derived_names_no_space pci.hiddenSuffixVendor pci.hiddenSuffixDevice usb.hiddenSuffixVendor
      (str "Iris Plus Graphics G7 (Ice Lake)")).2.1 _ (by decide),
   (derived_names_no_space pci.hiddenSuffixVendor pci.hiddenSuffixDevice usb.hiddenSuffixVendor
      (str "Iris Plus Graphics G7 (Ice Lake)")).2.2.1,
   ⟨by unfold ValidString; decide,
    (derived_names_no_space pci.hiddenSuffixVendor pci.hiddenSuffixDevice usb.hiddenSuffixVendor
      (str "Iris Plus Graphics G7 (Ice Lake)")).2.2.2.1 (by unfold ValidString; decide) _
      (by decide)⟩,
   (derived_names_no_space pci.hiddenSuffixVendor pci.hiddenSuffixDevice usb.hiddenSuffixVendor
      (str "Iris Plus Graphics G7 (Ice Lake)")).2.2.2.2.1 (by unfold ValidString; decide),
   ⟨by decide,
    (derived_names_no_space pci.hiddenSuffixVendor pci.hiddenSuffixDevice usb.hiddenSuffixVendor
      [0x20, 0x09, 0x20]).2.2.2.2.2 (by decide)⟩⟩
